import Mathlib

/-!
# Katya mesh messaging core: shallow embedding and verified properties

The Go sources under go/pkg/protocol, go/internal/mesh and go/internal/crypto
are embedded as pure functions over explicit state.

Conventions of the embedding
* A Go map with string keys is an association list with unique keys; the list order
  stands for one iteration order of the map.
* time.Time is the number of nanoseconds on a common time line (an integer), and
  time.Duration is a signed number of nanoseconds. The clock reading that Go takes
  with time.Now is an explicit argument.
* Pointers to records are modelled by value; where two containers hold the same
  pointer a well-formedness predicate says that the entries agree.
* Logging is omitted, except for the errors that the broker logs instead of
  returning them; sending to a peer is recorded in a list of emissions.
-/

namespace KatyaMesh

/-! ## Go maps keyed by strings -/

/-- Lookup m[key]; none stands for a missing key. -/
def mapGet {β : Type} : List (String × β) → String → Option β
  | [], _ => none
  | (k, v) :: m, key => if k = key then some v else mapGet m key

/-- Assignment m[key] = v: replaces the entry in place or appends a new one. -/
def mapSet {β : Type} : List (String × β) → String → β → List (String × β)
  | [], key, v => [(key, v)]
  | (k, w) :: m, key, v => if k = key then (key, v) :: m else (k, w) :: mapSet m key v

/-- The builtin delete(m, key). -/
def mapDelete {β : Type} : List (String × β) → String → List (String × β)
  | [], _ => []
  | (k, w) :: m, key => if k = key then mapDelete m key else (k, w) :: mapDelete m key

/-- The keys of the map in iteration order. -/
def mapKeys {β : Type} (m : List (String × β)) : List String :=
  m.map Prod.fst

/-! ## float64 arithmetic used by the quorum test

Non-negative finite doubles are written as m * 2 ^ e with m below 2 ^ 53. -/

/-- Number of binary digits of n (n below 2 ^ fuel). -/
def bitLength : Nat → Nat → Nat
  | 0, _ => 0
  | fuel + 1, n => if n = 0 then 0 else bitLength fuel (n / 2) + 1

/-- Rounding of the exact value m * 2 ^ e to the nearest float64, ties to even
(the value is assumed to lie in the normal range; m is below 2 ^ 256). -/
def roundF64 (m : Nat) (e : Int) : Nat × Int :=
  if m < 2 ^ 53 then (m, e)
  else
    let s := bitLength 256 m - 53
    let q := m / 2 ^ s
    let r := m % 2 ^ s
    let half := 2 ^ (s - 1)
    let q1 := if half < r ∨ (r = half ∧ q % 2 = 1) then q + 1 else q
    (q1, e + (s : Int))

/-- The function math.Ceil on the double m * 2 ^ e, as an integer. -/
def ceilF64 (m : Nat) (e : Int) : Nat :=
  if 0 ≤ e then m * 2 ^ e.toNat
  else (m + 2 ^ (-e).toNat - 1) / 2 ^ (-e).toNat

/-- The float64 nearest to the constant 0.67 is 6034823500676465 * 2 ^ (-53). -/
def mantissa067 : Nat := 6034823500676465

/-- The value int(math.Ceil(float64(totalPeers)*0.67)) of checkConsensus. -/
def quorumThreshold (totalPeers : Nat) : Int :=
  let x := roundF64 totalPeers 0
  let p := roundF64 (x.1 * mantissa067) (x.2 - 53)
  (ceilF64 p.1 p.2 : Int)

/-! ## Messages (go/pkg/protocol) -/

/-- Modelled from the spec: the message kinds (chat, health, consensus-proposal,
consensus-vote, gossip, control); the constants MessageTypeConsensusProposal,
MessageTypeConsensusVote and MessageTypeHealth are used but not declared in the
sources. -/
inductive MessageType where
  | chat
  | health
  | consensusProposal
  | consensusVote
  | gossip
  | control
deriving DecidableEq, Repr

/-- A single vote. Interface values are represented by their rendering under the
format verb v (the nil interface renders as the text of nilValue). -/
structure Vote where
  NodeID : String
  Value : String
  Timestamp : Int
  Signature : List Nat
deriving DecidableEq, Repr

/-- The result of a consensus round. -/
structure ConsensusResult where
  Value : String
  VoteCount : Int
  TotalVotes : Int
  Achieved : Bool
deriving DecidableEq, Repr

/-- A voting round; EndTime and Consensus are nil pointers when none. -/
structure VoteRound where
  ID : String
  Proposal : String
  Votes : List (String × Vote)
  StartTime : Int
  EndTime : Option Int
  Consensus : Option ConsensusResult
deriving DecidableEq, Repr

/-- The fields of a message other than its payload (see Message). -/
structure MessageHead where
  ID : String
  Type_ : MessageType
  From : String
  To : String
  Timestamp : Int
  Hops : Int
  TTL : Int
  Path : List String
deriving DecidableEq, Repr

/-- The dynamic type of Message.Payload, as far as the type assertions of the
protocols distinguish it: a byte slice, a pointer to a vote round, a map from
strings to interface values (of which only the entry proposalID, when it is a
string, and the entry vote, when it is a Vote, are looked at), a pointer to a
gossip message (its fields ID, Round and Timestamp, and the message its field
Data points to, given by head and payload; see GossipMessage), or anything else. -/
inductive Payload where
  | bytes (b : List Nat)
  | round (r : VoteRound)
  | fields (proposalID : Option String) (vote : Option Vote)
  | other
  | gossip (ID : String) (Round : Int) (Timestamp : Int) (head : MessageHead)
      (payload : Payload)
deriving DecidableEq, Repr

/-- The message record as the protocols of go/pkg/protocol read and build it
(fields ID, Type, From, To, Payload, Timestamp, Hops, TTL; the field Type is
written Type_), together with the forwarding path Path that message.go declares.
Hops and TTL are Go ints, kept in the int64 range by wrapInt64. A composite
literal that does not mention Path leaves it nil, the empty list. -/
structure Message where
  ID : String
  Type_ : MessageType
  From : String
  To : String
  Payload : Payload
  Timestamp : Int
  Hops : Int
  TTL : Int
  Path : List String
deriving DecidableEq, Repr

/-- A gossiped message with its metadata; Data points to the message. -/
structure GossipMessage where
  ID : String
  Round : Int
  Timestamp : Int
  Data : Message
deriving DecidableEq, Repr

/-- The fields of a message other than its payload. -/
def Message.head (m : Message) : MessageHead :=
  { ID := m.ID, Type_ := m.Type_, From := m.From, To := m.To, Timestamp := m.Timestamp,
    Hops := m.Hops, TTL := m.TTL, Path := m.Path }

/-- A pointer to a gossip message as a payload. -/
def Payload.ofGossip (g : GossipMessage) : Payload :=
  Payload.gossip g.ID g.Round g.Timestamp g.Data.head g.Data.Payload

/-- The type assertion message.Payload.(*GossipMessage); none when it fails. -/
def Payload.asGossip : Payload → Option GossipMessage
  | Payload.gossip gid ground gtime ghead gpayload =>
    some
      { ID := gid, Round := ground, Timestamp := gtime
        Data :=
          { ID := ghead.ID, Type_ := ghead.Type_, From := ghead.From, To := ghead.To,
            Payload := gpayload, Timestamp := ghead.Timestamp, Hops := ghead.Hops,
            TTL := ghead.TTL, Path := ghead.Path } }
  | _ => none

/-- One call of peer.SendMessage: the key of the peer and the message handed over. -/
abbrev Emission := String × Message

/-- Two-complement wrap-around of a 64 bit signed integer. -/
def wrapInt64 (x : Int) : Int :=
  (x + 2 ^ 63) % 2 ^ 64 - 2 ^ 63

/-- The values of a Go int on a 64 bit platform. -/
def inInt64 (x : Int) : Prop :=
  -(2 ^ 63) ≤ x ∧ x < 2 ^ 63

instance (x : Int) : Decidable (inInt64 x) := by
  unfold inInt64; exact inferInstance

/-! ## Consensus protocol (go/pkg/protocol/consensus.go) -/

/-- The rendering of the nil interface value. -/
def nilValue : String := "<nil>"

/-- The consensus protocol state. The map peers is kept by its keys. -/
structure ConsensusProtocol where
  nodeID : String
  peers : List String
  votes : List (String × VoteRound)
  quorumSize : Int
  timeout : Int
deriving DecidableEq, Repr

/-- NewConsensusProtocol. -/
def NewConsensusProtocol (nodeID : String) (quorumSize : Int) (timeout : Int) :
    ConsensusProtocol :=
  { nodeID := nodeID, peers := [], votes := [], quorumSize := quorumSize, timeout := timeout }

/-- The keys of a map after the assignment m[key] = v, the value being dropped. -/
def keysAdd : List String → String → List String
  | [], key => [key]
  | k :: m, key => if k = key then k :: m else k :: keysAdd m key

namespace ConsensusProtocol

/-- AddPeer: cp.peers[peer.ID] = peer. -/
def AddPeer (cp : ConsensusProtocol) (peerID : String) : ConsensusProtocol :=
  { cp with peers := keysAdd cp.peers peerID }

/-- RemovePeer: delete(cp.peers, peerID). -/
def RemovePeer (cp : ConsensusProtocol) (peerID : String) : ConsensusProtocol :=
  { cp with peers := cp.peers.filter (fun k => k ≠ peerID) }

/-- The messages of broadcastProposal, one per peer. -/
def broadcastProposal (cp : ConsensusProtocol) (round : VoteRound) (now : Int) :
    List Emission :=
  cp.peers.map (fun peerID =>
    (peerID,
      { ID := "proposal_" ++ round.ID ++ "_" ++ cp.nodeID
        Type_ := MessageType.consensusProposal
        From := cp.nodeID
        To := peerID
        Payload := Payload.round round
        Timestamp := now
        Hops := 1
        TTL := 10
        Path := [] }))

/-- The messages of broadcastVote, one per peer. -/
def broadcastVote (cp : ConsensusProtocol) (proposalID : String) (vote : KatyaMesh.Vote)
    (now : Int) : List Emission :=
  cp.peers.map (fun peerID =>
    (peerID,
      { ID := "vote_" ++ proposalID ++ "_" ++ cp.nodeID
        Type_ := MessageType.consensusVote
        From := cp.nodeID
        To := peerID
        Payload := Payload.fields (some proposalID) (some vote)
        Timestamp := now
        Hops := 1
        TTL := 10
        Path := [] }))

/-- Vote: records the vote of this node in the round and broadcasts it. The
result is the new state, the messages sent and the error (none is a nil error);
the call fails when the proposal is unknown. -/
def Vote (cp : ConsensusProtocol) (proposalID : String) (value : String) (now : Int) :
    ConsensusProtocol × List Emission × Option String :=
  match mapGet cp.votes proposalID with
  | none => (cp, [], some ("proposal " ++ proposalID ++ " not found"))
  | some round =>
    let vote : KatyaMesh.Vote :=
      { NodeID := cp.nodeID, Value := value, Timestamp := now, Signature := [] }
    let round1 := { round with Votes := mapSet round.Votes cp.nodeID vote }
    let cp1 := { cp with votes := mapSet cp.votes proposalID round1 }
    (cp1, broadcastVote cp1 proposalID vote now, none)

/-- Propose: stores a fresh round under proposalID, votes for the own proposal and
broadcasts the round (which by then holds the own vote). -/
def Propose (cp : ConsensusProtocol) (proposalID : String) (proposal : String) (now : Int) :
    ConsensusProtocol × List Emission × Option String :=
  let round : VoteRound :=
    { ID := proposalID, Proposal := proposal, Votes := [], StartTime := now,
      EndTime := none, Consensus := none }
  let cp1 := { cp with votes := mapSet cp.votes proposalID round }
  match Vote cp1 proposalID proposal now with
  | (cp2, sent, some e) => (cp2, sent, some ("failed to vote for own proposal: " ++ e))
  | (cp2, sent, none) =>
    match mapGet cp2.votes proposalID with
    | none => (cp2, sent, none)
    | some round2 => (cp2, sent ++ broadcastProposal cp2 round2 now, none)

/-- First loop of checkConsensus: the number of votes per digest of the rendered
value. The digest function SHA-256 is the parameter H. -/
def countVotes (H : String → String) (votes : List (String × KatyaMesh.Vote)) : List (String × Int) :=
  votes.foldl
    (fun counts kv => mapSet counts (H kv.2.Value) ((mapGet counts (H kv.2.Value)).getD 0 + 1))
    []

/-- Second loop of checkConsensus: the first key, in iteration order, with the
largest count, and that count; (nil, 0) for an empty table. Go ranges over the map
in an order it does not specify, and the order of the list stands for one such
order: the count found is the same for every order, the key is not when two keys
hold the largest count. -/
def findMajority (counts : List (String × Int)) : String × Int :=
  counts.foldl (fun acc kv => if kv.2 > acc.2 then (kv.1, kv.2) else acc) (nilValue, 0)

/-- Function checkConsensus at clock reading now. -/
def checkConsensus (H : String → String) (cp : ConsensusProtocol) (proposalID : String)
    (now : Int) : ConsensusProtocol :=
  match mapGet cp.votes proposalID with
  | none => cp
  | some round =>
    if round.Consensus.isSome then cp
    else
      let totalPeers := cp.peers.length + 1
      let majority := findMajority (countVotes H round.Votes)
      let maxVotes := majority.2
      if maxVotes ≥ quorumThreshold totalPeers then
        let round1 :=
          { round with
            Consensus := some
              { Value := majority.1, VoteCount := maxVotes,
                TotalVotes := (round.Votes.length : Int), Achieved := true }
            EndTime := some now }
        { cp with votes := mapSet cp.votes proposalID round1 }
      else cp

/-- Function handleProposal. -/
def handleProposal (cp : ConsensusProtocol) (message : Message) : ConsensusProtocol :=
  match message.Payload with
  | Payload.round round =>
    match mapGet cp.votes round.ID with
    | none => { cp with votes := mapSet cp.votes round.ID round }
    | some existing =>
      if existing.StartTime > round.StartTime then
        { cp with votes := mapSet cp.votes round.ID round }
      else cp
  | _ => cp

/-- Function handleVote at clock reading now. -/
def handleVote (H : String → String) (cp : ConsensusProtocol) (message : Message)
    (now : Int) : ConsensusProtocol :=
  match message.Payload with
  | Payload.fields (some proposalID) (some vote) =>
    match mapGet cp.votes proposalID with
    | none => cp
    | some round =>
      let round1 := { round with Votes := mapSet round.Votes vote.NodeID vote }
      let cp1 := { cp with votes := mapSet cp.votes proposalID round1 }
      checkConsensus H cp1 proposalID now
  | _ => cp

/-- HandleIncomingMessage of the consensus protocol. -/
def HandleIncomingMessage (H : String → String) (cp : ConsensusProtocol) (message : Message)
    (now : Int) : ConsensusProtocol :=
  match message.Type_ with
  | MessageType.consensusProposal => handleProposal cp message
  | MessageType.consensusVote => handleVote H cp message now
  | _ => cp

/-- GetConsensusResult: nil (none) when the round is unknown or has no result. -/
def GetConsensusResult (cp : ConsensusProtocol) (proposalID : String) :
    Option ConsensusResult :=
  match mapGet cp.votes proposalID with
  | none => none
  | some round => round.Consensus

/-- Cleanup: removes the rounds that ended more than maxAge ago. -/
def Cleanup (cp : ConsensusProtocol) (maxAge : Int) (now : Int) : ConsensusProtocol :=
  { cp with
    votes := cp.votes.filter (fun kv =>
      match kv.2.EndTime with
      | none => true
      | some t => ¬ (now - t > maxAge)) }

end ConsensusProtocol

/-- The calls on a consensus node that the round invariants speak about: Propose,
Vote, and HandleIncomingMessage (incoming proposals and votes), each with the
clock reading at the call. -/
inductive ConsensusOp where
  | propose (proposalID : String) (proposal : String) (now : Int)
  | vote (proposalID : String) (value : String) (now : Int)
  | incoming (message : Message) (now : Int)
deriving DecidableEq, Repr

namespace ConsensusOp

/-- The call stores a round under this proposal id: a Propose for the id, or an
incoming proposal whose round carries the id. -/
def proposes (pid : String) : ConsensusOp → Prop
  | propose proposalID _ _ => proposalID = pid
  | vote _ _ _ => False
  | incoming message _ =>
    match message.Type_, message.Payload with
    | MessageType.consensusProposal, Payload.round r => r.ID = pid
    | _, _ => False

end ConsensusOp

namespace ConsensusProtocol

/-- The state after one call. -/
def step (H : String → String) (cp : ConsensusProtocol) : ConsensusOp → ConsensusProtocol
  | ConsensusOp.propose proposalID proposal now => (Propose cp proposalID proposal now).1
  | ConsensusOp.vote proposalID value now => (Vote cp proposalID value now).1
  | ConsensusOp.incoming message now => HandleIncomingMessage H cp message now

/-- The state after a sequence of calls. -/
def run (H : String → String) (cp : ConsensusProtocol) (ops : List ConsensusOp) :
    ConsensusProtocol :=
  ops.foldl (step H) cp

end ConsensusProtocol

/-! ## Flooding protocol (go/pkg/protocol/flooding.go) -/

/-- The flooding protocol state. The map peers is kept by its keys, messageCache
maps a message id to the time it was recorded. -/
structure FloodingProtocol where
  nodeID : String
  peers : List String
  messageCache : List (String × Int)
  ttl : Int
  maxHops : Int
deriving DecidableEq, Repr

/-- NewFloodingProtocol. -/
def NewFloodingProtocol (nodeID : String) (ttl : Int) (maxHops : Int) : FloodingProtocol :=
  { nodeID := nodeID, peers := [], messageCache := [], ttl := ttl, maxHops := maxHops }

namespace FloodingProtocol

/-- AddPeer: fp.peers[peer.ID] = peer. -/
def AddPeer (fp : FloodingProtocol) (peerID : String) : FloodingProtocol :=
  { fp with peers := keysAdd fp.peers peerID }

/-- RemovePeer: delete(fp.peers, peerID). -/
def RemovePeer (fp : FloodingProtocol) (peerID : String) : FloodingProtocol :=
  { fp with peers := fp.peers.filter (fun k => k ≠ peerID) }

/-- The copy of the message that floodMessage builds for a peer. -/
def floodedMessage (message : Message) (hops : Int) : Message :=
  { ID := message.ID
    Type_ := message.Type_
    From := message.From
    To := message.To
    Payload := message.Payload
    Timestamp := message.Timestamp
    Hops := wrapInt64 (hops + 1)
    TTL := wrapInt64 (message.TTL - 1)
    Path := [] }

/-- The tail of floodMessage once the message passed the checks: record the id in
the cache, mark the own node as visited, send a copy to every unvisited peer. -/
def floodSend (fp : FloodingProtocol) (cache : List (String × Int)) (message : Message)
    (hops : Int) (visited : List String) (now : Int) : FloodingProtocol × List Emission :=
  let visited1 := fp.nodeID :: visited
  ({ fp with messageCache := mapSet cache message.ID now },
    (fp.peers.filter (fun peerID => peerID ∉ visited1)).map
      (fun peerID => (peerID, floodedMessage message hops)))

/-- Function floodMessage at clock reading now; visited is the set of keys that
are true in the map visited. Returns the new state and the copies sent. -/
def floodMessage (fp : FloodingProtocol) (message : Message) (hops : Int)
    (visited : List String) (now : Int) : FloodingProtocol × List Emission :=
  if hops ≥ fp.maxHops then (fp, [])
  else
    match mapGet fp.messageCache message.ID with
    | some timestamp =>
      if now - timestamp > fp.ttl then
        floodSend fp (mapDelete fp.messageCache message.ID) message hops visited now
      else (fp, [])
    | none => floodSend fp fp.messageCache message hops visited now

/-- Broadcast: flooding of a local message, started at hop count 0. -/
def Broadcast (fp : FloodingProtocol) (message : Message) (now : Int) :
    FloodingProtocol × List Emission :=
  floodMessage fp message 0 [] now

/-- HandleIncomingMessage of the flooding protocol. -/
def HandleIncomingMessage (fp : FloodingProtocol) (message : Message) (now : Int) :
    FloodingProtocol × List Emission :=
  if message.TTL ≤ 0 then (fp, [])
  else floodMessage fp message message.Hops [] now

/-- Cleanup: removes the cache entries older than ttl. -/
def Cleanup (fp : FloodingProtocol) (now : Int) : FloodingProtocol :=
  { fp with messageCache := fp.messageCache.filter (fun kv => ¬ (now - kv.2 > fp.ttl)) }

end FloodingProtocol

/-- The calls that change or read the state of a flooding node, each with the
clock reading at the call. -/
inductive FloodOp where
  | receive (message : Message) (now : Int)
  | broadcast (message : Message) (now : Int)
  | cleanup (now : Int)
  | addPeer (peerID : String) (now : Int)
  | removePeer (peerID : String) (now : Int)
deriving DecidableEq, Repr

namespace FloodOp

/-- The clock reading of the call. -/
def time : FloodOp → Int
  | receive _ now => now
  | broadcast _ now => now
  | cleanup now => now
  | addPeer _ now => now
  | removePeer _ now => now

/-- The call is a delivery (received or locally broadcast) of a message with this id. -/
def delivers (id : String) : FloodOp → Prop
  | receive message _ => message.ID = id
  | broadcast message _ => message.ID = id
  | _ => False

/-- The message handled by a delivery. -/
def message? : FloodOp → Option Message
  | receive message _ => some message
  | broadcast message _ => some message
  | _ => none

end FloodOp

namespace FloodingProtocol

/-- One call on a flooding node: the new state and the copies sent. -/
def step (fp : FloodingProtocol) : FloodOp → FloodingProtocol × List Emission
  | FloodOp.receive message now => HandleIncomingMessage fp message now
  | FloodOp.broadcast message now => Broadcast fp message now
  | FloodOp.cleanup now => (Cleanup fp now, [])
  | FloodOp.addPeer peerID _ => (AddPeer fp peerID, [])
  | FloodOp.removePeer peerID _ => (RemovePeer fp peerID, [])

/-- The state after a sequence of calls. -/
def run (fp : FloodingProtocol) (ops : List FloodOp) : FloodingProtocol :=
  ops.foldl (fun s op => (step s op).1) fp

end FloodingProtocol

/-! ## Gossip protocol (go/pkg/protocol/gossip.go) -/

/-- Two-complement wrap-around of a 32 bit signed integer (the conversion to rune). -/
def wrapInt32 (x : Int) : Int :=
  (x + 2 ^ 31) % 2 ^ 32 - 2 ^ 31

/-- The conversion string(rune(x)): the character with code point x, or the
replacement character U+FFFD when x, cut to 32 bits, is not a valid code point. -/
def runeString (x : Int) : String :=
  let c := wrapInt32 x
  if (0 ≤ c ∧ c < 55296) ∨ (57344 ≤ c ∧ c ≤ 1114111) then String.singleton (Char.ofNat c.toNat)
  else String.singleton (Char.ofNat 65533)

/-- The gossip protocol state. The map peers is kept by its keys, messageCache maps
a message id to the gossip message stored for it. -/
structure GossipProtocol where
  nodeID : String
  peers : List String
  messageCache : List (String × GossipMessage)
  fanout : Int
  interval : Int
  maxRounds : Int
deriving DecidableEq, Repr

/-- NewGossipProtocol. -/
def NewGossipProtocol (nodeID : String) (fanout : Int) (interval : Int) (maxRounds : Int) :
    GossipProtocol :=
  { nodeID := nodeID, peers := [], messageCache := [], fanout := fanout, interval := interval,
    maxRounds := maxRounds }

/-- The statement peerIDs[i], peerIDs[j] = peerIDs[j], peerIDs[i] for indices within
the slice. -/
def swapAt (l : List String) (i j : Nat) : List String :=
  (l.set i (l.getD j "")).set j (l.getD i "")

/-- The Fisher-Yates loop of selectRandomPeers for i = k, k - 1, ..., 1. The draw
rand.Intn(i + 1) of step i is draws i % (i + 1), where draws i ranges over all
naturals, so that every outcome below i + 1 and no other is covered. -/
def shuffleFrom : Nat → List String → (Nat → Nat) → List String
  | 0, l, _ => l
  | k + 1, l, draws => shuffleFrom k (swapAt l (k + 1) (draws (k + 1) % (k + 2))) draws

namespace GossipProtocol

/-- AddPeer: gp.peers[peer.ID] = peer. -/
def AddPeer (gp : GossipProtocol) (peerID : String) : GossipProtocol :=
  { gp with peers := keysAdd gp.peers peerID }

/-- RemovePeer: delete(gp.peers, peerID). -/
def RemovePeer (gp : GossipProtocol) (peerID : String) : GossipProtocol :=
  { gp with peers := gp.peers.filter (fun k => k ≠ peerID) }

/-- Function selectRandomPeers. The result none stands for the run-time panic of
the slice expression peerIDs[:count] with a negative count. -/
def selectRandomPeers (gp : GossipProtocol) (count : Int) (draws : Nat → Nat) :
    Option (List String) :=
  if gp.peers.length = 0 then some []
  else if count ≥ (gp.peers.length : Int) then some gp.peers
  else
    let peerIDs := shuffleFrom (gp.peers.length - 1) gp.peers draws
    if count < 0 then none else some (peerIDs.take count.toNat)

/-- Function gossipMessage at clock reading now: the copy of the record with the
next round is sent to the selected peers that are in the peer map and is stored
in the cache. It is only called for records with Round below maxRounds, so that
Round + 1 does not wrap around. -/
def gossipMessage (gp : GossipProtocol) (gossipMsg : GossipMessage) (peerIDs : List String)
    (now : Int) : GossipProtocol × List Emission :=
  let updatedMsg : GossipMessage :=
    { ID := gossipMsg.ID, Round := gossipMsg.Round + 1, Timestamp := gossipMsg.Timestamp,
      Data := gossipMsg.Data }
  ({ gp with messageCache := mapSet gp.messageCache gossipMsg.ID updatedMsg },
    (peerIDs.filter (fun peerID => peerID ∈ gp.peers)).map (fun peerID =>
      (peerID,
        { ID := gossipMsg.ID ++ "_gossip_r" ++ runeString updatedMsg.Round
          Type_ := MessageType.gossip
          From := gp.nodeID
          To := peerID
          Payload := Payload.ofGossip updatedMsg
          Timestamp := now
          Hops := 1
          TTL := 10
          Path := [] })))

/-- The loop of performGossip over the collected records: gossipMessage is called
for one record after the other; the copies sent are listed in order. -/
def gossipAll : GossipProtocol → List GossipMessage → List String → Int →
    GossipProtocol × List Emission
  | gp, [], _, _ => (gp, [])
  | gp, gossipMsg :: rest, peerIDs, now =>
    ((gossipAll (gossipMessage gp gossipMsg peerIDs now).1 rest peerIDs now).1,
      (gossipMessage gp gossipMsg peerIDs now).2 ++
        (gossipAll (gossipMessage gp gossipMsg peerIDs now).1 rest peerIDs now).2)

/-- The records that performGossip collects: those with Round below maxRounds. -/
def collect (gp : GossipProtocol) : List GossipMessage :=
  (gp.messageCache.map Prod.snd).filter (fun msg => msg.Round < gp.maxRounds)

/-- Function performGossip, one gossip tick, with the random draws of the shuffle
and the clock reading now. The result none stands for a run-time panic. -/
def performGossip (gp : GossipProtocol) (draws : Nat → Nat) (now : Int) :
    Option (GossipProtocol × List Emission) :=
  if (collect gp).length = 0 then some (gp, [])
  else
    match selectRandomPeers gp gp.fanout draws with
    | none => none
    | some peerIDs =>
      if peerIDs.length = 0 then some (gp, [])
      else some (gossipAll gp (collect gp) peerIDs now)

/-- Broadcast at clock reading now: stores the message at round 0. -/
def Broadcast (gp : GossipProtocol) (message : Message) (now : Int) : GossipProtocol :=
  { gp with
    messageCache := mapSet gp.messageCache message.ID
      { ID := message.ID, Round := 0, Timestamp := now, Data := message } }

/-- HandleIncomingMessage of the gossip protocol. -/
def HandleIncomingMessage (gp : GossipProtocol) (message : Message) : GossipProtocol :=
  if message.Type_ ≠ MessageType.gossip then gp
  else
    match message.Payload.asGossip with
    | none => gp
    | some gossipMsg =>
      match mapGet gp.messageCache gossipMsg.ID with
      | some existing =>
        if existing.Round ≥ gossipMsg.Round then gp
        else { gp with messageCache := mapSet gp.messageCache gossipMsg.ID gossipMsg }
      | none => { gp with messageCache := mapSet gp.messageCache gossipMsg.ID gossipMsg }

/-- The record as gossipMessage stores it: the round raised by one. -/
def nextRound (g : GossipMessage) : GossipMessage :=
  { ID := g.ID, Round := g.Round + 1, Timestamp := g.Timestamp, Data := g.Data }

/-- The round stored for a message id, if the id is cached. -/
def roundOf (gp : GossipProtocol) (id : String) : Option Int :=
  (mapGet gp.messageCache id).map (fun g => g.Round)

/-- The copies in the list carry the record with this id. -/
def sends (out : List Emission) (id : String) : Bool :=
  out.any (fun e =>
    match e.2.Payload.asGossip with
    | some g => decide (g.ID = id)
    | none => false)

/-- The cache is a map from ids to records with that id: the keys are distinct and
every record is stored under its own ID. NewGossipProtocol satisfies this and
Broadcast, HandleIncomingMessage and performGossip keep it. -/
def CacheWF (gp : GossipProtocol) : Prop :=
  (gp.messageCache.map Prod.fst).Nodup ∧ ∀ kv ∈ gp.messageCache, kv.2.ID = kv.1

instance (gp : GossipProtocol) : Decidable (CacheWF gp) := by
  unfold CacheWF; exact inferInstance

end GossipProtocol

/-- The calls on a gossip node, each with the clock reading where the code takes
one: Broadcast, a gossip tick (performGossip) with its random draws, a received
message, and peer changes. -/
inductive GossipOp where
  | broadcast (message : Message) (now : Int)
  | tick (draws : Nat → Nat) (now : Int)
  | incoming (message : Message)
  | addPeer (peerID : String)
  | removePeer (peerID : String)

namespace GossipOp

/-- The call is a Broadcast of a message with this id. -/
def broadcasts (id : String) : GossipOp → Prop
  | broadcast message _ => message.ID = id
  | _ => False

/-- The call is a gossip tick or a peer change. -/
def quiet : GossipOp → Prop
  | tick _ _ => True
  | addPeer _ => True
  | removePeer _ => True
  | _ => False

end GossipOp

namespace GossipProtocol

/-- One call on a gossip node: the new state and the copies sent, none for a
run-time panic. -/
def step (gp : GossipProtocol) : GossipOp → Option (GossipProtocol × List Emission)
  | GossipOp.broadcast message now => some (Broadcast gp message now, [])
  | GossipOp.tick draws now => performGossip gp draws now
  | GossipOp.incoming message => some (HandleIncomingMessage gp message, [])
  | GossipOp.addPeer peerID => some (AddPeer gp peerID, [])
  | GossipOp.removePeer peerID => some (RemovePeer gp peerID, [])

/-- The state after a sequence of calls and the copies sent by each call, in order. -/
def run : GossipProtocol → List GossipOp → Option (GossipProtocol × List (List Emission))
  | gp, [] => some (gp, [])
  | gp, op :: ops =>
    match step gp op with
    | none => none
    | some (gp1, out) =>
      match run gp1 ops with
      | none => none
      | some (gp2, outs) => some (gp2, out :: outs)

end GossipProtocol

/-! ## Peers, load balancer and failover manager (go/internal/mesh) -/

/-- Modelled from the spec: the peer record of package mesh, whose declaration is not
among the sources. It has a stable identifier, a health flag (IsHealthy,
SetHealthy), a connection count (GetConnectionCount) and a weight (GetWeight),
the weight being an integer that is at least 0. -/
structure Peer where
  ID : String
  Healthy : Bool
  ConnectionCount : Int
  Weight : Nat
deriving DecidableEq, Repr

/-- The type LoadBalanceStrategy is a Go int. -/
abbrev LoadBalanceStrategy := Int

def RoundRobin : LoadBalanceStrategy := 0

def Random : LoadBalanceStrategy := 1

def LeastConnections : LoadBalanceStrategy := 2

def WeightedRandom : LoadBalanceStrategy := 3

/-- The load balancer: the map peers and the slice peerList hold the same peer
pointers. -/
structure LoadBalancer where
  peers : List (String × Peer)
  peerList : List Peer
  strategy : LoadBalanceStrategy
deriving DecidableEq, Repr

/-- NewLoadBalancer. -/
def NewLoadBalancer : LoadBalancer :=
  { peers := [], peerList := [], strategy := RoundRobin }

namespace LoadBalancer

/-- AddPeer: a peer whose id is not yet a key is put in the map and appended to the list. -/
def AddPeer (lb : LoadBalancer) (peer : Peer) : LoadBalancer :=
  match mapGet lb.peers peer.ID with
  | some _ => lb
  | none => { lb with peers := mapSet lb.peers peer.ID peer, peerList := lb.peerList ++ [peer] }

/-- RemovePeer: deletes the key and the first list entry with that id. -/
def RemovePeer (lb : LoadBalancer) (peerID : String) : LoadBalancer :=
  match mapGet lb.peers peerID with
  | some _ =>
    { lb with
      peers := mapDelete lb.peers peerID
      peerList := lb.peerList.eraseP (fun p => p.ID = peerID) }
  | none => lb

/-- SetStrategy. -/
def SetStrategy (lb : LoadBalancer) (strategy : LoadBalanceStrategy) : LoadBalancer :=
  { lb with strategy := strategy }

/-- Function selectRoundRobin: nanos is the reading time.Now().UnixNano() converted
to int (64 bit), which is not negative for a clock after 1970. Called with a
non-empty slice only. -/
def selectRoundRobin (peers : List Peer) (nanos : Nat) : Option Peer :=
  peers[nanos % peers.length]?

/-- Function selectRandom: rand.Intn(n) yields rnd % n, where rnd ranges over all
naturals, so that every outcome below n and no other is covered. -/
def selectRandom (peers : List Peer) (rnd : Nat) : Option Peer :=
  peers[rnd % peers.length]?

/-- Function selectLeastConnections: the first peer with the smallest count. -/
def selectLeastConnections : List Peer → Option Peer
  | [] => none
  | p :: rest =>
    some (rest.foldl (fun minPeer q =>
      if q.ConnectionCount < minPeer.ConnectionCount then q else minPeer) p)

/-- The loop of selectWeightedRandom: the first peer at which the running sum of
the weights exceeds randomValue. -/
def weightedPick : List Peer → Nat → Nat → Option Peer
  | [], _, _ => none
  | p :: rest, currentWeight, randomValue =>
    if randomValue < currentWeight + p.Weight then some p
    else weightedPick rest (currentWeight + p.Weight) randomValue

/-- Function selectWeightedRandom. -/
def selectWeightedRandom (peers : List Peer) (rnd : Nat) : Option Peer :=
  let totalWeight := (peers.map (fun p => p.Weight)).sum
  if totalWeight = 0 then selectRandom peers rnd
  else
    match weightedPick peers 0 (rnd % totalWeight) with
    | some p => some p
    | none => peers.getLast?

/-- The switch over lb.strategy at the end of SelectPeer. -/
def applyStrategy (strategy : LoadBalanceStrategy) (healthyPeers : List Peer) (nanos rnd : Nat) :
    Option Peer :=
  if strategy = RoundRobin then selectRoundRobin healthyPeers nanos
  else if strategy = Random then selectRandom healthyPeers rnd
  else if strategy = LeastConnections then selectLeastConnections healthyPeers
  else if strategy = WeightedRandom then selectWeightedRandom healthyPeers rnd
  else selectRoundRobin healthyPeers nanos

/-- The healthy peers of the list, in insertion order. -/
def healthyPeers (lb : LoadBalancer) : List Peer :=
  lb.peerList.filter (fun p => p.Healthy)

/-- The part of SelectPeer after the target check: filter the healthy peers and
apply the configured strategy. -/
def selectByStrategy (lb : LoadBalancer) (nanos rnd : Nat) : Option Peer :=
  if (healthyPeers lb).length = 0 then none
  else applyStrategy lb.strategy (healthyPeers lb) nanos rnd

/-- SelectPeer with the clock reading nanos and the random draw rnd; none is nil. -/
def SelectPeer (lb : LoadBalancer) (targetID : String) (nanos rnd : Nat) : Option Peer :=
  if lb.peerList.length = 0 then none
  else if targetID ≠ "" ∧ targetID ≠ "broadcast" then
    match mapGet lb.peers targetID with
    | some peer => if peer.Healthy then some peer else selectByStrategy lb nanos rnd
    | none => selectByStrategy lb nanos rnd
  else selectByStrategy lb nanos rnd

/-- The target hint does not name a registered healthy peer: it is empty, the
token broadcast, unknown, or the id of an unhealthy peer. -/
def noUsableHint (lb : LoadBalancer) (targetID : String) : Prop :=
  targetID = "" ∨ targetID = "broadcast" ∨ mapGet lb.peers targetID = none ∨
    ∃ p, mapGet lb.peers targetID = some p ∧ p.Healthy = false

/-- The map and the list of a load balancer hold the same peers: every list entry
is the map entry under its id, every map entry is in the list under its key, and
no two list entries share an id. NewLoadBalancer satisfies this and AddPeer,
RemovePeer and SetStrategy keep it. -/
def WF (lb : LoadBalancer) : Prop :=
  (∀ p ∈ lb.peerList, mapGet lb.peers p.ID = some p) ∧
  (∀ kv ∈ lb.peers, kv.2 ∈ lb.peerList ∧ kv.2.ID = kv.1) ∧
  (lb.peerList.map (fun p => p.ID)).Nodup

instance (lb : LoadBalancer) : Decidable (WF lb) := by
  unfold WF; exact inferInstance

end LoadBalancer

/-- The record kept for a failed peer. -/
structure FailedPeerInfo where
  Peer : Peer
  FailureTime : Int
  RetryCount : Int
  LastRetry : Int
deriving DecidableEq, Repr

/-- The failover manager. -/
structure FailoverManager where
  peers : List (String × Peer)
  failedPeers : List (String × FailedPeerInfo)
  retryInterval : Int
  maxRetries : Int
deriving DecidableEq, Repr

/-- NewFailoverManager: retry interval 30 s, at most 5 retries. -/
def NewFailoverManager : FailoverManager :=
  { peers := [], failedPeers := [], retryInterval := 30 * 1000000000, maxRetries := 5 }

namespace FailoverManager

/-- AddPeer. -/
def AddPeer (fm : FailoverManager) (peer : Peer) : FailoverManager :=
  { fm with peers := mapSet fm.peers peer.ID peer }

/-- RemovePeer. -/
def RemovePeer (fm : FailoverManager) (peerID : String) : FailoverManager :=
  { fm with peers := mapDelete fm.peers peerID, failedPeers := mapDelete fm.failedPeers peerID }

/-- HandlePeerFailure at clock reading now. The second component lists the peer ids
for which a scheduleRetry goroutine is started (none or peer.ID). -/
def HandlePeerFailure (fm : FailoverManager) (peer : Peer) (now : Int) :
    FailoverManager × List String :=
  let info : FailedPeerInfo :=
    match mapGet fm.failedPeers peer.ID with
    | some info => info
    | none => { Peer := peer, FailureTime := now, RetryCount := 0, LastRetry := 0 }
  let info1 := { info with RetryCount := info.RetryCount + 1, LastRetry := now }
  let fm1 := { fm with failedPeers := mapSet fm.failedPeers peer.ID info1 }
  if info1.RetryCount ≥ fm.maxRetries then (fm1, [])
  else (fm1, [peer.ID])

/-- The body of scheduleRetry after the sleep, at clock reading now; reconnectOk
tells whether peer.Reconnect succeeded. The third component is the peer on which
SetHealthy(true) is called, if any. -/
def scheduleRetry (fm : FailoverManager) (peerID : String) (reconnectOk : Bool) (now : Int) :
    FailoverManager × List String × Option Peer :=
  match mapGet fm.failedPeers peerID with
  | none => (fm, [], none)
  | some info =>
    if reconnectOk then
      ({ fm with failedPeers := mapDelete fm.failedPeers peerID }, [], some info.Peer)
    else
      let r := HandlePeerFailure fm info.Peer now
      (r.1, r.2, none)

/-- Cleanup at clock reading now. -/
def Cleanup (fm : FailoverManager) (now : Int) : FailoverManager :=
  { fm with
    failedPeers := fm.failedPeers.filter (fun kv =>
      ¬ (kv.2.RetryCount ≥ fm.maxRetries ∧ now - kv.2.LastRetry > fm.retryInterval * 2)) }

end FailoverManager

/-- The failover manager together with the scheduleRetry goroutines that are
asleep (one list entry per goroutine, holding its peer id). -/
structure FailoverSystem where
  fm : FailoverManager
  pending : List String
deriving DecidableEq, Repr

/-- What can happen to the failover manager: a failed health check of the broker
(performHealthChecks calls HandlePeerFailure), or a sleeping scheduleRetry
goroutine waking up and trying to reconnect. -/
inductive FailoverEvent where
  | healthCheckFailed (peer : Peer) (now : Int)
  | retryFires (peerID : String) (reconnectOk : Bool) (now : Int)
deriving DecidableEq, Repr

namespace FailoverSystem

/-- The initial system: a new manager, no goroutine asleep. -/
def init : FailoverSystem :=
  { fm := NewFailoverManager, pending := [] }

/-- One event. A retry can only fire for a goroutine that is asleep. -/
def step (s : FailoverSystem) : FailoverEvent → FailoverSystem
  | FailoverEvent.healthCheckFailed peer now =>
    let r := s.fm.HandlePeerFailure peer now
    { fm := r.1, pending := s.pending ++ r.2 }
  | FailoverEvent.retryFires peerID reconnectOk now =>
    if peerID ∈ s.pending then
      let r := s.fm.scheduleRetry peerID reconnectOk now
      { fm := r.1, pending := s.pending.erase peerID ++ r.2.1 }
    else s

/-- The system after a sequence of events. -/
def run (s : FailoverSystem) (events : List FailoverEvent) : FailoverSystem :=
  events.foldl step s

end FailoverSystem

namespace FailoverSystem

/-- A health-check failure is a first failure when the peer has no failed-peer
record and no retry goroutine is asleep for it; retries are not restricted. -/
def firstFailure (s : FailoverSystem) : FailoverEvent → Prop
  | FailoverEvent.healthCheckFailed peer _ =>
    mapGet s.fm.failedPeers peer.ID = none ∧ peer.ID ∉ s.pending
  | FailoverEvent.retryFires _ _ _ => True

/-- A sequence of events in which HandlePeerFailure is called from outside for
first failures only, every other call coming from a scheduled retry. -/
def Chained : FailoverSystem → List FailoverEvent → Prop
  | _, [] => True
  | s, e :: es => firstFailure s e ∧ Chained (step s e) es

/-- Invariant of chained runs: at most one retry is asleep per peer, records are
filed under the id of their peer with a count of at most max 1 maxRetries, and a
peer with a retry asleep has a record whose count is below maxRetries. -/
def Inv (s : FailoverSystem) : Prop :=
  s.pending.Nodup ∧
  (∀ id info, mapGet s.fm.failedPeers id = some info →
    info.Peer.ID = id ∧ info.RetryCount ≤ max 1 s.fm.maxRetries) ∧
  (∀ id, id ∈ s.pending →
    ∃ info, mapGet s.fm.failedPeers id = some info ∧ info.RetryCount < s.fm.maxRetries)

instance (s : FailoverSystem) (e : FailoverEvent) : Decidable (firstFailure s e) := by
  cases e <;> (simp only [firstFailure]; exact inferInstance)

/-- Chained is decidable, by recursion along the events. -/
def decChained : (s : FailoverSystem) → (es : List FailoverEvent) → Decidable (Chained s es)
  | _, [] => isTrue trivial
  | s, e :: es =>
    have : Decidable (Chained (step s e) es) := decChained (step s e) es
    (inferInstance : Decidable (firstFailure s e ∧ Chained (step s e) es))

instance (s : FailoverSystem) (es : List FailoverEvent) : Decidable (Chained s es) :=
  decChained s es

end FailoverSystem

/-! ## Cryptography (go/internal/crypto)

Byte slices and byte arrays are lists of numbers. The primitives of the Go
libraries (AEAD ciphers, SHA-256, X25519, the random source) are parameters. -/

abbrev Bytes := List Nat

/-- The interface cipher.AEAD for one key: NonceSize, Seal(nil, nonce, plaintext,
additionalData) and Open(nil, nonce, ciphertext, additionalData), where none
stands for the error of a failed authentication. -/
structure AEAD where
  NonceSize : Nat
  Seal : Bytes → Bytes → Bytes → Bytes
  Open : Bytes → Bytes → Bytes → Option Bytes

/-- Open inverts Seal: for a nonce of the right size, opening what was sealed with
the same nonce and additional data yields the plaintext. -/
def AEAD.Correct (a : AEAD) : Prop :=
  ∀ nonce plaintext aad, nonce.length = a.NonceSize →
    a.Open nonce (a.Seal nonce plaintext aad) aad = some plaintext

/-- The constant chacha20poly1305.KeySize. -/
def chachaKeySize : Nat := 32

/-- ChaCha20Poly1305EncryptWithAAD. The parameter newAEAD is chacha20poly1305.New
(none for its error) and readRandom n is the outcome of filling a buffer of n
bytes from the random source (none for a failed read). -/
def ChaCha20Poly1305EncryptWithAAD (newAEAD : Bytes → Option AEAD)
    (readRandom : Nat → Option Bytes) (key plaintext aad : Bytes) : Except String Bytes :=
  if key.length ≠ chachaKeySize then Except.error "invalid key size"
  else
    match newAEAD key with
    | none => Except.error "failed to create AEAD"
    | some aead =>
      match readRandom aead.NonceSize with
      | none => Except.error "failed to generate nonce"
      | some nonce => Except.ok (nonce ++ aead.Seal nonce plaintext aad)

/-- ChaCha20Poly1305DecryptWithAAD. -/
def ChaCha20Poly1305DecryptWithAAD (newAEAD : Bytes → Option AEAD)
    (key ciphertext aad : Bytes) : Except String Bytes :=
  if key.length ≠ chachaKeySize then Except.error "invalid key size"
  else
    match newAEAD key with
    | none => Except.error "failed to create AEAD"
    | some aead =>
      if ciphertext.length < aead.NonceSize then Except.error "ciphertext too short"
      else
        match aead.Open (ciphertext.take aead.NonceSize) (ciphertext.drop aead.NonceSize) aad with
        | none => Except.error "failed to decrypt"
        | some plaintext => Except.ok plaintext

/-- ChaCha20Poly1305Encrypt: the same steps with nil as additional data. -/
def ChaCha20Poly1305Encrypt (newAEAD : Bytes → Option AEAD) (readRandom : Nat → Option Bytes)
    (key plaintext : Bytes) : Except String Bytes :=
  if key.length ≠ chachaKeySize then Except.error "invalid key size"
  else
    match newAEAD key with
    | none => Except.error "failed to create AEAD"
    | some aead =>
      match readRandom aead.NonceSize with
      | none => Except.error "failed to generate nonce"
      | some nonce => Except.ok (nonce ++ aead.Seal nonce plaintext [])

/-- ChaCha20Poly1305Decrypt: the same steps with nil as additional data. -/
def ChaCha20Poly1305Decrypt (newAEAD : Bytes → Option AEAD) (key ciphertext : Bytes) :
    Except String Bytes :=
  if key.length ≠ chachaKeySize then Except.error "invalid key size"
  else
    match newAEAD key with
    | none => Except.error "failed to create AEAD"
    | some aead =>
      if ciphertext.length < aead.NonceSize then Except.error "ciphertext too short"
      else
        match aead.Open (ciphertext.take aead.NonceSize) (ciphertext.drop aead.NonceSize) [] with
        | none => Except.error "failed to decrypt"
        | some plaintext => Except.ok plaintext

/-- Encrypt (AES-GCM): returns the ciphertext and the nonce. The parameter newGCM
is aes.NewCipher followed by cipher.NewGCM (none for an error of either). -/
def Encrypt (newGCM : Bytes → Option AEAD) (readRandom : Nat → Option Bytes)
    (plaintext key : Bytes) : Except String (Bytes × Bytes) :=
  match newGCM key with
  | none => Except.error "failed to create cipher"
  | some aesGCM =>
    match readRandom aesGCM.NonceSize with
    | none => Except.error "failed to generate nonce"
    | some nonce => Except.ok (aesGCM.Seal nonce plaintext [], nonce)

/-- Decrypt (AES-GCM). -/
def Decrypt (newGCM : Bytes → Option AEAD) (ciphertext nonce key : Bytes) :
    Except String Bytes :=
  match newGCM key with
  | none => Except.error "failed to create cipher"
  | some aesGCM =>
    if nonce.length ≠ aesGCM.NonceSize then Except.error "invalid nonce size"
    else
      match aesGCM.Open nonce ciphertext [] with
      | none => Except.error "failed to decrypt"
      | some plaintext => Except.ok plaintext

/-- SignData: the SHA-256 digest (parameter sha256) of the data followed by the
private key; the error is always nil. -/
def SignData (sha256 : Bytes → Bytes) (data privateKey : Bytes) : Bytes :=
  sha256 (data ++ privateKey)

/-- VerifySignature: compares the digest of the data followed by the public key
with the signature, length first and then byte by byte. -/
def VerifySignature (sha256 : Bytes → Bytes) (data signature publicKey : Bytes) : Bool :=
  let hash := sha256 (data ++ publicKey)
  if signature.length ≠ hash.length then false
  else (List.range hash.length).all (fun i => decide (hash.getD i 0 = signature.getD i 0))

/-- The functions of golang.org/x/crypto/curve25519 that the handshake uses:
ScalarMult(dst, scalar, point) and ScalarBaseMult(dst, scalar), as functions of
their inputs. -/
structure Curve25519 where
  ScalarMult : Bytes → Bytes → Bytes
  ScalarBaseMult : Bytes → Bytes

/-- The specification of X25519 (RFC 7748): a scalar string stands for a number,
ScalarMult multiplies a point by that number, ScalarBaseMult does so with the
base point, and multiplying by b and then by a is multiplying by a * b. -/
def Curve25519.Law (C : Curve25519) : Prop :=
  ∃ (scalar : Bytes → Nat) (mul : Nat → Bytes → Bytes) (base : Bytes),
    (∀ s u, C.ScalarMult s u = mul (scalar s) u) ∧
    (∀ s, C.ScalarBaseMult s = mul (scalar s) base) ∧
    ∀ a b u, mul a (mul b u) = mul (a * b) u

/-- A key pair for the mesh handshake. -/
structure KeyPair where
  PrivateKey : Bytes
  PublicKey : Bytes
deriving DecidableEq, Repr

/-- NewKeyPair: 32 random bytes as private key, the public key by ScalarBaseMult. -/
def NewKeyPair (C : Curve25519) (readRandom : Nat → Option Bytes) : Except String KeyPair :=
  match readRandom 32 with
  | none => Except.error "failed to generate private key"
  | some privateKey =>
    Except.ok { PrivateKey := privateKey, PublicKey := C.ScalarBaseMult privateKey }

/-- ComputeSharedSecret; the error is always nil. -/
def KeyPair.ComputeSharedSecret (C : Curve25519) (kp : KeyPair) (peerPublicKey : Bytes) :
    Except String Bytes :=
  Except.ok (C.ScalarMult kp.PrivateKey peerPublicKey)

/-- A handshake; SessionKey is nil (the empty list) until Complete has set it. -/
structure Handshake where
  KeyPair : KeyPair
  SharedSecret : Bytes
  SessionKey : Bytes
deriving DecidableEq, Repr

/-- The info label that DeriveSessionKey uses when none is given. -/
def sessionKeyInfo : Bytes :=
  "katya-mesh-session-key".data.map (fun c => c.toNat)

/-- DeriveSessionKey. The parameter hkdf secret salt info n is the outcome of reading
n bytes from hkdf.New(sha256.New, secret, salt, info), none for an error. An
empty salt is replaced by 32 bytes from the random source; the result of
rand.Read is not looked at, so a failed read leaves the 32 zero bytes. -/
def DeriveSessionKey (hkdf : Bytes → Bytes → Bytes → Nat → Option Bytes)
    (readRandom : Nat → Option Bytes) (sharedSecret salt info : Bytes) : Except String Bytes :=
  let salt1 :=
    if salt.length = 0 then
      match readRandom 32 with
      | some random => random
      | none => List.replicate 32 0
    else salt
  let info1 := if info.length = 0 then sessionKeyInfo else info
  match hkdf sharedSecret salt1 info1 32 with
  | none => Except.error "failed to derive session key"
  | some sessionKey => Except.ok sessionKey

/-- NewHandshake: a new key pair, a zero shared secret, no session key. -/
def NewHandshake (C : Curve25519) (readRandom : Nat → Option Bytes) : Except String Handshake :=
  match NewKeyPair C readRandom with
  | Except.error e => Except.error e
  | Except.ok keyPair =>
    Except.ok { KeyPair := keyPair, SharedSecret := List.replicate 32 0, SessionKey := [] }

/-- Handshake.Complete: the handshake afterwards and the error returned (none is
nil). The session key is derived with nil as salt and nil as info. -/
def Handshake.Complete (C : Curve25519) (hkdf : Bytes → Bytes → Bytes → Nat → Option Bytes)
    (readRandom : Nat → Option Bytes) (h : Handshake) (peerPublicKey : Bytes) :
    Handshake × Option String :=
  match h.KeyPair.ComputeSharedSecret C peerPublicKey with
  | Except.error e => (h, some e)
  | Except.ok sharedSecret =>
    let h1 := { h with SharedSecret := sharedSecret }
    match DeriveSessionKey hkdf readRandom sharedSecret [] [] with
    | Except.error e => (h1, some e)
    | Except.ok sessionKey => ({ h1 with SessionKey := sessionKey }, none)

/-! ## Broker (go/internal/mesh/broker.go) -/

/-- Modelled from the spec: the cipher object crypto.AESGCM that the broker holds
(NewAESGCM, Encrypt, Decrypt), whose declaration is not among the sources. It is
the AEAD of the channel: Encrypt returns the AEAD encryption of the payload or an
error, Decrypt the plaintext or an error. Each field stands for the outcome of
the call on the given bytes. -/
structure AESGCM where
  Encrypt : Bytes → Except String Bytes
  Decrypt : Bytes → Except String Bytes

/-- A protocol registered with the broker, as far as the broker deals with it: the
interface protocol.Protocol (AddPeer, RemovePeer, HandleIncomingMessage), whose
declaration is not among the sources. As in the flooding, gossip and consensus
protocols, AddPeer and RemovePeer assign to and delete from a map of peers, held
here by its keys; handled lists the messages that were passed to
HandleIncomingMessage, the oldest first. -/
structure Protocol where
  peers : List String
  handled : List Message
deriving DecidableEq, Repr

namespace Protocol

/-- AddPeer: peers[peer.ID] = peer. -/
def AddPeer (pr : Protocol) (peer : Peer) : Protocol :=
  { pr with peers := keysAdd pr.peers peer.ID }

/-- RemovePeer: delete(peers, peerID). -/
def RemovePeer (pr : Protocol) (peerID : String) : Protocol :=
  { pr with peers := pr.peers.filter (fun k => k ≠ peerID) }

/-- One call of HandleIncomingMessage with the message. -/
def HandleIncomingMessage (pr : Protocol) (message : Message) : Protocol :=
  { pr with handled := pr.handled ++ [message] }

end Protocol

/-- The broker: node id, peer table, registered protocols, load balancer and
failover manager. -/
structure Broker where
  nodeID : String
  peers : List (String × Peer)
  loadBalancer : LoadBalancer
  failover : FailoverManager
  protocols : List (String × Protocol) := []
deriving DecidableEq, Repr

/-- The key that NewBroker passes to crypto.NewAESGCM: the bytes of the string
literal (all of its characters are ASCII). -/
def bootstrapKey : Bytes :=
  "default-key-32-chars-long!!!".data.map (fun c => c.toNat)

/-- NewBroker: empty tables, a new load balancer and a new failover manager. The
cipher of the broker is passed to SendMessage and HandleMessage as a parameter. -/
def NewBroker (nodeID : String) : Broker :=
  { nodeID := nodeID, peers := [], loadBalancer := NewLoadBalancer,
    failover := NewFailoverManager, protocols := [] }

/-- What a call of Broker.SendMessage does: it panics (the type assertion on the
payload fails), or it returns with the caller's message in its final state, the
peer and message handed to the transport, if any, and the error returned. -/
inductive SendOutcome where
  | panicked
  | returned (message : Message) (handed : Option (String × Message)) (err : Option String)
deriving DecidableEq, Repr

namespace Broker

/-- Broker.SendMessage. The parameter transport is peer.SendMessage of the selected
peer (none for a nil error); nanos and rnd are the clock reading and random draw
of the load balancer. -/
def SendMessage (enc : AESGCM) (transport : String → Message → Option String) (b : Broker)
    (message : Message) (nanos rnd : Nat) : SendOutcome :=
  let select := fun (message1 : Message) =>
    match b.loadBalancer.SelectPeer message1.To nanos rnd with
    | none =>
      SendOutcome.returned message1 none
        (some ("no available peer for destination: " ++ message1.To))
    | some peer =>
      SendOutcome.returned message1 (some (peer.ID, message1)) (transport peer.ID message1)
  if message.Type_ ≠ MessageType.health then
    match message.Payload with
    | Payload.bytes plaintext =>
      match enc.Encrypt plaintext with
      | Except.error e =>
        SendOutcome.returned message none (some ("failed to encrypt message: " ++ e))
      | Except.ok encryptedPayload =>
        select { message with Payload := Payload.bytes encryptedPayload }
    | _ => SendOutcome.panicked
  else select message

/-- The loop of BroadcastMessage over the copied peers: every peer is handed the
message through the transport (peer.SendMessage, none for a nil error), and an
error is logged. The result lists the sends (peer id and message) and the logged
errors (peer id and error), in the order of the loop. -/
def broadcastLoop (transport : String → Message → Option String) (message : Message) :
    List Peer → List (String × Message) × List (String × String)
  | [] => ([], [])
  | peer :: rest =>
    let r := broadcastLoop transport message rest
    match transport peer.ID message with
    | some e => ((peer.ID, message) :: r.1, (peer.ID, e) :: r.2)
    | none => ((peer.ID, message) :: r.1, r.2)

/-- Broker.BroadcastMessage: the peers of the peer table are copied to a slice and
the loop runs over it; nil is returned. The result is the list of sends and the
error returned. -/
def BroadcastMessage (transport : String → Message → Option String) (b : Broker)
    (message : Message) : List (String × Message) × Option String :=
  ((broadcastLoop transport message (b.peers.map (fun kv => kv.2))).1, none)

/-- The errors that BroadcastMessage logs. -/
def broadcastErrors (transport : String → Message → Option String) (b : Broker)
    (message : Message) : List (String × String) :=
  (broadcastLoop transport message (b.peers.map (fun kv => kv.2))).2

/-- Broker.AddPeer. -/
def AddPeer (b : Broker) (peer : Peer) : Broker :=
  { b with
    peers := mapSet b.peers peer.ID peer
    loadBalancer := b.loadBalancer.AddPeer peer
    failover := b.failover.AddPeer peer
    protocols := b.protocols.map (fun kv => (kv.1, kv.2.AddPeer peer)) }

/-- Broker.RemovePeer: the key is deleted from the peer table; the load balancer,
the failover manager and the protocols are told only when the key existed. -/
def RemovePeer (b : Broker) (peerID : String) : Broker :=
  match mapGet b.peers peerID with
  | some _ =>
    { b with
      peers := mapDelete b.peers peerID
      loadBalancer := b.loadBalancer.RemovePeer peerID
      failover := b.failover.RemovePeer peerID
      protocols := b.protocols.map (fun kv => (kv.1, kv.2.RemovePeer peerID)) }
  | none => { b with peers := mapDelete b.peers peerID }

/-- Broker.AddProtocol: the protocol is stored under the name and gets every peer
of the peer table. -/
def AddProtocol (b : Broker) (name : String) (protocol : Protocol) : Broker :=
  { b with
    protocols :=
      mapSet b.protocols name (b.peers.foldl (fun pr kv => pr.AddPeer kv.2) protocol) }

end Broker

/-- What a call of Broker.HandleMessage does: the broker afterwards, the message of
the caller in its final state, the errors of protocols that were logged (name of
the protocol and error), and the error returned (none is nil). -/
structure HandleOutcome where
  broker : Broker
  message : Message
  logged : List (String × String)
  err : Option String
deriving DecidableEq, Repr

namespace Broker

/-- The loop of HandleMessage over the registered protocols. The parameter handler
gives the error that HandleIncomingMessage of the protocol registered under the
name returns for the message (none for nil); an error is logged and the loop
goes on. -/
def dispatch (handler : String → Message → Option String) (b : Broker) (message : Message) :
    HandleOutcome :=
  { broker :=
      { b with protocols := b.protocols.map (fun kv => (kv.1, kv.2.HandleIncomingMessage message)) }
    message := message
    logged := b.protocols.filterMap (fun kv => (handler kv.1 message).map (fun e => (kv.1, e)))
    err := none }

/-- Broker.HandleMessage: the payload of a message that is not a health message is
decrypted when it is a byte slice; a decryption error is returned at once. -/
def HandleMessage (enc : AESGCM) (handler : String → Message → Option String) (b : Broker)
    (message : Message) : HandleOutcome :=
  if message.Type_ ≠ MessageType.health then
    match message.Payload with
    | Payload.bytes encryptedPayload =>
      match enc.Decrypt encryptedPayload with
      | Except.error e =>
        { broker := b, message := message, logged := [],
          err := some ("failed to decrypt message: " ++ e) }
      | Except.ok decryptedPayload =>
        dispatch handler b { message with Payload := Payload.bytes decryptedPayload }
    | _ => dispatch handler b message
  else dispatch handler b message

end Broker

/-- The calls that change the tables of the broker. -/
inductive BrokerOp where
  | addPeer (peer : Peer)
  | removePeer (peerID : String)
  | addProtocol (name : String) (protocol : Protocol)
deriving DecidableEq, Repr

namespace Broker

/-- The broker after one call. -/
def step (b : Broker) : BrokerOp → Broker
  | BrokerOp.addPeer peer => b.AddPeer peer
  | BrokerOp.removePeer peerID => b.RemovePeer peerID
  | BrokerOp.addProtocol name protocol => b.AddProtocol name protocol

/-- The broker after a sequence of calls. -/
def run (b : Broker) (ops : List BrokerOp) : Broker :=
  ops.foldl step b

/-- The proviso on a call of AddProtocol: the protocol handed over holds, at that
moment, no peers other than peers of the peer table. A newly created protocol
holds none. A protocol that was registered before, replaced under its name and so
passed over by a RemovePeer, may hold one (staleOps). The other calls are not
restricted. -/
def admits (b : Broker) : BrokerOp → Prop
  | BrokerOp.addProtocol _ protocol => ∀ id ∈ protocol.peers, id ∈ mapKeys b.peers
  | _ => True

/-- Every call of the sequence is admitted in the state in which it is made. -/
def Admits : Broker → List BrokerOp → Prop
  | _, [] => True
  | b, op :: ops => admits b op ∧ Admits (step b op) ops

/-- The tables of the broker agree exactly: the load balancer is well formed, the
entries of the peer table are filed under the id of their peer with no key twice,
and the load balancer, the failover manager and every registered protocol know
exactly the ids of the peer table. It is kept by AddPeer and RemovePeer, and by
AddProtocol when the call is admitted. -/
def Consistent (b : Broker) : Prop :=
  b.loadBalancer.WF ∧
  (mapKeys b.peers).Nodup ∧
  (∀ kv ∈ b.peers, kv.2.ID = kv.1) ∧
  (∀ id, id ∈ mapKeys b.loadBalancer.peers ↔ id ∈ mapKeys b.peers) ∧
  (∀ id, id ∈ mapKeys b.failover.peers ↔ id ∈ mapKeys b.peers) ∧
  (∀ kv ∈ b.protocols, ∀ id, id ∈ kv.2.peers ↔ id ∈ mapKeys b.peers)

/-- What the tables of the broker satisfy after any calls of AddPeer, RemovePeer
and AddProtocol: the load balancer is well formed, the entries of the peer table
are filed under the id of their peer with no key twice, the load balancer and the
failover manager know exactly the ids of the peer table, and every registered
protocol knows at least these ids. -/
def TablesAgree (b : Broker) : Prop :=
  b.loadBalancer.WF ∧
  (mapKeys b.peers).Nodup ∧
  (∀ kv ∈ b.peers, kv.2.ID = kv.1) ∧
  (∀ id, id ∈ mapKeys b.loadBalancer.peers ↔ id ∈ mapKeys b.peers) ∧
  (∀ id, id ∈ mapKeys b.failover.peers ↔ id ∈ mapKeys b.peers) ∧
  (∀ kv ∈ b.protocols, ∀ id, id ∈ mapKeys b.peers → id ∈ kv.2.peers)

instance (b : Broker) (op : BrokerOp) : Decidable (admits b op) := by
  cases op <;> (simp only [admits]; exact inferInstance)

/-- Admits is decidable, by recursion along the calls. -/
def decAdmits : (b : Broker) → (ops : List BrokerOp) → Decidable (Admits b ops)
  | _, [] => isTrue trivial
  | b, op :: ops =>
    have : Decidable (Admits (step b op) ops) := decAdmits (step b op) ops
    (inferInstance : Decidable (admits b op ∧ Admits (step b op) ops))

instance (b : Broker) (ops : List BrokerOp) : Decidable (Admits b ops) :=
  decAdmits b ops

end Broker

/-! ## UDP discovery (go/internal/mesh/discovery.go) -/

/-- A peer discovered via UDP; LastSeen is a clock reading. -/
structure UDPPeer where
  ID : String
  Address : String
  Port : Int
  LastSeen : Int
deriving DecidableEq, Repr

/-- The discovery state, without the socket. The field onPeerFound tells whether a
callback is set (the function value is not nil); the calls of the callback are
listed in the results of receive and listen. -/
structure UDPDiscovery where
  localID : String
  isRunning : Bool
  peers : List (String × UDPPeer)
  onPeerFound : Bool
deriving DecidableEq, Repr

/-- NewUDPDiscovery: not running, no peers, no callback. -/
def NewUDPDiscovery (localID : String) : UDPDiscovery :=
  { localID := localID, isRunning := false, peers := [], onPeerFound := false }

/-- What conn.ReadFromUDP returns in one turn of the listen loop: an error, or the
bytes read (as a string) with the address and port of the sender; now is the
clock reading of that turn. -/
inductive Read where
  | failed
  | datagram (data : String) (address : String) (port : Int) (now : Int)
deriving DecidableEq, Repr

/-- The identity that a read advertises, if it is a datagram. -/
def Read.identity : Read → Option String
  | Read.failed => none
  | Read.datagram data _ _ _ => some data

/-- The identities advertised by a sequence of reads, in their order. -/
def advertised (reads : List Read) : List String :=
  reads.filterMap Read.identity

namespace UDPDiscovery

/-- SetOnPeerFound; callback tells whether the function passed is not nil. -/
def SetOnPeerFound (d : UDPDiscovery) (callback : Bool) : UDPDiscovery :=
  { d with onPeerFound := callback }

/-- Start, with the outcome of net.ListenMulticastUDP as a parameter; the result
is the state and the error returned. -/
def Start (d : UDPDiscovery) (listenOk : Bool) : UDPDiscovery × Option String :=
  if d.isRunning then (d, some "discovery already running")
  else if listenOk then ({ d with isRunning := true }, none)
  else (d, some "failed to listen multicast")

/-- One turn of the loop of listen: the state afterwards and the peers with which
the callback is called. The test len(data) > 0 is that data is not the empty
string. -/
def receive (d : UDPDiscovery) : Read → UDPDiscovery × List UDPPeer
  | Read.failed => (d, [])
  | Read.datagram data address port now =>
    if data ≠ "" ∧ data ≠ d.localID then
      let peer : UDPPeer := { ID := data, Address := address, Port := port, LastSeen := now }
      match mapGet d.peers peer.ID with
      | none =>
        ({ d with peers := mapSet d.peers peer.ID peer },
          if d.onPeerFound then [peer] else [])
      | some known =>
        ({ d with peers := mapSet d.peers peer.ID { known with LastSeen := now } }, [])
    else (d, [])

/-- The loop of listen over the reads that arrive while it runs: the state at the
end and the calls of the callback, in their order. -/
def listen : UDPDiscovery → List Read → UDPDiscovery × List UDPPeer
  | d, [] => (d, [])
  | d, r :: rest =>
    if d.isRunning then
      let s := receive d r
      let t := listen s.1 rest
      (t.1, s.2 ++ t.2)
    else (d, [])

end UDPDiscovery

/-! ## Voting poll (go/pkg/protocol/voting.go) -/

/-- A voting poll; the map Metadata, which NewPoll leaves empty, is omitted. -/
structure VotingPoll where
  ID : String
  Title : String
  Description : String
  Options : List String
  Votes : List (String × Int)
  CreatorID : String
  CreatedAt : Int
  IsActive : Bool
deriving DecidableEq, Repr

/-- The loop of splitOptions over the characters that are left, at index i, with
the variables last and result. The string is a list of characters and indices
count characters; the slice optionsStr[last:i] is taken with drop and take. (Go
counts bytes. Both delimit the same pieces of the string, since a cut is made
only next to a comma, which is a single byte, or at an end of the string.) -/
def splitLoop (chars : List Char) : List Char → Nat → Nat → List String → List String × Nat
  | [], _, last, result => (result, last)
  | char :: rest, i, last, result =>
    if char = ',' then
      if i > last then
        let opt := (chars.drop last).take (i - last)
        if opt.length > 0 then splitLoop chars rest (i + 1) (i + 1) (result ++ [String.mk opt])
        else splitLoop chars rest (i + 1) (i + 1) result
      else splitLoop chars rest (i + 1) (i + 1) result
    else splitLoop chars rest (i + 1) last result

/-- The end of splitOptions, after the loop left the values result and last: the
piece after the last comma is appended when it is not empty. -/
def splitTail (chars : List Char) (r : List String × Nat) : List String :=
  if r.2 < chars.length then
    let opt := chars.drop r.2
    if opt.length > 0 then r.1 ++ [String.mk opt] else r.1
  else r.1

/-- Function splitOptions: the loop, then the piece after the last comma. -/
def splitOptions (optionsStr : String) : List String :=
  splitTail optionsStr.data (splitLoop optionsStr.data optionsStr.data 0 0 [])

/-- The description of splitOptions in words: the string is split at every comma
and the segments that are not empty are kept, in order. -/
def nonEmptySegments (s : String) : List String :=
  ((s.data.splitOn ',').filter (fun segment => segment ≠ [])).map String.mk

/-- The options joined with commas: strings.Join(options, ","). -/
def joinOptions (options : List String) : String :=
  String.mk ([','].intercalate (options.map String.data))

/-- NewPoll; the parameter id is the string of the new UUID, now the clock reading. -/
def NewPoll (id : String) (title description optionsStr creatorID : String) (now : Int) :
    VotingPoll :=
  let options := splitOptions optionsStr
  { ID := id
    Title := title
    Description := description
    Options := options
    Votes := options.foldl (fun votes opt => mapSet votes opt 0) []
    CreatorID := creatorID
    CreatedAt := now
    IsActive := true }

namespace VotingPoll

/-- GetTotalVotes: the sum of the counts, added up as Go ints. -/
def GetTotalVotes (p : VotingPoll) : Int :=
  p.Votes.foldl (fun total kv => wrapInt64 (total + kv.2)) 0

/-- AddVote: the count of an option that is a key of Votes is incremented. -/
def AddVote (p : VotingPoll) (option : String) : VotingPoll :=
  match mapGet p.Votes option with
  | some count => { p with Votes := mapSet p.Votes option (wrapInt64 (count + 1)) }
  | none => p

/-- The poll as NewPoll and AddVote leave it: no option is twice a key of Votes,
the keys of Votes are the options, and no count is negative. -/
def WF (p : VotingPoll) : Prop :=
  (mapKeys p.Votes).Nodup ∧ (∀ o, o ∈ p.Options ↔ o ∈ mapKeys p.Votes) ∧
  ∀ kv ∈ p.Votes, 0 ≤ kv.2

end VotingPoll

/-! ## Concrete nodes used to evaluate the code -/

/-- A consensus node n0 that knows two peers (so N = 3) and holds the open round r
with its own vote for X. -/
def quorumNode : ConsensusProtocol :=
  { nodeID := "n0"
    peers := ["p1", "p2"]
    votes :=
      [("r",
        { ID := "r", Proposal := "X"
          Votes := [("n0", { NodeID := "n0", Value := "X", Timestamp := 1, Signature := [] })]
          StartTime := 1, EndTime := none, Consensus := none })]
    quorumSize := 2
    timeout := 1000 }

/-- The vote of peer p1 for X in round r, as it arrives at n0. -/
def quorumVote : Message :=
  { ID := "vote_r_p1"
    Type_ := MessageType.consensusVote
    From := "p1"
    To := "n0"
    Payload := Payload.fields (some "r")
      (some { NodeID := "p1", Value := "X", Timestamp := 2, Signature := [] })
    Timestamp := 2
    Hops := 1
    TTL := 10
    Path := [] }

/-- A stand-in for the digest function where a concrete run is evaluated: the
rendered value, marked. Like SHA-256 on the values used here, it maps different
renderings to different keys. -/
def stubDigest (rendered : String) : String :=
  "sha256:" ++ rendered

/-- A consensus node n0 that knows the single peer p1 (so N = 2). -/
def pairNode : ConsensusProtocol :=
  (NewConsensusProtocol "n0" 2 1000).AddPeer "p1"

/-- An incoming proposal for round r that started at time 0. -/
def earlyProposal : Message :=
  { ID := "proposal_r_p1"
    Type_ := MessageType.consensusProposal
    From := "p1"
    To := "n0"
    Payload := Payload.round
      { ID := "r", Proposal := "Y", Votes := [], StartTime := 0, EndTime := none,
        Consensus := none }
    Timestamp := 3
    Hops := 1
    TTL := 10
    Path := [] }

/-- A peer that keeps failing its health checks and reconnects. -/
def flakyPeer : Peer :=
  { ID := "p", Healthy := false, ConnectionCount := 0, Weight := 1 }

/-- Health checks of flakyPeer fail every 30 s from second 30 to second 120, and
the retries scheduled by the first failures wake up after 30 s and fail as well. -/
def flakyTrace : List FailoverEvent :=
  [ FailoverEvent.healthCheckFailed flakyPeer 30000000000,
    FailoverEvent.healthCheckFailed flakyPeer 60000000000,
    FailoverEvent.retryFires "p" false 60000000001,
    FailoverEvent.healthCheckFailed flakyPeer 90000000000,
    FailoverEvent.retryFires "p" false 90000000001,
    FailoverEvent.retryFires "p" false 90000000002,
    FailoverEvent.healthCheckFailed flakyPeer 120000000000 ]

/-- One failed health check of flakyPeer followed by failing retries only. -/
def chainTrace : List FailoverEvent :=
  [ FailoverEvent.healthCheckFailed flakyPeer 30000000000,
    FailoverEvent.retryFires "p" false 60000000000,
    FailoverEvent.retryFires "p" false 90000000000,
    FailoverEvent.retryFires "p" false 120000000000,
    FailoverEvent.retryFires "p" false 150000000000,
    FailoverEvent.retryFires "p" false 180000000000 ]

/-- The failed-peer record of flakyPeer at the end of chainTrace. -/
def chainRecord : FailedPeerInfo :=
  { Peer := flakyPeer, FailureTime := 30000000000, RetryCount := 5, LastRetry := 150000000000 }

/-- The failed-peer record of flakyPeer at the end of flakyTrace. -/
def flakyRecord : FailedPeerInfo :=
  { Peer := flakyPeer, FailureTime := 30000000000, RetryCount := 7, LastRetry := 120000000000 }

/-- A flooding node A with peers B, C and D, dedup retention 10 and at most 3 hops. -/
def floodNode : FloodingProtocol :=
  { nodeID := "A", peers := ["B", "C", "D"], messageCache := [], ttl := 10, maxHops := 3 }

/-- A chat message m1 that B originated and sent to A: remaining TTL 5, hop count 1,
forwarding path B. -/
def floodMsg : Message :=
  { ID := "m1", Type_ := MessageType.chat, From := "B", To := "broadcast",
    Payload := Payload.bytes [104, 105], Timestamp := 90, Hops := 1, TTL := 5,
    Path := ["B"] }

/-- Another message, with id m2. -/
def otherMsg : Message :=
  { ID := "m2", Type_ := MessageType.chat, From := "C", To := "broadcast",
    Payload := Payload.bytes [], Timestamp := 95, Hops := 0, TTL := 5, Path := ["C"] }

/-- The message m1 with its TTL used up. -/
def expiredMsg : Message :=
  { floodMsg with TTL := 0 }

/-- The node floodNode right after it accepted the local broadcast of m1 at time 100. -/
def floodNodeSeen : FloodingProtocol :=
  (floodNode.Broadcast floodMsg 100).1

/-- Peers A, B (healthy), C (unhealthy) and D (healthy). -/
def peerA : Peer := { ID := "A", Healthy := true, ConnectionCount := 2, Weight := 1 }

def peerB : Peer := { ID := "B", Healthy := true, ConnectionCount := 0, Weight := 1 }

def peerC : Peer := { ID := "C", Healthy := false, ConnectionCount := 0, Weight := 1 }

def peerD : Peer := { ID := "D", Healthy := true, ConnectionCount := 1, Weight := 3 }

/-- A round-robin load balancer to which A, B, C and D were added in this order. -/
def balancer : LoadBalancer :=
  (((NewLoadBalancer.AddPeer peerA).AddPeer peerB).AddPeer peerC).AddPeer peerD

/-- A load balancer whose peers are all unhealthy. -/
def sickBalancer : LoadBalancer :=
  (NewLoadBalancer.AddPeer peerC).AddPeer { peerA with Healthy := false }

/-- The sum of all weights, the value totalWeight of selectWeightedRandom. -/
def totalWeight (peers : List Peer) : Nat :=
  (peers.map (fun p => p.Weight)).sum

/-- A healthy peer E without connections. -/
def peerE : Peer := { ID := "E", Healthy := true, ConnectionCount := 0, Weight := 0 }

/-- The peers A, B, C, D, E under the least-connections strategy: B and E share the
smallest count among the healthy peers, B was added first. -/
def leastBalancer : LoadBalancer :=
  (balancer.AddPeer peerE).SetStrategy LeastConnections

/-- A gossip node A with peers B, C and D, fanout 2 and at most 3 rounds. -/
def gossipNode : GossipProtocol :=
  { nodeID := "A", peers := ["B", "C", "D"], messageCache := [], fanout := 2,
    interval := 1000000000, maxRounds := 3 }

/-- Random draws that are all 0. -/
def zeroDraws : Nat → Nat := fun _ => 0

/-- The record of m1 at round 2 as another node sends it. -/
def gossipRecord : GossipMessage :=
  { ID := "m1", Round := 2, Timestamp := 50, Data := floodMsg }

/-- A gossip message from B that carries gossipRecord. -/
def gossipIncoming : Message :=
  { ID := "m1_gossip_r" ++ runeString 2, Type_ := MessageType.gossip, From := "B", To := "A",
    Payload := Payload.ofGossip gossipRecord, Timestamp := 60, Hops := 1, TTL := 10,
    Path := [] }

/-- The number of calls of a run that sent copies of the record with this id. -/
def sentCount (outs : List (List Emission)) (id : String) : Nat :=
  (outs.filter (fun out => GossipProtocol.sends out id)).length

/-- The record with its round raised by n. -/
def GossipMessage.advance (g : GossipMessage) (n : Nat) : GossipMessage :=
  { ID := g.ID, Round := g.Round + n, Timestamp := g.Timestamp, Data := g.Data }

/-- The record that Broadcast stores for m1 at time 1. -/
def gossipSeed : GossipMessage :=
  { ID := "m1", Round := 0, Timestamp := 1, Data := floodMsg }

/-- Five gossip ticks with a peer change in between. -/
def fiveTicks : List GossipOp :=
  [GossipOp.tick zeroDraws 2, GossipOp.tick zeroDraws 3, GossipOp.removePeer "B",
    GossipOp.tick zeroDraws 4, GossipOp.tick zeroDraws 5, GossipOp.tick zeroDraws 6]

/-- A toy AEAD used to instantiate the parameters: the sealed text is the plaintext
preceded by the length of the additional data. -/
def toyAEAD : AEAD :=
  { NonceSize := 12
    Seal := fun _ plaintext aad => aad.length :: plaintext
    Open := fun _ ciphertext aad =>
      match ciphertext with
      | [] => none
      | n :: rest => if n = aad.length then some rest else none }

/-- A random source that yields the bytes 0, 1, ..., n - 1. -/
def countingRandom (n : Nat) : Option Bytes :=
  some (List.range n)

/-- A key of 32 bytes. -/
def toyKey : Bytes := List.replicate 32 7

/-- A toy stand-in for X25519: the product of the scalar sum with the point sum. -/
def toyCurve : Curve25519 :=
  { ScalarMult := fun s u => [s.sum * u.sum]
    ScalarBaseMult := fun s => [s.sum * 9] }

/-- A toy channel cipher: twelve zero bytes followed by every byte plus one. -/
def toyCipher : AESGCM :=
  { Encrypt := fun p => Except.ok (List.replicate 12 0 ++ p.map (fun x => (x + 1) % 256))
    Decrypt := fun c => Except.ok ((c.drop 12).map (fun x => (x + 255) % 256)) }

/-- A transport on which every send succeeds. -/
def okTransport : String → Message → Option String := fun _ _ => none

/-- A broker with the healthy peers A and B. -/
def meshBroker : Broker :=
  { nodeID := "n0"
    peers := [("A", peerA), ("B", peerB)]
    loadBalancer := (NewLoadBalancer.AddPeer peerA).AddPeer peerB
    failover := (NewFailoverManager.AddPeer peerA).AddPeer peerB }

/-- A chat message for peer B with the plaintext payload hi. -/
def chatMsg : Message :=
  { ID := "c1", Type_ := MessageType.chat, From := "n0", To := "B",
    Payload := Payload.bytes [104, 105], Timestamp := 10, Hops := 0, TTL := 10, Path := [] }

/-- A failover manager at second 200 of a run: peer p has given up (count 5, last
retry at second 120), peer q has given up more recently (last retry at second
150), peer r is still being retried (count 2, last retry at second 100). -/
def sweepManager : FailoverManager :=
  { peers := []
    failedPeers :=
      [ ("p", { Peer := flakyPeer, FailureTime := 30000000000, RetryCount := 5,
                LastRetry := 120000000000 }),
        ("q", { Peer := { flakyPeer with ID := "q" }, FailureTime := 30000000000,
                RetryCount := 5, LastRetry := 150000000000 }),
        ("r", { Peer := { flakyPeer with ID := "r" }, FailureTime := 30000000000,
                RetryCount := 2, LastRetry := 100000000000 }) ]
    retryInterval := 30 * 1000000000
    maxRetries := 5 }


/-- A transport on which the sends to peer A fail. -/
def flakyTransport : String → Message → Option String :=
  fun peerID _ => if peerID = "A" then some "connection refused" else none

/-- A protocol as it is created: no peers, nothing handled. -/
def emptyProtocol : Protocol := { peers := [], handled := [] }

/-- The calls that set up routingBroker: two protocols and the peers A and B. -/
def routingOps : List BrokerOp :=
  [ BrokerOp.addProtocol "flooding" emptyProtocol,
    BrokerOp.addPeer peerA,
    BrokerOp.addProtocol "gossip" emptyProtocol,
    BrokerOp.addPeer peerB ]

/-- A broker with the protocols flooding and gossip and the peers A and B. -/
def routingBroker : Broker := (NewBroker "n0").run routingOps

/-- The protocol P after a broker with the peer A registered it: it holds A. -/
def staleProtocol : Protocol := emptyProtocol.AddPeer peerA

/-- Calls of the broker with two newly created protocols P and Q: A is added, P is
registered under the name a and gets A, Q is registered under the same name in
place of P, A is removed (from Q, the only registered protocol), and P, which
still holds A, is registered under the name b. -/
def staleOps : List BrokerOp :=
  [ BrokerOp.addPeer peerA,
    BrokerOp.addProtocol "a" emptyProtocol,
    BrokerOp.addProtocol "a" emptyProtocol,
    BrokerOp.removePeer "A",
    BrokerOp.addProtocol "b" staleProtocol ]

/-- A cipher whose Decrypt rejects every input. -/
def brokenCipher : AESGCM :=
  { Encrypt := fun p => Except.ok p
    Decrypt := fun _ => Except.error "cipher: message authentication failed" }

/-- The handler of the flooding protocol returns an error, that of the other
protocols nil. -/
def failingHandler : String → Message → Option String :=
  fun name _ => if name = "flooding" then some "invalid payload" else none

/-- The message chatMsg as toyCipher encrypts it. -/
def sealedMsg : Message :=
  { chatMsg with Payload := Payload.bytes [0, 0, 0, 0, 0, 0, 0, 0, 0, 0, 0, 0, 105, 106] }


/-- A discovery instance of node n0 that was started with a callback set. -/
def lanDiscovery : UDPDiscovery :=
  (((NewUDPDiscovery "n0").SetOnPeerFound true).Start true).1

/-- The reads of a session of n0: n1 advertises, n0 hears itself, n1 advertises
again from another port, a read fails, n2 advertises, an empty datagram arrives. -/
def lanReads : List Read :=
  [ Read.datagram "n1" "10.0.0.1" 5353 100,
    Read.datagram "n0" "10.0.0.9" 5353 110,
    Read.datagram "n1" "10.0.0.1" 6000 120,
    Read.failed,
    Read.datagram "n2" "10.0.0.2" 5353 130,
    Read.datagram "" "10.0.0.3" 5353 140 ]

/-- A consensus node n0 that knows no peer (so N = 1). -/
def soloNode : ConsensusProtocol :=
  NewConsensusProtocol "n0" 1 1000


/-- A vote message for round r as it arrives at n0: the voter, the value and the
time of the vote. -/
def roundVote (voter value : String) (t : Int) : Message :=
  { ID := "vote_r_" ++ voter
    Type_ := MessageType.consensusVote
    From := voter
    To := "n0"
    Payload := Payload.fields (some "r")
      (some { NodeID := voter, Value := value, Timestamp := t, Signature := [] })
    Timestamp := t
    Hops := 1
    TTL := 10
    Path := [] }

/-- The node pairNode after it proposed X in round r at time 1 and handled the vote
of p1 for X at time 2: the round is achieved. -/
def achievedNode : ConsensusProtocol :=
  ConsensusProtocol.run stubDigest pairNode
    [ConsensusOp.propose "r" "X" 1, ConsensusOp.incoming quorumVote 2]

/-- The round r of achievedNode. -/
def achievedRound : VoteRound :=
  { ID := "r", Proposal := "X"
    Votes :=
      [ ("n0", { NodeID := "n0", Value := "X", Timestamp := 1, Signature := [] }),
        ("p1", { NodeID := "p1", Value := "X", Timestamp := 2, Signature := [] }) ]
    StartTime := 1, EndTime := some 2
    Consensus := some
      { Value := stubDigest "X", VoteCount := 2, TotalVotes := 2, Achieved := true } }

/-- Votes that reach pairNode from the ids u1, u2 and u3, none of which is a peer
of the node: u1 and u3 vote Y, u2 votes Z. -/
def strangerVotes : List (Message × Int) :=
  [(roundVote "u1" "Y" 2, 2), (roundVote "u2" "Z" 3, 3), (roundVote "u3" "Y" 4, 4)]


/-- A broker whose load balancer holds unhealthy peers only. -/
def sickBroker : Broker :=
  { nodeID := "n0"
    peers := [("C", peerC), ("A", { peerA with Healthy := false })]
    loadBalancer := sickBalancer
    failover := (NewFailoverManager.AddPeer peerC).AddPeer { peerA with Healthy := false } }

/-- The message m1 with a hop count of 5, above the limit of floodNode. -/
def farMsg : Message :=
  { floodMsg with Hops := 5 }


/-- The poll of the example simple_poll.go. -/
def meetPoll : VotingPoll :=
  NewPoll "poll-1" "Where should we meet?" "Choose a location for the afterparty"
    "Cafe,Park,Office" "go-example" 0


/-- A toy stand-in for HKDF-SHA256: every output byte mixes the secret, the info and
the salt byte at its position, so that the output depends on each of the three. -/
def toyHKDF : Bytes → Bytes → Bytes → Nat → Option Bytes :=
  fun secret salt info n =>
    some ((List.range n).map (fun i => (secret.sum + info.sum + salt.getD i 0) % 256))

/-- The handshake of party A over the toy curve, with the private key 1, 2. -/
def handshakeA : Handshake :=
  { KeyPair := { PrivateKey := [1, 2], PublicKey := [27] }
    SharedSecret := List.replicate 32 0, SessionKey := [] }

/-- The handshake of party B over the toy curve, with the private key 5. -/
def handshakeB : Handshake :=
  { KeyPair := { PrivateKey := [5], PublicKey := [45] }
    SharedSecret := List.replicate 32 0, SessionKey := [] }

/-- The random source of party B at the time of Complete: n bytes 7. -/
def sevensRandom (n : Nat) : Option Bytes :=
  some (List.replicate n 7)


/-- A consensus node n0 with the peers p1, p2 and p3 (so N = 4) and the open round r,
in which n0 and p1 voted X and p2 voted Y. -/
def tieNode : ConsensusProtocol :=
  { nodeID := "n0"
    peers := ["p1", "p2", "p3"]
    votes :=
      [("r",
        { ID := "r", Proposal := "X"
          Votes :=
            [ ("n0", { NodeID := "n0", Value := "X", Timestamp := 1, Signature := [] }),
              ("p1", { NodeID := "p1", Value := "X", Timestamp := 2, Signature := [] }),
              ("p2", { NodeID := "p2", Value := "Y", Timestamp := 3, Signature := [] }) ]
          StartTime := 1, EndTime := none, Consensus := none })]
    quorumSize := 3
    timeout := 1000 }

/-- The round r of tieNode. -/
def tieRound : VoteRound :=
  { ID := "r", Proposal := "X"
    Votes :=
      [ ("n0", { NodeID := "n0", Value := "X", Timestamp := 1, Signature := [] }),
        ("p1", { NodeID := "p1", Value := "X", Timestamp := 2, Signature := [] }),
        ("p2", { NodeID := "p2", Value := "Y", Timestamp := 3, Signature := [] }) ]
    StartTime := 1, EndTime := none, Consensus := none }


/-! ## Lemmas on maps -/

theorem mapGet_mapSet {β : Type} (m : List (String × β)) (k k1 : String) (v : β) :
    mapGet (mapSet m k v) k1 = if k = k1 then some v else mapGet m k1 := by
  induction m with
  | nil => simp [mapSet, mapGet]
  | cons kv m ih =>
    obtain ⟨a, w⟩ := kv
    by_cases h : a = k
    · subst h
      by_cases h1 : a = k1 <;> simp [mapSet, mapGet, h1]
    · by_cases h1 : a = k1
      · subst h1
        have h2 : ¬ k = a := fun e => h e.symm
        simp [mapSet, mapGet, h, h2]
      · simp [mapSet, mapGet, h, h1, ih]

theorem mapGet_mapSet_self {β : Type} (m : List (String × β)) (k : String) (v : β) :
    mapGet (mapSet m k v) k = some v := by
  simp [mapGet_mapSet]

theorem mapGet_mapSet_ne {β : Type} (m : List (String × β)) (k k1 : String) (v : β)
    (h : k ≠ k1) : mapGet (mapSet m k v) k1 = mapGet m k1 := by
  simp [mapGet_mapSet, h]

theorem mapGet_mapDelete {β : Type} (m : List (String × β)) (k k1 : String) :
    mapGet (mapDelete m k) k1 = if k = k1 then none else mapGet m k1 := by
  induction m with
  | nil => simp [mapDelete, mapGet]
  | cons kv m ih =>
    obtain ⟨a, w⟩ := kv
    by_cases h : a = k
    · subst h
      by_cases h1 : a = k1
      · subst h1
        simpa [mapDelete] using ih
      · simp [mapDelete, mapGet, h1, ih]
    · by_cases h1 : a = k1
      · subst h1
        have h2 : ¬ k = a := fun e => h e.symm
        simp [mapDelete, mapGet, h, h2]
      · simp [mapDelete, mapGet, h, h1, ih]

theorem mapGet_mem {β : Type} (m : List (String × β)) (k : String) (v : β)
    (h : mapGet m k = some v) : (k, v) ∈ m := by
  induction m with
  | nil => simp [mapGet] at h
  | cons kv m ih =>
    obtain ⟨a, w⟩ := kv
    by_cases h1 : a = k
    · simp [mapGet, h1] at h
      simp [h1, h]
    · simp [mapGet, h1] at h
      exact List.mem_cons_of_mem _ (ih h)

theorem mapGet_filter {β : Type} (m : List (String × β)) (f : String × β → Bool) (k : String)
    (v : β) (h : mapGet m k = some v) (hf : f (k, v) = true) :
    mapGet (m.filter f) k = some v := by
  induction m with
  | nil => simp [mapGet] at h
  | cons kv m ih =>
    obtain ⟨a, w⟩ := kv
    by_cases h1 : a = k
    · subst h1
      simp [mapGet] at h
      subst h
      simp [List.filter, hf, mapGet]
    · simp [mapGet, h1] at h
      by_cases h2 : f (a, w) = true
      · simp [List.filter, h2, mapGet, h1, ih h]
      · simp [List.filter, h2, ih h]

/-! ## Consensus protocol -/

/-- C1 (evaluation of the code at the failing input). Node n0 knows two peers, so
N = 3 and the two-thirds quorum is ceil(2 * 3 / 3) = 2. When the vote of p1 for X
arrives in the open round r that already holds the vote of n0 for X, the largest
number of votes sharing one digest is M = 2, which reaches the two-thirds quorum,
yet handleVote leaves the round without a consensus result: the threshold that
checkConsensus computes with the constant 0.67 is 3. -/
theorem quorum_constant_misses_two_thirds (H : String → String) :
    quorumNode.peers.length + 1 = 3 ∧
    ConsensusProtocol.GetConsensusResult quorumNode "r" = none ∧
    (∃ round,
      mapGet (ConsensusProtocol.handleVote H quorumNode quorumVote 2).votes "r" = some round ∧
      (ConsensusProtocol.findMajority (ConsensusProtocol.countVotes H round.Votes)).2 = 2 ∧
      round.Consensus = none) ∧
    ConsensusProtocol.GetConsensusResult
      (ConsensusProtocol.handleVote H quorumNode quorumVote 2) "r" = none ∧
    (2 * 3 + 2) / 3 = 2 ∧ quorumThreshold 3 = 3 := by
  have hq : quorumThreshold 3 = 3 := by decide
  simp [quorumNode, quorumVote, ConsensusProtocol.handleVote, ConsensusProtocol.checkConsensus,
    ConsensusProtocol.GetConsensusResult, ConsensusProtocol.findMajority,
    ConsensusProtocol.countVotes, mapGet, mapSet, hq]

theorem getConsensusResult_eq (cp : ConsensusProtocol) (pid : String) (res : ConsensusResult) :
    ConsensusProtocol.GetConsensusResult cp pid = some res ↔
      ∃ round, mapGet cp.votes pid = some round ∧ round.Consensus = some res := by
  unfold ConsensusProtocol.GetConsensusResult
  cases h : mapGet cp.votes pid with
  | none => simp
  | some round => simp

theorem checkConsensus_keeps_result (H : String → String) (cp : ConsensusProtocol)
    (pid proposalID : String) (now : Int) (res : ConsensusResult)
    (h : ConsensusProtocol.GetConsensusResult cp pid = some res) :
    ConsensusProtocol.GetConsensusResult
      (ConsensusProtocol.checkConsensus H cp proposalID now) pid = some res := by
  obtain ⟨round, hget, hcons⟩ := (getConsensusResult_eq cp pid res).1 h
  unfold ConsensusProtocol.checkConsensus
  cases hp : mapGet cp.votes proposalID with
  | none => simpa using h
  | some r =>
    simp only []
    split_ifs with hs hq
    · exact h
    · by_cases he : proposalID = pid
      · subst he
        rw [hget] at hp
        cases hp
        simp [hcons] at hs
      · rw [getConsensusResult_eq]
        exact ⟨round, by simp [mapGet_mapSet, he, hget], hcons⟩
    · exact h

theorem vote_keeps_result (cp : ConsensusProtocol) (pid proposalID value : String) (now : Int)
    (res : ConsensusResult) (h : ConsensusProtocol.GetConsensusResult cp pid = some res) :
    ConsensusProtocol.GetConsensusResult
      (ConsensusProtocol.Vote cp proposalID value now).1 pid = some res := by
  obtain ⟨round, hget, hcons⟩ := (getConsensusResult_eq cp pid res).1 h
  unfold ConsensusProtocol.Vote
  cases hp : mapGet cp.votes proposalID with
  | none => simpa using h
  | some r =>
    rw [getConsensusResult_eq]
    by_cases he : proposalID = pid
    · subst he
      rw [hget] at hp
      cases hp
      exact ⟨_, mapGet_mapSet_self _ _ _, hcons⟩
    · exact ⟨round, by simp [mapGet_mapSet, he, hget], hcons⟩

theorem propose_keeps_result (cp : ConsensusProtocol) (pid proposalID proposal : String)
    (now : Int) (res : ConsensusResult)
    (h : ConsensusProtocol.GetConsensusResult cp pid = some res) (hne : proposalID ≠ pid) :
    ConsensusProtocol.GetConsensusResult
      (ConsensusProtocol.Propose cp proposalID proposal now).1 pid = some res := by
  obtain ⟨round, hget, hcons⟩ := (getConsensusResult_eq cp pid res).1 h
  rw [getConsensusResult_eq]
  refine ⟨round, ?_, hcons⟩
  simp [ConsensusProtocol.Propose, ConsensusProtocol.Vote, mapGet_mapSet, hne, hget]

theorem handleProposal_keeps_result (cp : ConsensusProtocol) (pid : String) (message : Message)
    (res : ConsensusResult) (h : ConsensusProtocol.GetConsensusResult cp pid = some res)
    (hne : ∀ r, message.Payload = Payload.round r → r.ID ≠ pid) :
    ConsensusProtocol.GetConsensusResult (ConsensusProtocol.handleProposal cp message) pid =
      some res := by
  obtain ⟨round, hget, hcons⟩ := (getConsensusResult_eq cp pid res).1 h
  unfold ConsensusProtocol.handleProposal
  cases hp : message.Payload with
  | round r =>
    have hr : r.ID ≠ pid := hne r hp
    have hkeep : ConsensusProtocol.GetConsensusResult
        { cp with votes := mapSet cp.votes r.ID r } pid = some res := by
      rw [getConsensusResult_eq]
      exact ⟨round, by simp [mapGet_mapSet, hr, hget], hcons⟩
    cases hx : mapGet cp.votes r.ID with
    | none => simpa [hx] using hkeep
    | some existing =>
      by_cases hs : existing.StartTime > r.StartTime
      · simpa [hx, hs] using hkeep
      · simpa [hx, hs] using h
  | bytes b => simpa using h
  | fields a b => simpa using h
  | other => simpa using h
  | gossip a b c d e => simpa using h

theorem handleVote_keeps_result (H : String → String) (cp : ConsensusProtocol) (pid : String)
    (message : Message) (now : Int) (res : ConsensusResult)
    (h : ConsensusProtocol.GetConsensusResult cp pid = some res) :
    ConsensusProtocol.GetConsensusResult (ConsensusProtocol.handleVote H cp message now) pid =
      some res := by
  obtain ⟨round, hget, hcons⟩ := (getConsensusResult_eq cp pid res).1 h
  unfold ConsensusProtocol.handleVote
  split
  · rename_i proposalID vote _
    cases hp : mapGet cp.votes proposalID with
    | none => simpa using h
    | some r =>
      simp only []
      apply checkConsensus_keeps_result
      rw [getConsensusResult_eq]
      by_cases he : proposalID = pid
      · subst he
        rw [hget] at hp
        cases hp
        exact ⟨_, mapGet_mapSet_self _ _ _, hcons⟩
      · exact ⟨round, by simp [mapGet_mapSet, he, hget], hcons⟩
  · exact h

theorem step_keeps_result (H : String → String) (cp : ConsensusProtocol) (pid : String)
    (op : ConsensusOp) (res : ConsensusResult)
    (h : ConsensusProtocol.GetConsensusResult cp pid = some res)
    (hop : ¬ op.proposes pid) :
    ConsensusProtocol.GetConsensusResult (ConsensusProtocol.step H cp op) pid = some res := by
  cases op with
  | propose proposalID proposal now =>
    exact propose_keeps_result cp pid proposalID proposal now res h (by simpa [ConsensusOp.proposes] using hop)
  | vote proposalID value now =>
    exact vote_keeps_result cp pid proposalID value now res h
  | incoming message now =>
    simp only [ConsensusProtocol.step, ConsensusProtocol.HandleIncomingMessage]
    cases ht : message.Type_ with
    | consensusProposal =>
      simp only []
      apply handleProposal_keeps_result cp pid message res h
      intro r hr hid
      apply hop
      simp [ConsensusOp.proposes, ht, hr, hid]
    | consensusVote => exact handleVote_keeps_result H cp pid message now res h
    | chat => exact h
    | health => exact h
    | gossip => exact h
    | control => exact h

theorem achieved_round_replaced_for_any_digest (H : String → String) :
    ConsensusProtocol.GetConsensusResult
      (ConsensusProtocol.run H pairNode
        [ConsensusOp.propose "r" "X" 1, ConsensusOp.incoming quorumVote 2]) "r" =
      some { Value := H "X", VoteCount := 2, TotalVotes := 2, Achieved := true } ∧
    ConsensusProtocol.GetConsensusResult
      (ConsensusProtocol.run H pairNode
        [ConsensusOp.propose "r" "X" 1, ConsensusOp.incoming quorumVote 2,
          ConsensusOp.propose "r" "X" 3]) "r" = none ∧
    ConsensusProtocol.GetConsensusResult
      (ConsensusProtocol.run H pairNode
        [ConsensusOp.propose "r" "X" 1, ConsensusOp.incoming quorumVote 2,
          ConsensusOp.incoming earlyProposal 3]) "r" = none := by
  have hq : quorumThreshold 2 = 2 := by decide
  simp [pairNode, quorumVote, earlyProposal, NewConsensusProtocol, keysAdd,
    ConsensusProtocol.run, ConsensusProtocol.step, ConsensusProtocol.AddPeer,
    ConsensusProtocol.Propose, ConsensusProtocol.Vote, ConsensusProtocol.HandleIncomingMessage,
    ConsensusProtocol.handleVote, ConsensusProtocol.handleProposal,
    ConsensusProtocol.checkConsensus, ConsensusProtocol.GetConsensusResult,
    ConsensusProtocol.findMajority, ConsensusProtocol.countVotes, mapGet, mapSet, hq]

/-- C2 (counterexample). Node n0 with the single peer p1 proposes X in round r and
receives the vote of p1 for X: GetConsensusResult returns an achieved result. A
further Propose for the same id, and likewise an incoming proposal for r with an
earlier start time, replaces the round, after which GetConsensusResult returns
nil. The digest function is instantiated with stubDigest; the outcome is the same
for every digest function (achieved_round_replaced_for_any_digest). -/
theorem achieved_round_replaced_by_proposal :
    ConsensusProtocol.GetConsensusResult
      (ConsensusProtocol.run stubDigest pairNode
        [ConsensusOp.propose "r" "X" 1, ConsensusOp.incoming quorumVote 2]) "r" =
      some { Value := stubDigest "X", VoteCount := 2, TotalVotes := 2, Achieved := true } ∧
    ConsensusProtocol.GetConsensusResult
      (ConsensusProtocol.run stubDigest pairNode
        [ConsensusOp.propose "r" "X" 1, ConsensusOp.incoming quorumVote 2,
          ConsensusOp.propose "r" "X" 3]) "r" = none ∧
    ConsensusProtocol.GetConsensusResult
      (ConsensusProtocol.run stubDigest pairNode
        [ConsensusOp.propose "r" "X" 1, ConsensusOp.incoming quorumVote 2,
          ConsensusOp.incoming earlyProposal 3]) "r" = none := by
  decide

/-- C2 (amended). Once GetConsensusResult returns a result for a proposal id (in
particular an achieved one), it returns that same result after every further
sequence of Propose, Vote, incoming-proposal and incoming-vote calls in which no
Propose and no incoming proposal carries that proposal id. -/
theorem achieved_result_stable (H : String → String) (cp : ConsensusProtocol) (pid : String)
    (res : ConsensusResult) (ops : List ConsensusOp)
    (hres : ConsensusProtocol.GetConsensusResult cp pid = some res)
    (hops : ∀ op ∈ ops, ¬ op.proposes pid) :
    ConsensusProtocol.GetConsensusResult (ConsensusProtocol.run H cp ops) pid = some res := by
  induction ops generalizing cp with
  | nil => simpa [ConsensusProtocol.run] using hres
  | cons op rest ih =>
    have h1 := step_keeps_result H cp pid op res hres (hops op (List.mem_cons_self _ _))
    have h2 := ih (ConsensusProtocol.step H cp op) h1
      (fun o ho => hops o (List.mem_cons_of_mem _ ho))
    simpa [ConsensusProtocol.run] using h2

/-- C2 (witness). The achieved result of round r survives a further own vote in r, a
Propose for another id and a further incoming vote. -/
theorem achieved_result_stable_witness :
    ConsensusProtocol.GetConsensusResult
        (ConsensusProtocol.run stubDigest pairNode
          [ConsensusOp.propose "r" "X" 1, ConsensusOp.incoming quorumVote 2]) "r" =
        some { Value := stubDigest "X", VoteCount := 2, TotalVotes := 2, Achieved := true } ∧
      ConsensusProtocol.GetConsensusResult
        (ConsensusProtocol.run stubDigest
          (ConsensusProtocol.run stubDigest pairNode
            [ConsensusOp.propose "r" "X" 1, ConsensusOp.incoming quorumVote 2])
          [ConsensusOp.vote "r" "Z" 4, ConsensusOp.propose "q" "W" 5,
            ConsensusOp.incoming quorumVote 6]) "r" =
        some { Value := stubDigest "X", VoteCount := 2, TotalVotes := 2, Achieved := true } :=
  ⟨by decide,
    achieved_result_stable stubDigest _ "r" _
      [ConsensusOp.vote "r" "Z" 4, ConsensusOp.propose "q" "W" 5,
        ConsensusOp.incoming quorumVote 6]
      (by decide) (by simp [ConsensusOp.proposes, quorumVote])⟩

/-! ## Failover manager -/

theorem handlePeerFailure_none (fm : FailoverManager) (peer : Peer) (now : Int)
    (h : mapGet fm.failedPeers peer.ID = none) :
    fm.HandlePeerFailure peer now =
      ({ fm with
          failedPeers := mapSet fm.failedPeers peer.ID
            { Peer := peer, FailureTime := now, RetryCount := 1, LastRetry := now } },
        if (1 : Int) ≥ fm.maxRetries then [] else [peer.ID]) := by
  simp only [FailoverManager.HandlePeerFailure, h]
  split_ifs <;> simp_all

theorem handlePeerFailure_some (fm : FailoverManager) (peer : Peer) (now : Int)
    (info : FailedPeerInfo) (h : mapGet fm.failedPeers peer.ID = some info) :
    fm.HandlePeerFailure peer now =
      ({ fm with
          failedPeers := mapSet fm.failedPeers peer.ID
            { info with RetryCount := info.RetryCount + 1, LastRetry := now } },
        if info.RetryCount + 1 ≥ fm.maxRetries then [] else [peer.ID]) := by
  simp only [FailoverManager.HandlePeerFailure, h]
  split_ifs <;> simp_all

theorem failover_inv_step (s : FailoverSystem) (e : FailoverEvent)
    (hinv : s.Inv) (hfirst : s.firstFailure e) : (s.step e).Inv := by
  obtain ⟨hnd, hrec, hpend⟩ := hinv
  cases e with
  | healthCheckFailed peer now =>
    obtain ⟨hnone, hnp⟩ := hfirst
    simp only [FailoverSystem.step, handlePeerFailure_none s.fm peer now hnone]
    refine ⟨?_, ?_, ?_⟩
    · split_ifs
      · simpa using hnd
      · simp only []
        rw [List.nodup_append]
        refine ⟨hnd, List.nodup_singleton _, ?_⟩
        intro a ha hb
        simp at hb
        subst hb
        exact hnp ha
    · intro id info hget
      simp only [mapGet_mapSet] at hget
      split_ifs at hget with he
      · cases hget
        exact ⟨he, le_max_left _ _⟩
      · exact hrec id info hget
    · intro id hid
      simp only [mapGet_mapSet]
      split_ifs at hid with hm
      · have hid1 : id ∈ s.pending := by simpa using hid
        have hne : ¬ peer.ID = id := fun e => hnp (e ▸ hid1)
        simpa [hne] using hpend id hid1
      · simp only [List.mem_append, List.mem_singleton] at hid
        rcases hid with hid | hid
        · have hne : ¬ peer.ID = id := fun e => hnp (e ▸ hid)
          simpa [hne] using hpend id hid
        · subst hid
          simp only [if_true]
          exact ⟨_, rfl, by simp only []; omega⟩
  | retryFires peerID reconnectOk now =>
    simp only [FailoverSystem.step]
    split_ifs with hmem
    · obtain ⟨info, hget, hlt⟩ := hpend peerID hmem
      obtain ⟨hid, _⟩ := hrec peerID info hget
      have herase : ∀ a, a ∈ s.pending.erase peerID ↔ a ≠ peerID ∧ a ∈ s.pending :=
        fun a => hnd.mem_erase_iff
      cases reconnectOk with
      | true =>
        simp only [FailoverManager.scheduleRetry, hget, if_true, List.append_nil]
        refine ⟨hnd.erase _, ?_, ?_⟩
        · intro id i hg
          simp only [mapGet_mapDelete] at hg
          split_ifs at hg with he
          exact hrec id i hg
        · intro id hin
          obtain ⟨hne, hin1⟩ := (herase id).1 hin
          have hne1 : ¬ peerID = id := fun e => hne e.symm
          simpa [mapGet_mapDelete, hne1] using hpend id hin1
      | false =>
        have hget1 : mapGet s.fm.failedPeers info.Peer.ID = some info := by rw [hid]; exact hget
        simp only [FailoverManager.scheduleRetry, hget, Bool.false_eq_true, if_false,
          handlePeerFailure_some s.fm info.Peer now info hget1, hid]
        refine ⟨?_, ?_, ?_⟩
        · split_ifs
          · simpa using hnd.erase _
          · simp only []
            rw [List.nodup_append]
            refine ⟨hnd.erase _, List.nodup_singleton _, ?_⟩
            intro a ha hb
            simp at hb
            subst hb
            exact ((herase a).1 ha).1 rfl
        · intro id i hg
          simp only [mapGet_mapSet] at hg
          split_ifs at hg with he
          · cases hg
            refine ⟨by simpa [he] using hid, ?_⟩
            simp only []
            have := le_max_right 1 s.fm.maxRetries
            omega
          · exact hrec id i hg
        · intro id hin
          simp only [mapGet_mapSet]
          split_ifs at hin with hm
          · have hin0 : id ∈ s.pending.erase peerID := by simpa using hin
            obtain ⟨hne, hin1⟩ := (herase id).1 hin0
            have hne1 : ¬ peerID = id := fun e => hne e.symm
            simpa [hne1] using hpend id hin1
          · simp only [List.mem_append, List.mem_singleton] at hin
            rcases hin with hin | hin
            · obtain ⟨hne, hin1⟩ := (herase id).1 hin
              have hne1 : ¬ peerID = id := fun e => hne e.symm
              simpa [hne1] using hpend id hin1
            · subst hin
              simp only [if_true]
              exact ⟨_, rfl, by simp only []; omega⟩
    · exact ⟨hnd, hrec, hpend⟩

theorem handlePeerFailure_maxRetries (fm : FailoverManager) (peer : Peer) (now : Int) :
    (fm.HandlePeerFailure peer now).1.maxRetries = fm.maxRetries := by
  simp only [FailoverManager.HandlePeerFailure]
  split_ifs <;> rfl

theorem scheduleRetry_maxRetries (fm : FailoverManager) (peerID : String) (ok : Bool)
    (now : Int) : (fm.scheduleRetry peerID ok now).1.maxRetries = fm.maxRetries := by
  unfold FailoverManager.scheduleRetry
  cases h : mapGet fm.failedPeers peerID with
  | none => rfl
  | some info =>
    cases ok with
    | true => rfl
    | false => exact handlePeerFailure_maxRetries fm info.Peer now

theorem failover_maxRetries_step (s : FailoverSystem) (e : FailoverEvent) :
    (s.step e).fm.maxRetries = s.fm.maxRetries := by
  cases e with
  | healthCheckFailed peer now => exact handlePeerFailure_maxRetries s.fm peer now
  | retryFires peerID reconnectOk now =>
    simp only [FailoverSystem.step]
    split_ifs
    · exact scheduleRetry_maxRetries s.fm peerID reconnectOk now
    · rfl

theorem failover_inv_run (s : FailoverSystem) (events : List FailoverEvent)
    (hinv : s.Inv) (hch : s.Chained events) :
    (s.run events).Inv ∧ (s.run events).fm.maxRetries = s.fm.maxRetries := by
  induction events generalizing s with
  | nil => exact ⟨by simpa [FailoverSystem.run] using hinv, rfl⟩
  | cons e es ih =>
    obtain ⟨hf, hrest⟩ := hch
    have h1 := ih (s.step e) (failover_inv_step s e hinv hf) hrest
    rw [failover_maxRetries_step] at h1
    simpa [FailoverSystem.run] using h1

/-- C3 (counterexample). With the default maxRetries = 5, health checks of peer p
that fail every 30 s, together with the failing retries they schedule, drive the
retry count of p to 7, above maxRetries + 1 = 6. -/
theorem retry_count_exceeds_bound :
    (FailoverSystem.run FailoverSystem.init flakyTrace).fm.maxRetries = 5 ∧
    mapGet (FailoverSystem.run FailoverSystem.init flakyTrace).fm.failedPeers "p" =
      some flakyRecord ∧
    flakyRecord.RetryCount = 7 ∧
    ¬ (flakyRecord.RetryCount ≤
      (FailoverSystem.run FailoverSystem.init flakyTrace).fm.maxRetries + 1) := by
  decide

/-- C3 (amended). Start from a manager without failed-peer records and without
retries asleep, with maxRetries at least 0. In every state reached through
sequences in which a health check calls HandlePeerFailure only for a peer that has
no failed-peer record and no retry asleep, all other calls coming from the failed
reconnects of scheduled retries, every failed-peer record satisfies
RetryCount <= maxRetries + 1. -/
theorem retry_count_bounded_on_chains (s0 : FailoverSystem) (events : List FailoverEvent)
    (hrec : s0.fm.failedPeers = []) (hpend : s0.pending = []) (hmax : 0 ≤ s0.fm.maxRetries)
    (hch : s0.Chained events) (id : String) (info : FailedPeerInfo)
    (hget : mapGet (s0.run events).fm.failedPeers id = some info) :
    info.RetryCount ≤ s0.fm.maxRetries + 1 := by
  have hinv0 : s0.Inv := by
    refine ⟨by simp [hpend], ?_, ?_⟩
    · intro a i h
      simp [hrec, mapGet] at h
    · intro a h
      simp [hpend] at h
  obtain ⟨⟨_, hr, _⟩, hm⟩ := failover_inv_run s0 events hinv0 hch
  have h1 := (hr id info hget).2
  rw [hm] at h1
  have h2 : max 1 s0.fm.maxRetries ≤ s0.fm.maxRetries + 1 := max_le (by omega) (by omega)
  exact le_trans h1 h2

/-- C3 (witness). One failed health check of p followed by failing retries only: the
count stops at 5. -/
theorem retry_count_bounded_on_chains_witness :
    FailoverSystem.init.Chained chainTrace ∧
    mapGet (FailoverSystem.init.run chainTrace).fm.failedPeers "p" = some chainRecord ∧
    chainRecord.RetryCount ≤ FailoverSystem.init.fm.maxRetries + 1 :=
  ⟨by decide, by decide,
    retry_count_bounded_on_chains FailoverSystem.init chainTrace rfl rfl (by decide) (by decide)
      "p" chainRecord (by decide)⟩

/-! ## Flooding protocol -/

theorem floodMessage_duplicate (fp : FloodingProtocol) (message : Message) (hops : Int)
    (visited : List String) (now t : Int)
    (hacc : mapGet fp.messageCache message.ID = some t) (hnow : now ≤ t + fp.ttl) :
    fp.floodMessage message hops visited now = (fp, []) := by
  unfold FloodingProtocol.floodMessage
  split_ifs with h1
  · rfl
  · have h2 : ¬ (now - t > fp.ttl) := by omega
    simp [hacc, h2]

theorem floodMessage_accepted_records (fp : FloodingProtocol) (message : Message) (hops : Int)
    (visited : List String) (now : Int) (hh : hops < fp.maxHops)
    (hfresh : ∀ ts, mapGet fp.messageCache message.ID = some ts → now - ts > fp.ttl) :
    mapGet (fp.floodMessage message hops visited now).1.messageCache message.ID = some now := by
  unfold FloodingProtocol.floodMessage
  have h1 : ¬ hops ≥ fp.maxHops := by omega
  cases hc : mapGet fp.messageCache message.ID with
  | none => simp [h1, FloodingProtocol.floodSend, mapGet_mapSet]
  | some ts =>
    have h2 := hfresh ts hc
    simp [h1, h2, FloodingProtocol.floodSend, mapGet_mapSet]

theorem floodMessage_keeps_entry (fp : FloodingProtocol) (message : Message) (hops : Int)
    (visited : List String) (now t : Int) (id : String)
    (hacc : mapGet fp.messageCache id = some t) (hnow : now ≤ t + fp.ttl) :
    mapGet (fp.floodMessage message hops visited now).1.messageCache id = some t ∧
    (fp.floodMessage message hops visited now).1.ttl = fp.ttl := by
  by_cases hid : message.ID = id
  · rw [floodMessage_duplicate fp message hops visited now t (by rw [hid]; exact hacc) hnow]
    exact ⟨hacc, rfl⟩
  · unfold FloodingProtocol.floodMessage
    split_ifs with h1
    · exact ⟨hacc, rfl⟩
    · cases hc : mapGet fp.messageCache message.ID with
      | none =>
        simp only [FloodingProtocol.floodSend, mapGet_mapSet, hid, if_false, and_true]
        exact hacc
      | some ts =>
        simp only []
        split_ifs with h2
        · simp only [FloodingProtocol.floodSend, mapGet_mapSet, mapGet_mapDelete, hid, if_false,
            and_true]
          exact hacc
        · exact ⟨hacc, rfl⟩

theorem flood_step_keeps_entry (fp : FloodingProtocol) (op : FloodOp) (t : Int) (id : String)
    (hacc : mapGet fp.messageCache id = some t) (hnow : op.time ≤ t + fp.ttl) :
    mapGet (fp.step op).1.messageCache id = some t ∧ (fp.step op).1.ttl = fp.ttl := by
  cases op with
  | receive message now =>
    simp only [FloodingProtocol.step, FloodingProtocol.HandleIncomingMessage]
    split_ifs
    · exact ⟨hacc, rfl⟩
    · exact floodMessage_keeps_entry fp message _ _ now t id hacc hnow
  | broadcast message now =>
    exact floodMessage_keeps_entry fp message _ _ now t id hacc hnow
  | cleanup now =>
    simp only [FloodingProtocol.step, FloodingProtocol.Cleanup, and_true]
    refine mapGet_filter _ _ id t hacc ?_
    have h2 : ¬ (now - t > fp.ttl) := by
      simp only [FloodOp.time] at hnow
      omega
    simp [h2]
  | addPeer peerID now => exact ⟨hacc, rfl⟩
  | removePeer peerID now => exact ⟨hacc, rfl⟩

theorem flood_run_keeps_entry (fp : FloodingProtocol) (ops : List FloodOp) (t : Int)
    (id : String) (hacc : mapGet fp.messageCache id = some t)
    (hwin : ∀ o ∈ ops, o.time ≤ t + fp.ttl) :
    mapGet (fp.run ops).messageCache id = some t ∧ (fp.run ops).ttl = fp.ttl := by
  induction ops generalizing fp with
  | nil => exact ⟨hacc, rfl⟩
  | cons o rest ih =>
    obtain ⟨h1, h2⟩ := flood_step_keeps_entry fp o t id hacc (hwin o (List.mem_cons_self _ _))
    have h3 := ih (fp.step o).1 h1 (fun x hx => by
      rw [h2]
      exact hwin x (List.mem_cons_of_mem _ hx))
    rw [h2] at h3
    simpa [FloodingProtocol.run] using h3

/-- C4. Let the dedup cache of a node hold message id id with time stamp t, as it
does after a delivery of id was accepted at time t. Then, after any further calls
(receive, broadcast, cleanup, peer changes) at times up to t + ttl, a delivery of
the same id through HandleIncomingMessage or Broadcast at a time t1 with
t1 <= t + ttl sends no copy to any peer and leaves the node (in particular its
dedup cache) unchanged. -/
theorem dedup_suppresses_within_window (fp : FloodingProtocol) (id : String) (t : Int)
    (pre : List FloodOp) (op : FloodOp)
    (hacc : mapGet fp.messageCache id = some t)
    (hpre : ∀ o ∈ pre, t ≤ o.time ∧ o.time ≤ t + fp.ttl)
    (hop : t ≤ op.time ∧ op.time ≤ t + fp.ttl)
    (hdel : op.delivers id) :
    ((fp.run pre).step op).2 = [] ∧
    ((fp.run pre).step op).1 = fp.run pre ∧
    mapGet ((fp.run pre).step op).1.messageCache id = some t := by
  obtain ⟨h1, h2⟩ := flood_run_keeps_entry fp pre t id hacc (fun o ho => (hpre o ho).2)
  have hnow : op.time ≤ t + (fp.run pre).ttl := by rw [h2]; exact hop.2
  cases op with
  | receive message now =>
    simp only [FloodOp.delivers] at hdel
    subst hdel
    simp only [FloodingProtocol.step, FloodingProtocol.HandleIncomingMessage]
    split_ifs
    · exact ⟨rfl, rfl, h1⟩
    · rw [floodMessage_duplicate _ message _ _ now t h1 hnow]
      exact ⟨rfl, rfl, h1⟩
  | broadcast message now =>
    simp only [FloodOp.delivers] at hdel
    subst hdel
    simp only [FloodingProtocol.step, FloodingProtocol.Broadcast]
    rw [floodMessage_duplicate _ message _ _ now t h1 hnow]
    exact ⟨rfl, rfl, h1⟩
  | cleanup now => exact absurd hdel (by simp [FloodOp.delivers])
  | addPeer peerID now => exact absurd hdel (by simp [FloodOp.delivers])
  | removePeer peerID now => exact absurd hdel (by simp [FloodOp.delivers])

/-- C4 (witness). Node A accepted m1 at time 100; after a delivery of m2 and a cleanup,
m1 arrives again at time 110 = 100 + ttl and is suppressed. -/
theorem dedup_suppresses_within_window_witness :
    mapGet floodNodeSeen.messageCache "m1" = some 100 ∧
    ((floodNodeSeen.run [FloodOp.receive otherMsg 103, FloodOp.cleanup 105]).step
      (FloodOp.receive floodMsg 110)).2 = [] ∧
    ((floodNodeSeen.run [FloodOp.receive otherMsg 103, FloodOp.cleanup 105]).step
      (FloodOp.receive floodMsg 110)).1 =
      floodNodeSeen.run [FloodOp.receive otherMsg 103, FloodOp.cleanup 105] ∧
    mapGet ((floodNodeSeen.run [FloodOp.receive otherMsg 103, FloodOp.cleanup 105]).step
      (FloodOp.receive floodMsg 110)).1.messageCache "m1" = some 100 :=
  ⟨by decide,
    dedup_suppresses_within_window floodNodeSeen "m1" 100
      [FloodOp.receive otherMsg 103, FloodOp.cleanup 105] (FloodOp.receive floodMsg 110)
      (by decide) (by decide) (by decide) rfl⟩

/-- C5 (evaluation of the code at the failing input). The message expiredMsg has
TTL 0. Received through HandleIncomingMessage it is dropped, yet locally broadcast
through Broadcast it is forwarded: node A sends a copy with TTL -1 to each of its
peers B, C and D. -/
theorem broadcast_forwards_expired_message :
    expiredMsg.TTL ≤ 0 ∧
    (floodNode.HandleIncomingMessage expiredMsg 100).2 = [] ∧
    (floodNode.Broadcast expiredMsg 100).2 =
      [("B", { expiredMsg with Hops := 1, TTL := -1, Path := [] }),
       ("C", { expiredMsg with Hops := 1, TTL := -1, Path := [] }),
       ("D", { expiredMsg with Hops := 1, TTL := -1, Path := [] })] := by
  decide

theorem wrapInt64_of_inInt64 (x : Int) (h : inInt64 x) : wrapInt64 x = x := by
  unfold inInt64 at h
  unfold wrapInt64
  omega

theorem floodMessage_emissions (fp : FloodingProtocol) (message : Message) (hops : Int)
    (visited : List String) (now : Int) (e : Emission)
    (he : e ∈ (fp.floodMessage message hops visited now).2) :
    hops < fp.maxHops ∧ e.2 = FloodingProtocol.floodedMessage message hops ∧
      e.1 ∈ fp.peers ∧ e.1 ≠ fp.nodeID ∧ e.1 ∉ visited := by
  unfold FloodingProtocol.floodMessage at he
  have hsend : ∀ cache, e ∈ (fp.floodSend cache message hops visited now).2 →
      e.2 = FloodingProtocol.floodedMessage message hops ∧
        e.1 ∈ fp.peers ∧ e.1 ≠ fp.nodeID ∧ e.1 ∉ visited := by
    intro cache hc
    simp only [FloodingProtocol.floodSend, List.mem_map, List.mem_filter] at hc
    obtain ⟨p, ⟨hp, hv⟩, rfl⟩ := hc
    simp only [List.mem_cons, not_or, decide_eq_true_eq] at hv
    exact ⟨rfl, hp, hv.1, hv.2⟩
  split_ifs at he with h1
  · simp at he
  · refine ⟨by omega, ?_⟩
    cases hc : mapGet fp.messageCache message.ID with
    | none =>
      rw [hc] at he
      exact hsend _ he
    | some ts =>
      rw [hc] at he
      simp only [] at he
      split_ifs at he with h2
      · exact hsend _ he
      · simp at he

/-- C6 (counterexample). Message m1 has hop count 1; every copy that Broadcast
sends for it has hop count 1 again, which is not strictly above. -/
theorem broadcast_copy_hops_not_above :
    floodMsg.Hops = 1 ∧
    (floodNode.Broadcast floodMsg 100).2 ≠ [] ∧
    ∀ e ∈ (floodNode.Broadcast floodMsg 100).2, e.2.Hops = 1 ∧ ¬ (e.2.Hops > floodMsg.Hops) := by
  decide

/-- C6 (amended). For a message m whose TTL and hop count are Go ints and a node
whose maxHops is a Go int: every copy sent while handling a received m
(HandleIncomingMessage) has TTL = m.TTL - 1, strictly below m.TTL, and hop count
m.Hops + 1, strictly above m.Hops. Every copy sent for a locally broadcast m
(Broadcast) has hop count 1, whatever m.Hops is, and TTL = m.TTL - 1, strictly
below m.TTL, provided m.TTL is not the least int. -/
theorem forward_ttl_and_hops (fp : FloodingProtocol) (m : Message) (now : Int)
    (httl : inInt64 m.TTL) (hhops : inInt64 m.Hops) (hmax : inInt64 fp.maxHops) :
    (∀ e ∈ (fp.HandleIncomingMessage m now).2,
      e.2.TTL = m.TTL - 1 ∧ e.2.TTL < m.TTL ∧ e.2.Hops = m.Hops + 1 ∧ e.2.Hops > m.Hops) ∧
    (∀ e ∈ (fp.Broadcast m now).2,
      e.2.Hops = 1 ∧ (-(2 ^ 63) < m.TTL → e.2.TTL = m.TTL - 1 ∧ e.2.TTL < m.TTL)) := by
  unfold inInt64 at httl hhops hmax
  constructor
  · intro e he
    unfold FloodingProtocol.HandleIncomingMessage at he
    split_ifs at he with h0
    · simp at he
    · obtain ⟨hlt, hcopy, _⟩ := floodMessage_emissions fp m m.Hops [] now e he
      have h1 : wrapInt64 (m.TTL - 1) = m.TTL - 1 :=
        wrapInt64_of_inInt64 _ (by unfold inInt64; omega)
      have h2 : wrapInt64 (m.Hops + 1) = m.Hops + 1 :=
        wrapInt64_of_inInt64 _ (by unfold inInt64; omega)
      rw [hcopy]
      simp only [FloodingProtocol.floodedMessage]
      rw [h1, h2]
      refine ⟨rfl, by omega, rfl, by omega⟩
  · intro e he
    obtain ⟨_, hcopy, _⟩ := floodMessage_emissions fp m 0 [] now e he
    rw [hcopy]
    refine ⟨by simp [FloodingProtocol.floodedMessage, wrapInt64], ?_⟩
    intro hmin
    have h1 : wrapInt64 (m.TTL - 1) = m.TTL - 1 :=
      wrapInt64_of_inInt64 _ (by unfold inInt64; omega)
    simp only [FloodingProtocol.floodedMessage]
    rw [h1]
    exact ⟨rfl, by omega⟩

/-- C6 (witness). The copies of m1 sent by node A. -/
theorem forward_ttl_and_hops_witness :
    (inInt64 floodMsg.TTL ∧ inInt64 floodMsg.Hops ∧ inInt64 floodNode.maxHops) ∧
    (floodNode.HandleIncomingMessage floodMsg 100).2 ≠ [] ∧
    (∀ e ∈ (floodNode.HandleIncomingMessage floodMsg 100).2,
      e.2.TTL = floodMsg.TTL - 1 ∧ e.2.TTL < floodMsg.TTL ∧ e.2.Hops = floodMsg.Hops + 1 ∧
        e.2.Hops > floodMsg.Hops) ∧
    (∀ e ∈ (floodNode.Broadcast floodMsg 100).2,
      e.2.Hops = 1 ∧
        (-(2 ^ 63) < floodMsg.TTL → e.2.TTL = floodMsg.TTL - 1 ∧ e.2.TTL < floodMsg.TTL)) :=
  ⟨by decide, by decide,
    forward_ttl_and_hops floodNode floodMsg 100 (by decide) (by decide) (by decide)⟩

/-- C7 (counterexample). Node A receives m1, which B originated and sent (B is the
sender and is on the forwarding path of m1). A sends copies to B, C and D, so also
back to B, and the copies carry an empty path instead of the path of m1 extended
with A. -/
theorem forward_returns_to_sender :
    floodMsg.From = "B" ∧ floodMsg.Path = ["B"] ∧
    (floodNode.HandleIncomingMessage floodMsg 100).2.map Prod.fst = ["B", "C", "D"] ∧
    ∀ e ∈ (floodNode.HandleIncomingMessage floodMsg 100).2,
      e.2.Path = [] ∧ e.2.Path ≠ floodMsg.Path ++ [floodNode.nodeID] := by
  decide

/-- C7 (amended). When a node forwards a message m (hop count below maxHops, id not
in the dedup cache or recorded more than ttl ago; for a received message also
TTL above 0), it sends one copy to exactly those peers whose key differs from the
own node id, in iteration order, the sender of m and the peers on the path of m
included; each copy has hop count plus one, TTL minus one and an empty path. -/
theorem forward_targets_all_other_peers (fp : FloodingProtocol) (m : Message) (now : Int)
    (hfresh : ∀ ts, mapGet fp.messageCache m.ID = some ts → now - ts > fp.ttl) :
    (0 < m.TTL → m.Hops < fp.maxHops →
      (fp.HandleIncomingMessage m now).2 =
        (fp.peers.filter (fun p => p ≠ fp.nodeID)).map
          (fun p => (p, FloodingProtocol.floodedMessage m m.Hops))) ∧
    (0 < fp.maxHops →
      (fp.Broadcast m now).2 =
        (fp.peers.filter (fun p => p ≠ fp.nodeID)).map
          (fun p => (p, FloodingProtocol.floodedMessage m 0))) ∧
    (∀ hops, (FloodingProtocol.floodedMessage m hops).Path = [] ∧
      (FloodingProtocol.floodedMessage m hops).Hops = wrapInt64 (hops + 1) ∧
      (FloodingProtocol.floodedMessage m hops).TTL = wrapInt64 (m.TTL - 1)) := by
  have hflood : ∀ hops, hops < fp.maxHops →
      (fp.floodMessage m hops [] now).2 =
        (fp.peers.filter (fun p => p ≠ fp.nodeID)).map
          (fun p => (p, FloodingProtocol.floodedMessage m hops)) := by
    intro hops hh
    unfold FloodingProtocol.floodMessage
    have h1 : ¬ hops ≥ fp.maxHops := by omega
    cases hc : mapGet fp.messageCache m.ID with
    | none => simp [h1, FloodingProtocol.floodSend]
    | some ts =>
      have h2 := hfresh ts hc
      simp [h1, h2, FloodingProtocol.floodSend]
  refine ⟨?_, ?_, fun hops => ⟨rfl, rfl, rfl⟩⟩
  · intro httl hh
    have h0 : ¬ m.TTL ≤ 0 := by omega
    simp only [FloodingProtocol.HandleIncomingMessage, h0, if_false]
    exact hflood m.Hops hh
  · intro hh
    exact hflood 0 hh

/-- C7 (witness). Node A forwards m1 to B, C and D. -/
theorem forward_targets_all_other_peers_witness :
    (0 < floodMsg.TTL ∧ floodMsg.Hops < floodNode.maxHops ∧ 0 < floodNode.maxHops) ∧
    (floodNode.HandleIncomingMessage floodMsg 100).2 =
      (floodNode.peers.filter (fun p => p ≠ floodNode.nodeID)).map
        (fun p => (p, FloodingProtocol.floodedMessage floodMsg floodMsg.Hops)) ∧
    (floodNode.Broadcast floodMsg 100).2 =
      (floodNode.peers.filter (fun p => p ≠ floodNode.nodeID)).map
        (fun p => (p, FloodingProtocol.floodedMessage floodMsg 0)) :=
  ⟨by decide,
    (forward_targets_all_other_peers floodNode floodMsg 100
      (fun ts h => by simp [floodNode, mapGet] at h)).1 (by decide) (by decide),
    (forward_targets_all_other_peers floodNode floodMsg 100
      (fun ts h => by simp [floodNode, mapGet] at h)).2.1 (by decide)⟩

/-! ## Load balancer -/

theorem getElem?_mod_mem {α : Type} (l : List α) (hne : l ≠ []) (k : Nat) :
    ∃ p, p ∈ l ∧ l[k % l.length]? = some p := by
  have hpos : 0 < l.length := List.length_pos.2 hne
  have hlt : k % l.length < l.length := Nat.mod_lt _ hpos
  exact ⟨l[k % l.length], List.getElem_mem hlt, List.getElem?_eq_getElem hlt⟩

theorem leastFold_mem (rest : List Peer) (p : Peer) :
    rest.foldl (fun minPeer q =>
      if q.ConnectionCount < minPeer.ConnectionCount then q else minPeer) p ∈ p :: rest := by
  induction rest generalizing p with
  | nil => simp
  | cons q rest ih =>
    simp only [List.foldl_cons]
    have h := ih (if q.ConnectionCount < p.ConnectionCount then q else p)
    split_ifs at h ⊢ with hq
    · exact List.mem_cons_of_mem _ h
    · rcases List.mem_cons.1 h with h1 | h1
      · rw [h1]
        exact List.mem_cons_self _ _
      · exact List.mem_cons_of_mem _ (List.mem_cons_of_mem _ h1)

theorem weightedPick_mem (l : List Peer) (c r : Nat) (p : Peer)
    (h : LoadBalancer.weightedPick l c r = some p) : p ∈ l := by
  induction l generalizing c with
  | nil => simp [LoadBalancer.weightedPick] at h
  | cons q rest ih =>
    simp only [LoadBalancer.weightedPick] at h
    split_ifs at h with hq
    · cases h
      exact List.mem_cons_self _ _
    · exact List.mem_cons_of_mem _ (ih _ h)

theorem applyStrategy_mem (strategy : LoadBalanceStrategy) (l : List Peer) (hne : l ≠ [])
    (nanos rnd : Nat) :
    ∃ p, p ∈ l ∧ LoadBalancer.applyStrategy strategy l nanos rnd = some p := by
  have hrr : ∃ p, p ∈ l ∧ LoadBalancer.selectRoundRobin l nanos = some p :=
    getElem?_mod_mem l hne nanos
  have hrand : ∃ p, p ∈ l ∧ LoadBalancer.selectRandom l rnd = some p :=
    getElem?_mod_mem l hne rnd
  unfold LoadBalancer.applyStrategy
  split_ifs
  · exact hrr
  · exact hrand
  · cases l with
    | nil => exact absurd rfl hne
    | cons q rest => exact ⟨_, leastFold_mem rest q, rfl⟩
  · unfold LoadBalancer.selectWeightedRandom
    simp only []
    split_ifs
    · exact hrand
    · cases hw : LoadBalancer.weightedPick l 0
          (rnd % (l.map (fun p => p.Weight)).sum) with
      | some p => exact ⟨p, weightedPick_mem _ _ _ _ hw, rfl⟩
      | none =>
        cases hl : l.getLast? with
        | none => exact absurd (List.getLast?_eq_none_iff.1 hl) hne
        | some p => exact ⟨p, List.mem_of_getLast?_eq_some hl, rfl⟩
  · exact hrr

theorem mem_mapSet {β : Type} (m : List (String × β)) (k : String) (v : β) (kv : String × β)
    (h : kv ∈ mapSet m k v) : kv = (k, v) ∨ kv ∈ m := by
  induction m with
  | nil =>
    simp only [mapSet, List.mem_singleton] at h
    exact Or.inl h
  | cons a m ih =>
    obtain ⟨a1, a2⟩ := a
    simp only [mapSet] at h
    split_ifs at h with hk
    · rcases List.mem_cons.1 h with h1 | h1
      · exact Or.inl h1
      · exact Or.inr (List.mem_cons_of_mem _ h1)
    · rcases List.mem_cons.1 h with h1 | h1
      · exact Or.inr (h1 ▸ List.mem_cons_self _ _)
      · rcases ih h1 with h2 | h2
        · exact Or.inl h2
        · exact Or.inr (List.mem_cons_of_mem _ h2)

theorem mem_mapDelete {β : Type} (m : List (String × β)) (k : String) (kv : String × β)
    (h : kv ∈ mapDelete m k) : kv ∈ m ∧ kv.1 ≠ k := by
  induction m with
  | nil => simp [mapDelete] at h
  | cons a m ih =>
    obtain ⟨a1, a2⟩ := a
    simp only [mapDelete] at h
    split_ifs at h with hk
    · exact ⟨List.mem_cons_of_mem _ (ih h).1, (ih h).2⟩
    · rcases List.mem_cons.1 h with h1 | h1
      · subst h1
        exact ⟨List.mem_cons_self _ _, hk⟩
      · exact ⟨List.mem_cons_of_mem _ (ih h1).1, (ih h1).2⟩

theorem eraseP_id_ne (l : List Peer) (id : String)
    (hnd : (l.map (fun p => p.ID)).Nodup) (p : Peer)
    (hp : p ∈ l.eraseP (fun q => q.ID = id)) : p.ID ≠ id := by
  induction l with
  | nil => simp at hp
  | cons q rest ih =>
    simp only [List.map_cons, List.nodup_cons, List.mem_map, not_exists, not_and] at hnd
    by_cases hq : q.ID = id
    · simp only [List.eraseP_cons, hq, decide_True, cond_true] at hp
      intro hpid
      exact hnd.1 p hp (hpid.trans hq.symm)
    · simp only [List.eraseP_cons, hq, decide_False, cond_false] at hp
      rcases List.mem_cons.1 hp with h1 | h1
      · rw [h1]
        exact hq
      · exact ih hnd.2 h1

theorem wf_new : NewLoadBalancer.WF := by
  simp [LoadBalancer.WF, NewLoadBalancer]

theorem wf_setStrategy (lb : LoadBalancer) (strategy : LoadBalanceStrategy) (hwf : lb.WF) :
    (lb.SetStrategy strategy).WF :=
  hwf

theorem wf_addPeer (lb : LoadBalancer) (peer : Peer) (hwf : lb.WF) : (lb.AddPeer peer).WF := by
  obtain ⟨h1, h2, h3⟩ := hwf
  unfold LoadBalancer.AddPeer
  cases hget : mapGet lb.peers peer.ID with
  | some q => exact ⟨h1, h2, h3⟩
  | none =>
    have hfresh : ∀ p ∈ lb.peerList, ¬ peer.ID = p.ID := by
      intro p hp he
      have := h1 p hp
      rw [← he, hget] at this
      cases this
    refine ⟨?_, ?_, ?_⟩
    · intro p hp
      simp only [List.mem_append, List.mem_singleton] at hp
      rcases hp with hp | hp
      · simp only [mapGet_mapSet, hfresh p hp, if_false]
        exact h1 p hp
      · subst hp
        exact mapGet_mapSet_self _ _ _
    · intro kv hkv
      rcases mem_mapSet _ _ _ _ hkv with hk | hk
      · subst hk
        exact ⟨by simp, rfl⟩
      · exact ⟨List.mem_append_left _ (h2 kv hk).1, (h2 kv hk).2⟩
    · simp only [List.map_append, List.map_cons, List.map_nil]
      rw [List.nodup_append]
      refine ⟨h3, List.nodup_singleton _, ?_⟩
      intro a ha hb
      simp only [List.mem_singleton] at hb
      subst hb
      obtain ⟨p, hp, hpid⟩ := List.mem_map.1 ha
      exact hfresh p hp hpid.symm

theorem wf_removePeer (lb : LoadBalancer) (peerID : String) (hwf : lb.WF) :
    (lb.RemovePeer peerID).WF := by
  obtain ⟨h1, h2, h3⟩ := hwf
  unfold LoadBalancer.RemovePeer
  cases hget : mapGet lb.peers peerID with
  | none => exact ⟨h1, h2, h3⟩
  | some q =>
    refine ⟨?_, ?_, ?_⟩
    · intro p hp
      have hne : p.ID ≠ peerID := eraseP_id_ne lb.peerList peerID h3 p hp
      have hne1 : ¬ peerID = p.ID := fun e => hne e.symm
      simp only [mapGet_mapDelete, hne1, if_false]
      exact h1 p (List.mem_of_mem_eraseP hp)
    · intro kv hkv
      obtain ⟨hmem, hne⟩ := mem_mapDelete _ _ _ hkv
      obtain ⟨hin, hid⟩ := h2 kv hmem
      refine ⟨?_, hid⟩
      have hneg : ¬ (decide (kv.2.ID = peerID) = true) := by
        simp only [decide_eq_true_eq, hid]
        exact hne
      have hiff : kv.2 ∈ lb.peerList.eraseP (fun q => decide (q.ID = peerID)) ↔
          kv.2 ∈ lb.peerList := List.mem_eraseP_of_neg hneg
      exact hiff.2 hin
    · exact h3.sublist ((List.eraseP_sublist lb.peerList).map _)

theorem selectByStrategy_none (lb : LoadBalancer) (nanos rnd : Nat) :
    lb.selectByStrategy nanos rnd = none ↔ ∀ p ∈ lb.peerList, p.Healthy = false := by
  unfold LoadBalancer.selectByStrategy
  have hiff : lb.healthyPeers = [] ↔ ∀ p ∈ lb.peerList, p.Healthy = false := by
    simp [LoadBalancer.healthyPeers, List.filter_eq_nil_iff]
  split_ifs with h
  · simp only [true_iff]
    exact hiff.1 (List.length_eq_zero.1 h)
  · have hne : lb.healthyPeers ≠ [] := fun e => h (by simp [e])
    obtain ⟨p, _, hp⟩ := applyStrategy_mem lb.strategy lb.healthyPeers hne nanos rnd
    rw [hp]
    constructor
    · intro hc
      cases hc
    · exact fun hall => absurd (hiff.2 hall) hne

theorem selectByStrategy_some (lb : LoadBalancer) (nanos rnd : Nat) (p : Peer)
    (h : lb.selectByStrategy nanos rnd = some p) : p ∈ lb.peerList ∧ p.Healthy = true := by
  unfold LoadBalancer.selectByStrategy at h
  split_ifs at h with h0
  have hne : lb.healthyPeers ≠ [] := fun e => h0 (by simp [e])
  obtain ⟨q, hq, hs⟩ := applyStrategy_mem lb.strategy lb.healthyPeers hne nanos rnd
  rw [hs] at h
  cases h
  simpa [LoadBalancer.healthyPeers] using hq

theorem selectPeer_of_noUsableHint (lb : LoadBalancer) (targetID : String) (nanos rnd : Nat)
    (h : lb.noUsableHint targetID) :
    lb.SelectPeer targetID nanos rnd = lb.selectByStrategy nanos rnd := by
  unfold LoadBalancer.SelectPeer
  split_ifs with h0 h1
  · have hnil : lb.peerList = [] := List.length_eq_zero.1 h0
    simp [LoadBalancer.selectByStrategy, LoadBalancer.healthyPeers, hnil]
  · rcases h with h | h | h | ⟨p, hp, hh⟩
    · exact absurd h h1.1
    · exact absurd h h1.2
    · simp [h]
    · simp [hp, hh]
  · rfl

/-- C8. In every load balancer whose map and list hold the same peers (as in
every state built by AddPeer and RemovePeer), for every strategy, target hint,
clock reading and random draw: SelectPeer returns nil if and only if no registered
peer is healthy, and a peer it returns is in the list, is the map entry under its
id, and is healthy. -/
theorem selectPeer_none_iff_no_healthy (lb : LoadBalancer) (hwf : lb.WF) (targetID : String)
    (nanos rnd : Nat) :
    (lb.SelectPeer targetID nanos rnd = none ↔ ∀ p ∈ lb.peerList, p.Healthy = false) ∧
    (∀ p, lb.SelectPeer targetID nanos rnd = some p →
      p ∈ lb.peerList ∧ mapGet lb.peers p.ID = some p ∧ p.Healthy = true) := by
  have hsome : ∀ p, lb.selectByStrategy nanos rnd = some p →
      p ∈ lb.peerList ∧ mapGet lb.peers p.ID = some p ∧ p.Healthy = true := by
    intro p hp
    obtain ⟨h1, h2⟩ := selectByStrategy_some lb nanos rnd p hp
    exact ⟨h1, hwf.1 p h1, h2⟩
  unfold LoadBalancer.SelectPeer
  split_ifs with h0 h1
  · have hnil : lb.peerList = [] := List.length_eq_zero.1 h0
    simp [hnil]
  · cases hget : mapGet lb.peers targetID with
    | none => exact ⟨selectByStrategy_none lb nanos rnd, hsome⟩
    | some peer =>
      simp only []
      split_ifs with hh
      · have hmem : peer ∈ lb.peerList := (hwf.2.1 _ (mapGet_mem _ _ _ hget)).1
        refine ⟨?_, ?_⟩
        · simp only [false_iff]
          intro hall
          rw [hall peer hmem] at hh
          exact absurd hh (by simp)
        · intro p hp
          cases hp
          exact ⟨hmem, hwf.1 peer hmem, hh⟩
      · exact ⟨selectByStrategy_none lb nanos rnd, hsome⟩
  · exact ⟨selectByStrategy_none lb nanos rnd, hsome⟩

/-- C8 (witness). A balancer with healthy peers returns one, a balancer whose peers are
all unhealthy returns nil. -/
theorem selectPeer_none_iff_no_healthy_witness :
    balancer.WF ∧ sickBalancer.WF ∧
    balancer.SelectPeer "missing" 7 0 = some peerB ∧
    sickBalancer.SelectPeer "A" 7 0 = none ∧
    ((sickBalancer.SelectPeer "A" 7 0 = none ↔ ∀ p ∈ sickBalancer.peerList, p.Healthy = false) ∧
      (∀ p, sickBalancer.SelectPeer "A" 7 0 = some p →
        p ∈ sickBalancer.peerList ∧ mapGet sickBalancer.peers p.ID = some p ∧
          p.Healthy = true)) ∧
    ((balancer.SelectPeer "missing" 7 0 = none ↔ ∀ p ∈ balancer.peerList, p.Healthy = false) ∧
      (∀ p, balancer.SelectPeer "missing" 7 0 = some p →
        p ∈ balancer.peerList ∧ mapGet balancer.peers p.ID = some p ∧ p.Healthy = true)) :=
  ⟨by decide, by decide, by decide, by decide,
    selectPeer_none_iff_no_healthy sickBalancer (by decide) "A" 7 0,
    selectPeer_none_iff_no_healthy balancer (by decide) "missing" 7 0⟩

/-- C9. In every load balancer whose map and list hold the same peers and for
every strategy: a target hint other than the empty string and broadcast that
names a registered healthy peer makes SelectPeer return exactly that peer; for a
hint that is empty, broadcast, unknown, or names an unhealthy peer, the result is
that of the configured strategy applied to the healthy peers in insertion order
(nil when there is none), which does not depend on the hint. -/
theorem selectPeer_target_hint (lb : LoadBalancer) (hwf : lb.WF) (targetID : String)
    (nanos rnd : Nat) :
    (targetID ≠ "" → targetID ≠ "broadcast" →
      ∀ p, mapGet lb.peers targetID = some p → p.Healthy = true →
        lb.SelectPeer targetID nanos rnd = some p) ∧
    (lb.noUsableHint targetID →
      lb.SelectPeer targetID nanos rnd =
        if lb.healthyPeers = [] then none
        else LoadBalancer.applyStrategy lb.strategy lb.healthyPeers nanos rnd) := by
  constructor
  · intro h1 h2 p hget hh
    have hmem : p ∈ lb.peerList := (hwf.2.1 _ (mapGet_mem _ _ _ hget)).1
    have h0 : ¬ lb.peerList.length = 0 := by
      intro e
      rw [List.length_eq_zero.1 e] at hmem
      simp at hmem
    simp [LoadBalancer.SelectPeer, h0, h1, h2, hget, hh]
  · intro h
    rw [selectPeer_of_noUsableHint lb targetID nanos rnd h]
    unfold LoadBalancer.selectByStrategy
    by_cases hnil : lb.healthyPeers = []
    · simp [hnil]
    · have hlen : ¬ lb.healthyPeers.length = 0 := fun e => hnil (List.length_eq_zero.1 e)
      simp [hnil, hlen]

/-- C9 (witness). The hint B returns B; the hint C, an unhealthy peer, falls back to the
strategy. -/
theorem selectPeer_target_hint_witness :
    balancer.WF ∧
    mapGet balancer.peers "B" = some peerB ∧
    mapGet balancer.peers "C" = some peerC ∧
    balancer.SelectPeer "B" 0 0 = some peerB ∧
    balancer.SelectPeer "C" 0 0 =
      (if balancer.healthyPeers = [] then none
        else LoadBalancer.applyStrategy balancer.strategy balancer.healthyPeers 0 0) ∧
    balancer.SelectPeer "C" 0 0 = some peerA :=
  ⟨by decide, by decide, by decide,
    (selectPeer_target_hint balancer (by decide) "B" 0 0).1 (by decide) (by decide) peerB
      (by decide) rfl,
    (selectPeer_target_hint balancer (by decide) "C" 0 0).2
      (Or.inr (Or.inr (Or.inr ⟨peerC, by decide, rfl⟩))),
    by decide⟩

theorem roundRobin_results_eq_rotate (l : List Peer) (t : Nat) :
    (List.range l.length).map (fun i => l[(t + i) % l.length]?) = (l.rotate t).map some := by
  apply List.ext_getElem?
  intro i
  by_cases hi : i < l.length
  · have hlt : (i + t) % l.length < l.length := Nat.mod_lt _ (by omega)
    simp [hi, List.getElem?_eq_getElem hlt, Nat.add_comm t i, List.getElem_rotate]
  · have h1 : (List.range l.length)[i]? = none :=
      List.getElem?_eq_none (by simp only [List.length_range]; omega)
    have h2 : (l.rotate t)[i]? = none :=
      List.getElem?_eq_none (by simp only [List.length_rotate]; omega)
    simp [h1, h2]

/-- C10 (counterexample). The round-robin balancer with healthy peers A, B, D (in
insertion order) returns A at the clock readings 0, 3 and 6, so three consecutive
calls made at these readings never return B or D, and it returns B at the clock
reading 1: the result follows the clock and no cursor advances. -/
theorem round_robin_follows_clock :
    balancer.strategy = RoundRobin ∧
    balancer.healthyPeers = [peerA, peerB, peerD] ∧
    balancer.SelectPeer "" 0 0 = some peerA ∧
    balancer.SelectPeer "" 3 0 = some peerA ∧
    balancer.SelectPeer "" 6 0 = some peerA ∧
    balancer.SelectPeer "" 1 0 = some peerB := by
  decide

/-- C10 (amended). Under the round-robin strategy, with n >= 1 healthy peers and
no usable target hint, SelectPeer keeps no cursor: a call made at the clock
reading nanos (UnixNano) returns the healthy peer at position nanos mod n in
insertion order, so the result is determined by the clock reading; n calls made at
the consecutive clock readings t, t + 1, ..., t + n - 1 return each healthy peer
exactly once. -/
theorem round_robin_by_clock (lb : LoadBalancer) (targetID : String) (rnd : Nat)
    (hs : lb.strategy = RoundRobin) (hh : lb.noUsableHint targetID)
    (hn : lb.healthyPeers ≠ []) :
    (∀ nanos, lb.SelectPeer targetID nanos rnd =
      lb.healthyPeers[nanos % lb.healthyPeers.length]?) ∧
    (∀ t, List.Perm
      ((List.range lb.healthyPeers.length).map (fun i => lb.SelectPeer targetID (t + i) rnd))
      (lb.healthyPeers.map some)) := by
  have hsel : ∀ nanos, lb.SelectPeer targetID nanos rnd =
      lb.healthyPeers[nanos % lb.healthyPeers.length]? := by
    intro nanos
    rw [selectPeer_of_noUsableHint lb targetID nanos rnd hh]
    have hlen : ¬ lb.healthyPeers.length = 0 := fun e => hn (List.length_eq_zero.1 e)
    simp [LoadBalancer.selectByStrategy, hlen, LoadBalancer.applyStrategy, hs,
      LoadBalancer.selectRoundRobin]
  refine ⟨hsel, ?_⟩
  intro t
  simp only [hsel]
  rw [roundRobin_results_eq_rotate]
  exact (List.rotate_perm _ _).map some

/-- C10 (witness). The balancer with healthy peers A, B, D at the clock readings 7, 8,
9. -/
theorem round_robin_by_clock_witness :
    (balancer.strategy = RoundRobin ∧ balancer.healthyPeers ≠ []) ∧
    balancer.SelectPeer "missing" 7 0 =
      balancer.healthyPeers[7 % balancer.healthyPeers.length]? ∧
    List.Perm
      ((List.range balancer.healthyPeers.length).map
        (fun i => balancer.SelectPeer "missing" (7 + i) 0))
      (balancer.healthyPeers.map some) :=
  ⟨by decide,
    (round_robin_by_clock balancer "missing" 0 (by decide)
      (Or.inr (Or.inr (Or.inl (by decide)))) (by decide)).1 7,
    (round_robin_by_clock balancer "missing" 0 (by decide)
      (Or.inr (Or.inr (Or.inl (by decide)))) (by decide)).2 7⟩

theorem leastFold_split (rest : List Peer) (p : Peer) :
    ∃ pre m post, p :: rest = pre ++ m :: post ∧
      rest.foldl (fun minPeer q =>
        if q.ConnectionCount < minPeer.ConnectionCount then q else minPeer) p = m ∧
      (∀ q ∈ pre, m.ConnectionCount < q.ConnectionCount) ∧
      (∀ q ∈ post, m.ConnectionCount ≤ q.ConnectionCount) := by
  induction rest using List.reverseRecOn with
  | nil => exact ⟨[], p, [], rfl, rfl, by simp, by simp⟩
  | append_singleton rest x ih =>
    obtain ⟨pre, m, post, hsplit, hfold, hpre, hpost⟩ := ih
    simp only [List.foldl_append, List.foldl_cons, List.foldl_nil, hfold]
    by_cases hx : x.ConnectionCount < m.ConnectionCount
    · refine ⟨p :: rest, x, [], by simp, by simp [hx], ?_, by simp⟩
      intro q hq
      rw [hsplit] at hq
      simp only [List.mem_append, List.mem_cons] at hq
      rcases hq with hq | hq | hq
      · have := hpre q hq
        omega
      · rw [hq]
        exact hx
      · have := hpost q hq
        omega
    · refine ⟨pre, m, post ++ [x], ?_, by simp [hx], hpre, ?_⟩
      · rw [← List.cons_append, hsplit]
        simp
      · intro q hq
        simp only [List.mem_append, List.mem_singleton] at hq
        rcases hq with hq | hq
        · exact hpost q hq
        · rw [hq]
          omega

/-- C11. Under the least-connections strategy, with no usable target hint and at
least one healthy peer, SelectPeer returns a healthy registered peer p whose
connection count is the minimum over all healthy peers; every healthy peer that
precedes p in insertion order has a strictly larger count, so among the healthy
peers sharing the minimum p is the one added earliest. -/
theorem least_connections_first_minimum (lb : LoadBalancer) (targetID : String)
    (nanos rnd : Nat) (hs : lb.strategy = LeastConnections) (hh : lb.noUsableHint targetID)
    (hn : lb.healthyPeers ≠ []) :
    ∃ pre p post, lb.healthyPeers = pre ++ p :: post ∧
      lb.SelectPeer targetID nanos rnd = some p ∧
      p.Healthy = true ∧ p ∈ lb.peerList ∧
      (∀ q ∈ lb.healthyPeers, p.ConnectionCount ≤ q.ConnectionCount) ∧
      (∀ q ∈ pre, p.ConnectionCount < q.ConnectionCount) ∧
      (∀ q ∈ post, p.ConnectionCount ≤ q.ConnectionCount) := by
  rw [selectPeer_of_noUsableHint lb targetID nanos rnd hh]
  have hlen : ¬ lb.healthyPeers.length = 0 := fun e => hn (List.length_eq_zero.1 e)
  cases hl : lb.healthyPeers with
  | nil => exact absurd hl hn
  | cons a rest =>
    obtain ⟨pre, m, post, hsplit, hfold, hpre, hpost⟩ := leastFold_split rest a
    have hmem : m ∈ lb.healthyPeers := by
      rw [hl, hsplit]
      simp
    have hm : m ∈ lb.peerList ∧ m.Healthy = true := by
      simpa [LoadBalancer.healthyPeers] using hmem
    refine ⟨pre, m, post, hsplit, ?_, hm.2, hm.1, ?_, hpre, hpost⟩
    · have h2 : ¬ LeastConnections = RoundRobin := by decide
      have h3 : ¬ LeastConnections = Random := by decide
      simp only [LoadBalancer.selectByStrategy, hl, LoadBalancer.applyStrategy, hs, h2, h3,
        if_false, if_true, LoadBalancer.selectLeastConnections, hfold]
      simp
    · intro q hq
      rw [hsplit] at hq
      simp only [List.mem_append, List.mem_cons] at hq
      rcases hq with hq | hq | hq
      · exact le_of_lt (hpre q hq)
      · rw [hq]
      · exact hpost q hq

/-- C11 (witness). Healthy peers A (2 connections), B (0), D (1), E (0): B is returned. -/
theorem least_connections_first_minimum_witness :
    (leastBalancer.strategy = LeastConnections ∧ leastBalancer.healthyPeers ≠ []) ∧
    leastBalancer.healthyPeers = [peerA, peerB, peerD, peerE] ∧
    leastBalancer.SelectPeer "" 5 5 = some peerB ∧
    ∃ pre p post, leastBalancer.healthyPeers = pre ++ p :: post ∧
      leastBalancer.SelectPeer "" 5 5 = some p ∧
      p.Healthy = true ∧ p ∈ leastBalancer.peerList ∧
      (∀ q ∈ leastBalancer.healthyPeers, p.ConnectionCount ≤ q.ConnectionCount) ∧
      (∀ q ∈ pre, p.ConnectionCount < q.ConnectionCount) ∧
      (∀ q ∈ post, p.ConnectionCount ≤ q.ConnectionCount) :=
  ⟨by decide, by decide, by decide,
    least_connections_first_minimum leastBalancer "" 5 5 (by decide) (Or.inl rfl) (by decide)⟩

theorem asGossip_ofGossip (g : GossipMessage) : (Payload.ofGossip g).asGossip = some g := by
  cases g with
  | mk gid ground gtime gdata =>
    cases gdata
    rfl

theorem swapAt_perm (l : List String) (i j : Nat) (hi : i < l.length) (hj : j < l.length) :
    (swapAt l i j).Perm l := by
  rw [List.perm_iff_count]
  intro x
  have hj1 : j < (l.set i (l.getD j "")).length := by simpa using hj
  have hgi : l.getD i "" = l[i] := List.getD_eq_getElem _ _ hi
  have hgj : l.getD j "" = l[j] := List.getD_eq_getElem _ _ hj
  have hj2 : j < (l.set i l[j]).length := by simpa using hj
  have hmid : (l.set i l[j])[j] = l[j] := by
    by_cases hij : i = j
    · subst hij
      simp
    · simp [List.getElem_set_ne hij]
  unfold swapAt
  rw [List.count_set _ _ _ _ hj1, List.count_set _ _ _ _ hi]
  simp only [hgi, hgj, hmid]
  have h1 : (if (l[i] == x) = true then 1 else 0) ≤ List.count x l := by
    split_ifs with h
    · have hx : l[i] = x := by simpa using h
      rw [← hx]
      exact List.one_le_count_iff.2 (List.getElem_mem hi)
    · exact Nat.zero_le _
  have h2 : (if (l[j] == x) = true then 1 else 0) ≤ (1 : Nat) := by
    split_ifs <;> omega
  omega

theorem shuffleFrom_perm (k : Nat) (l : List String) (draws : Nat → Nat) (hk : k < l.length) :
    (shuffleFrom k l draws).Perm l := by
  induction k generalizing l with
  | zero => exact List.Perm.refl _
  | succ k ih =>
    have hj : draws (k + 1) % (k + 2) < l.length := by
      have := Nat.mod_lt (draws (k + 1)) (show 0 < k + 2 by omega)
      omega
    have hp := swapAt_perm l (k + 1) (draws (k + 1) % (k + 2)) hk hj
    have hlen : k < (swapAt l (k + 1) (draws (k + 1) % (k + 2))).length := by
      rw [hp.length_eq]
      omega
    exact (ih _ hlen).trans hp

/-- C14. HandleIncomingMessage of the gossip protocol leaves the node unchanged for
a message whose kind is not gossip or whose payload is not a gossip record. For a
gossip message carrying the record r: when r.ID is not cached or the cached round
is strictly lower than r.Round, the cache entry for r.ID becomes r and no other
entry changes; when the cached round is equal or higher, the node is unchanged. -/
theorem gossip_receive_updates_on_higher_round (gp : GossipProtocol) (message : Message) :
    (message.Type_ ≠ MessageType.gossip → gp.HandleIncomingMessage message = gp) ∧
    (message.Payload.asGossip = none → gp.HandleIncomingMessage message = gp) ∧
    (∀ r, message.Type_ = MessageType.gossip → message.Payload.asGossip = some r →
      ((mapGet gp.messageCache r.ID = none ∨
          ∃ e, mapGet gp.messageCache r.ID = some e ∧ e.Round < r.Round) →
        mapGet (gp.HandleIncomingMessage message).messageCache r.ID = some r ∧
        ∀ k, k ≠ r.ID →
          mapGet (gp.HandleIncomingMessage message).messageCache k =
            mapGet gp.messageCache k) ∧
      ((∃ e, mapGet gp.messageCache r.ID = some e ∧ r.Round ≤ e.Round) →
        gp.HandleIncomingMessage message = gp)) := by
  refine ⟨?_, ?_, ?_⟩
  · intro h
    simp [GossipProtocol.HandleIncomingMessage, h]
  · intro h
    simp [GossipProtocol.HandleIncomingMessage, h]
  · intro r ht hr
    have hstore : ∀ k, mapGet (mapSet gp.messageCache r.ID r) k =
        if r.ID = k then some r else mapGet gp.messageCache k := fun k => mapGet_mapSet _ _ _ _
    constructor
    · rintro (hnone | ⟨e, he, hlt⟩)
      · simp only [GossipProtocol.HandleIncomingMessage, ht, ne_eq, not_true_eq_false,
          if_false, hr, hnone]
        refine ⟨by simp [hstore], ?_⟩
        intro k hk
        have hk1 : ¬ r.ID = k := fun e => hk e.symm
        simp [hstore, hk1]
      · have hge : ¬ e.Round ≥ r.Round := by omega
        simp only [GossipProtocol.HandleIncomingMessage, ht, ne_eq, not_true_eq_false,
          if_false, hr, he, hge]
        refine ⟨by simp [hstore], ?_⟩
        intro k hk
        have hk1 : ¬ r.ID = k := fun e => hk e.symm
        simp [hstore, hk1]
    · rintro ⟨e, he, hle⟩
      have hge : e.Round ≥ r.Round := hle
      simp only [GossipProtocol.HandleIncomingMessage, ht, ne_eq, not_true_eq_false,
        if_false, hr, he, hge, if_true]

/-- C14 (witness). Node A receives the record of m1 at round 2: first with an empty
cache, where it is stored, then again, where the node stays unchanged. -/
theorem gossip_receive_updates_on_higher_round_witness :
    (gossipIncoming.Type_ = MessageType.gossip ∧
      gossipIncoming.Payload.asGossip = some gossipRecord ∧
      mapGet gossipNode.messageCache gossipRecord.ID = none) ∧
    mapGet (gossipNode.HandleIncomingMessage gossipIncoming).messageCache gossipRecord.ID =
      some gossipRecord ∧
    (gossipNode.HandleIncomingMessage gossipIncoming).HandleIncomingMessage gossipIncoming =
      gossipNode.HandleIncomingMessage gossipIncoming :=
  ⟨by decide,
    (((gossip_receive_updates_on_higher_round gossipNode gossipIncoming).2.2 gossipRecord
      (by decide) (by decide)).1 (Or.inl (by decide))).1,
    ((gossip_receive_updates_on_higher_round (gossipNode.HandleIncomingMessage gossipIncoming)
      gossipIncoming).2.2 gossipRecord (by decide) (by decide)).2
      ⟨gossipRecord, by decide, by decide⟩⟩

/-- C16. For every peer map (distinct keys), every count >= 0 and every outcome of
the random draws, selectRandomPeers returns a list of exactly min(count, n) peer
ids, where n is the number of peers; the ids are pairwise distinct and all are
keys of the peer map. -/
theorem selectRandomPeers_distinct_members (gp : GossipProtocol) (count : Int)
    (draws : Nat → Nat) (hnd : gp.peers.Nodup) (hcount : 0 ≤ count) :
    ∃ ids, gp.selectRandomPeers count draws = some ids ∧
      (ids.length : Int) = min count (gp.peers.length : Int) ∧
      ids.Nodup ∧ ∀ x ∈ ids, x ∈ gp.peers := by
  unfold GossipProtocol.selectRandomPeers
  split_ifs with h0 h1 h2
  · refine ⟨[], rfl, ?_, List.nodup_nil, by simp⟩
    rw [h0]
    simp
    omega
  · refine ⟨gp.peers, rfl, ?_, hnd, fun x hx => hx⟩
    omega
  · omega
  · have hk : gp.peers.length - 1 < gp.peers.length := by omega
    have hperm := shuffleFrom_perm (gp.peers.length - 1) gp.peers draws hk
    refine ⟨_, rfl, ?_, ?_, ?_⟩
    · rw [List.length_take, hperm.length_eq]
      omega
    · exact ((hperm.nodup_iff).2 hnd).sublist (List.take_sublist _ _)
    · intro x hx
      exact hperm.subset ((List.take_sublist _ _).subset hx)

/-- C16 (witness). Node A with peers B, C, D and count 2. -/
theorem selectRandomPeers_distinct_members_witness :
    (gossipNode.peers.Nodup ∧ (0 : Int) ≤ 2) ∧
    gossipNode.selectRandomPeers 2 zeroDraws = some ["C", "D"] ∧
    ∃ ids, gossipNode.selectRandomPeers 2 zeroDraws = some ids ∧
      (ids.length : Int) = min 2 (gossipNode.peers.length : Int) ∧
      ids.Nodup ∧ ∀ x ∈ ids, x ∈ gossipNode.peers :=
  ⟨by decide, by decide,
    selectRandomPeers_distinct_members gossipNode 2 zeroDraws (by decide) (by decide)⟩

theorem mapSet_keys {β : Type} (m : List (String × β)) (k : String) (v : β) :
    (mapSet m k v).map Prod.fst =
      if k ∈ m.map Prod.fst then m.map Prod.fst else m.map Prod.fst ++ [k] := by
  induction m with
  | nil => simp [mapSet]
  | cons a m ih =>
    obtain ⟨a1, a2⟩ := a
    by_cases h : a1 = k
    · subst h
      simp [mapSet]
    · have h1 : ¬ k = a1 := fun e => h e.symm
      simp only [mapSet, h, if_false, List.map_cons, ih, List.mem_cons, h1, false_or]
      split_ifs <;> simp

theorem mapSet_keys_nodup {β : Type} (m : List (String × β)) (k : String) (v : β)
    (h : (m.map Prod.fst).Nodup) : ((mapSet m k v).map Prod.fst).Nodup := by
  rw [mapSet_keys]
  split_ifs with hk
  · exact h
  · rw [List.nodup_append]
    refine ⟨h, List.nodup_singleton _, ?_⟩
    intro a ha hb
    simp only [List.mem_singleton] at hb
    subst hb
    exact hk ha

theorem mapGet_of_mem_nodup {β : Type} (m : List (String × β)) (k : String) (v : β)
    (h : (m.map Prod.fst).Nodup) (hm : (k, v) ∈ m) : mapGet m k = some v := by
  induction m with
  | nil => simp at hm
  | cons a m ih =>
    obtain ⟨a1, a2⟩ := a
    simp only [List.map_cons, List.nodup_cons] at h
    rcases List.mem_cons.1 hm with h1 | h1
    · cases h1
      simp [mapGet]
    · have hne : ¬ a1 = k := by
        intro e
        subst e
        exact h.1 (List.mem_map.2 ⟨(a1, v), h1, rfl⟩)
      simp only [mapGet, hne, if_false]
      exact ih h.2 h1

theorem cacheWF_mapSet (gp : GossipProtocol) (k : String) (v : GossipMessage)
    (hwf : gp.CacheWF) (hv : v.ID = k) :
    GossipProtocol.CacheWF { gp with messageCache := mapSet gp.messageCache k v } := by
  refine ⟨mapSet_keys_nodup _ _ _ hwf.1, ?_⟩
  intro kv hkv
  rcases mem_mapSet _ _ _ _ hkv with h | h
  · rw [h]
    exact hv
  · exact hwf.2 kv h

theorem gossipAll_frame (gp : GossipProtocol) (msgs : List GossipMessage)
    (ids : List String) (now : Int) :
    (GossipProtocol.gossipAll gp msgs ids now).1.peers = gp.peers ∧
    (GossipProtocol.gossipAll gp msgs ids now).1.fanout = gp.fanout ∧
    (GossipProtocol.gossipAll gp msgs ids now).1.maxRounds = gp.maxRounds := by
  induction msgs generalizing gp with
  | nil => exact ⟨rfl, rfl, rfl⟩
  | cons g rest ih =>
    simp only [GossipProtocol.gossipAll]
    exact ih (GossipProtocol.gossipMessage gp g ids now).1

theorem gossipAll_wf (gp : GossipProtocol) (msgs : List GossipMessage)
    (ids : List String) (now : Int) (hwf : gp.CacheWF) :
    (GossipProtocol.gossipAll gp msgs ids now).1.CacheWF := by
  induction msgs generalizing gp with
  | nil => exact hwf
  | cons g rest ih =>
    simp only [GossipProtocol.gossipAll]
    exact ih _ (cacheWF_mapSet gp g.ID (GossipProtocol.nextRound g) hwf rfl)

theorem gossipAll_other (gp : GossipProtocol) (msgs : List GossipMessage)
    (ids : List String) (now : Int) (id : String) (h : ∀ g ∈ msgs, g.ID ≠ id) :
    mapGet (GossipProtocol.gossipAll gp msgs ids now).1.messageCache id =
      mapGet gp.messageCache id := by
  induction msgs generalizing gp with
  | nil => rfl
  | cons g rest ih =>
    simp only [GossipProtocol.gossipAll]
    rw [ih _ (fun x hx => h x (List.mem_cons_of_mem _ hx))]
    have hne : g.ID ≠ id := h g (List.mem_cons_self _ _)
    simp [GossipProtocol.gossipMessage, mapGet_mapSet, hne]

theorem gossipAll_hit (gp : GossipProtocol) (msgs : List GossipMessage)
    (ids : List String) (now : Int) (g : GossipMessage)
    (hnd : (msgs.map (fun m => m.ID)).Nodup) (hg : g ∈ msgs) :
    mapGet (GossipProtocol.gossipAll gp msgs ids now).1.messageCache g.ID =
      some (GossipProtocol.nextRound g) := by
  induction msgs generalizing gp with
  | nil => simp at hg
  | cons m rest ih =>
    simp only [List.map_cons, List.nodup_cons, List.mem_map, not_exists, not_and] at hnd
    simp only [GossipProtocol.gossipAll]
    rcases List.mem_cons.1 hg with h1 | h1
    · subst h1
      rw [gossipAll_other _ rest ids now g.ID (fun x hx e => hnd.1 x hx e)]
      simp [GossipProtocol.gossipMessage, mapGet_mapSet, GossipProtocol.nextRound]
    · exact ih _ hnd.2 h1

theorem sends_append (a b : List Emission) (id : String) :
    GossipProtocol.sends (a ++ b) id = (GossipProtocol.sends a id || GossipProtocol.sends b id) := by
  simp [GossipProtocol.sends, List.any_append]

theorem sends_map_const (l : List String) (f : String → Message) (id : String) (b : Bool)
    (hf : ∀ x, (match (f x).Payload.asGossip with
      | some g => decide (g.ID = id)
      | none => false) = b) (hne : l ≠ []) :
    GossipProtocol.sends (l.map (fun x => (x, f x))) id = b := by
  induction l with
  | nil => exact absurd rfl hne
  | cons x rest ih =>
    cases rest with
    | nil => simp [GossipProtocol.sends, hf]
    | cons y rest1 =>
      have h1 := ih (by simp)
      simp only [GossipProtocol.sends, List.map_cons, List.any_cons] at h1 ⊢
      rw [h1, hf]
      simp

theorem sends_gossipMessage (gp : GossipProtocol) (g : GossipMessage) (ids : List String)
    (now : Int) (id : String) (hsub : ∀ x ∈ ids, x ∈ gp.peers) (hne : ids ≠ []) :
    GossipProtocol.sends (GossipProtocol.gossipMessage gp g ids now).2 id =
      decide (g.ID = id) := by
  have hfilter : ids.filter (fun peerID => decide (peerID ∈ gp.peers)) = ids := by
    rw [List.filter_eq_self]
    intro x hx
    simpa using hsub x hx
  simp only [GossipProtocol.gossipMessage]
  rw [hfilter]
  apply sends_map_const _ _ _ _ _ hne
  intro x
  simp only [asGossip_ofGossip]

theorem gossipAll_sends (gp : GossipProtocol) (msgs : List GossipMessage) (ids : List String)
    (now : Int) (id : String) (hsub : ∀ x ∈ ids, x ∈ gp.peers) (hne : ids ≠ []) :
    GossipProtocol.sends (GossipProtocol.gossipAll gp msgs ids now).2 id =
      msgs.any (fun g => decide (g.ID = id)) := by
  induction msgs generalizing gp with
  | nil => rfl
  | cons g rest ih =>
    simp only [GossipProtocol.gossipAll, sends_append, List.any_cons]
    rw [sends_gossipMessage gp g ids now id hsub hne, ih]
    exact hsub

theorem cache_id_eq_key (gp : GossipProtocol) (hwf : gp.CacheWF) (id : String)
    (g : GossipMessage) (h : mapGet gp.messageCache id = some g) : g.ID = id :=
  hwf.2 (id, g) (mapGet_mem _ _ _ h)

theorem collect_ids_nodup (gp : GossipProtocol) (hwf : gp.CacheWF) :
    (gp.collect.map (fun m => m.ID)).Nodup := by
  have hkeys : (gp.messageCache.map Prod.snd).map (fun m => m.ID) =
      gp.messageCache.map Prod.fst := by
    rw [List.map_map]
    apply List.map_congr_left
    intro kv hkv
    exact hwf.2 kv hkv
  have hsub : (gp.collect.map (fun m => m.ID)).Sublist
      ((gp.messageCache.map Prod.snd).map (fun m => m.ID)) :=
    (List.filter_sublist _).map _
  rw [hkeys] at hsub
  exact hwf.1.sublist hsub

theorem mem_collect (gp : GossipProtocol) (hwf : gp.CacheWF) (g : GossipMessage) :
    g ∈ gp.collect ↔ mapGet gp.messageCache g.ID = some g ∧ g.Round < gp.maxRounds := by
  simp only [GossipProtocol.collect, List.mem_filter, List.mem_map, decide_eq_true_eq]
  constructor
  · rintro ⟨⟨kv, hkv, rfl⟩, hr⟩
    refine ⟨mapGet_of_mem_nodup _ _ _ hwf.1 ?_, hr⟩
    have := hwf.2 kv hkv
    rw [this]
    exact hkv
  · rintro ⟨hget, hr⟩
    exact ⟨⟨(g.ID, g), mapGet_mem _ _ _ hget, rfl⟩, hr⟩

theorem selectRandomPeers_total (gp : GossipProtocol) (count : Int) (draws : Nat → Nat)
    (hcount : 0 ≤ count) :
    ∃ ids, gp.selectRandomPeers count draws = some ids ∧ ∀ x ∈ ids, x ∈ gp.peers := by
  unfold GossipProtocol.selectRandomPeers
  split_ifs with h0 h1 h2
  · exact ⟨[], rfl, by simp⟩
  · exact ⟨gp.peers, rfl, fun x hx => hx⟩
  · omega
  · have hk : gp.peers.length - 1 < gp.peers.length := by omega
    have hperm := shuffleFrom_perm (gp.peers.length - 1) gp.peers draws hk
    exact ⟨_, rfl, fun x hx => hperm.subset ((List.take_sublist _ _).subset hx)⟩

theorem performGossip_spec (gp : GossipProtocol) (draws : Nat → Nat) (now : Int)
    (hwf : gp.CacheWF) (hf : 0 ≤ gp.fanout) :
    ∃ gp1 out, gp.performGossip draws now = some (gp1, out) ∧ gp1.CacheWF ∧
      gp1.fanout = gp.fanout ∧ gp1.maxRounds = gp.maxRounds ∧
      (∀ id g, mapGet gp.messageCache id = some g →
        (GossipProtocol.sends out id = true →
          g.Round < gp.maxRounds ∧
            mapGet gp1.messageCache id = some (GossipProtocol.nextRound g)) ∧
        (GossipProtocol.sends out id = false → mapGet gp1.messageCache id = some g)) ∧
      (∀ id, mapGet gp.messageCache id = none →
        mapGet gp1.messageCache id = none ∧ GossipProtocol.sends out id = false) := by
  have hidle : ∃ gp1 out, some (gp, ([] : List Emission)) = some (gp1, out) ∧ gp1.CacheWF ∧
      gp1.fanout = gp.fanout ∧ gp1.maxRounds = gp.maxRounds ∧
      (∀ id g, mapGet gp.messageCache id = some g →
        (GossipProtocol.sends out id = true →
          g.Round < gp.maxRounds ∧
            mapGet gp1.messageCache id = some (GossipProtocol.nextRound g)) ∧
        (GossipProtocol.sends out id = false → mapGet gp1.messageCache id = some g)) ∧
      (∀ id, mapGet gp.messageCache id = none →
        mapGet gp1.messageCache id = none ∧ GossipProtocol.sends out id = false) := by
    refine ⟨gp, [], rfl, hwf, rfl, rfl, ?_, ?_⟩
    · intro id g hg
      exact ⟨fun h => by simp [GossipProtocol.sends] at h, fun _ => hg⟩
    · intro id hnone
      exact ⟨hnone, by simp [GossipProtocol.sends]⟩
  obtain ⟨ids, hids, hsub⟩ := selectRandomPeers_total gp gp.fanout draws hf
  unfold GossipProtocol.performGossip
  split_ifs with hc
  · exact hidle
  · rw [hids]
    simp only []
    split_ifs with hl
    · exact hidle
    · have hne : ids ≠ [] := fun e => hl (by simp [e])
      obtain ⟨hp, hfan, hmax⟩ := gossipAll_frame gp gp.collect ids now
      refine ⟨_, _, rfl, gossipAll_wf gp _ ids now hwf, hfan, hmax, ?_, ?_⟩
      · intro id g hg
        have hgid : g.ID = id := cache_id_eq_key gp hwf id g hg
        rw [gossipAll_sends gp gp.collect ids now id hsub hne]
        by_cases hr : g.Round < gp.maxRounds
        · have hmem : g ∈ gp.collect := (mem_collect gp hwf g).2 ⟨by rw [hgid]; exact hg, hr⟩
          have hhit := gossipAll_hit gp gp.collect ids now g (collect_ids_nodup gp hwf) hmem
          rw [hgid] at hhit
          refine ⟨fun _ => ⟨hr, hhit⟩, ?_⟩
          intro hfalse
          have : gp.collect.any (fun m => decide (m.ID = id)) = true :=
            List.any_eq_true.2 ⟨g, hmem, by simp [hgid]⟩
          rw [this] at hfalse
          cases hfalse
        · have hother : ∀ m ∈ gp.collect, m.ID ≠ id := by
            intro m hm hmid
            obtain ⟨hget, hmr⟩ := (mem_collect gp hwf m).1 hm
            rw [hmid, hg] at hget
            cases hget
            exact hr hmr
          refine ⟨?_, fun _ => by rw [gossipAll_other gp _ ids now id hother]; exact hg⟩
          intro htrue
          obtain ⟨m, hm, hmid⟩ := List.any_eq_true.1 htrue
          exact absurd (by simpa using hmid) (hother m hm)
      · intro id hnone
        have hother : ∀ m ∈ gp.collect, m.ID ≠ id := by
          intro m hm hmid
          obtain ⟨hget, _⟩ := (mem_collect gp hwf m).1 hm
          rw [hmid, hnone] at hget
          cases hget
        refine ⟨by rw [gossipAll_other gp _ ids now id hother]; exact hnone, ?_⟩
        rw [gossipAll_sends gp gp.collect ids now id hsub hne]
        cases hany : gp.collect.any (fun m => decide (m.ID = id)) with
        | false => rfl
        | true =>
          obtain ⟨m, hm, hmid⟩ := List.any_eq_true.1 hany
          exact absurd (by simpa using hmid) (hother m hm)

theorem handleIncoming_spec (gp : GossipProtocol) (message : Message) (hwf : gp.CacheWF) :
    (gp.HandleIncomingMessage message).CacheWF ∧
    (gp.HandleIncomingMessage message).fanout = gp.fanout ∧
    ∀ id g, mapGet gp.messageCache id = some g →
      ∃ g1, mapGet (gp.HandleIncomingMessage message).messageCache id = some g1 ∧
        g.Round ≤ g1.Round := by
  have hkeep : gp.CacheWF ∧ gp.fanout = gp.fanout ∧
      ∀ id g, mapGet gp.messageCache id = some g →
        ∃ g1, mapGet gp.messageCache id = some g1 ∧ g.Round ≤ g1.Round :=
    ⟨hwf, rfl, fun id g hg => ⟨g, hg, le_refl _⟩⟩
  unfold GossipProtocol.HandleIncomingMessage
  split_ifs with ht
  · exact hkeep
  · cases hr : message.Payload.asGossip with
    | none => exact hkeep
    | some r =>
      simp only []
      cases he : mapGet gp.messageCache r.ID with
      | none =>
        simp only []
        refine ⟨cacheWF_mapSet gp r.ID r hwf rfl, by first | rfl | trivial, ?_⟩
        intro id g hg
        have hne : ¬ r.ID = id := by
          intro e
          rw [e, hg] at he
          cases he
        exact ⟨g, by simp [mapGet_mapSet, hne, hg], le_refl _⟩
      | some existing =>
        simp only []
        split_ifs with hge
        · exact hkeep
        · refine ⟨cacheWF_mapSet gp r.ID r hwf rfl, rfl, ?_⟩
          intro id g hg
          by_cases hid : r.ID = id
          · rw [hid, hg] at he
            cases he
            exact ⟨r, by simp [mapGet_mapSet, hid], by omega⟩
          · exact ⟨g, by simp [mapGet_mapSet, hid, hg], le_refl _⟩

theorem gossip_step_round (gp : GossipProtocol) (id : String) (op : GossipOp)
    (hwf : gp.CacheWF) (hf : 0 ≤ gp.fanout) (hop : ¬ op.broadcasts id) :
    ∃ gp1 out, gp.step op = some (gp1, out) ∧ gp1.CacheWF ∧ 0 ≤ gp1.fanout ∧
      ∀ g, mapGet gp.messageCache id = some g →
        ∃ g1, mapGet gp1.messageCache id = some g1 ∧ g.Round ≤ g1.Round := by
  cases op with
  | broadcast message now =>
    have hne : ¬ message.ID = id := by simpa [GossipOp.broadcasts] using hop
    refine ⟨_, _, rfl, cacheWF_mapSet gp message.ID _ hwf rfl, hf, ?_⟩
    intro g hg
    exact ⟨g, by simp [GossipProtocol.Broadcast, mapGet_mapSet, hne, hg], le_refl _⟩
  | tick draws now =>
    obtain ⟨gp1, out, hrun, hwf1, hfan, _, hsome, _⟩ := performGossip_spec gp draws now hwf hf
    refine ⟨gp1, out, hrun, hwf1, by rw [hfan]; exact hf, ?_⟩
    intro g hg
    cases hs : GossipProtocol.sends out id with
    | true =>
      refine ⟨_, ((hsome id g hg).1 hs).2, ?_⟩
      simp only [GossipProtocol.nextRound]
      omega
    | false => exact ⟨g, (hsome id g hg).2 hs, le_refl _⟩
  | incoming message =>
    obtain ⟨h1, h2, h3⟩ := handleIncoming_spec gp message hwf
    exact ⟨_, _, rfl, h1, by rw [h2]; exact hf, fun g hg => h3 id g hg⟩
  | addPeer peerID => exact ⟨_, _, rfl, hwf, hf, fun g hg => ⟨g, hg, le_refl _⟩⟩
  | removePeer peerID => exact ⟨_, _, rfl, hwf, hf, fun g hg => ⟨g, hg, le_refl _⟩⟩

/-- C13 (counterexample). Node A broadcasts m1 (round 0) and gossips it in one tick
(round 1); a second Broadcast of m1 stores it at round 0 again, so the round
stored for m1 decreases from 1 to 0. -/
theorem gossip_round_reset_by_broadcast :
    (gossipNode.run [GossipOp.broadcast floodMsg 1, GossipOp.tick zeroDraws 2]).map
      (fun r => r.1.roundOf "m1") = some (some 1) ∧
    (gossipNode.run [GossipOp.broadcast floodMsg 1, GossipOp.tick zeroDraws 2,
      GossipOp.broadcast floodMsg 3]).map (fun r => r.1.roundOf "m1") = some (some 0) := by
  decide

/-- C13 (amended). In a node whose cache stores every record under its own id and
whose fanout is not negative, for every message id: across any sequence of gossip
ticks, received messages, peer changes and Broadcast calls for other message ids
the sequence runs to its end and the round stored for the id does not decrease. -/
theorem gossip_round_monotone (gp : GossipProtocol) (id : String) (ops : List GossipOp)
    (hwf : gp.CacheWF) (hf : 0 ≤ gp.fanout) (hops : ∀ op ∈ ops, ¬ op.broadcasts id) :
    ∃ gp1 outs, gp.run ops = some (gp1, outs) ∧
      ∀ r, gp.roundOf id = some r → ∃ r1, gp1.roundOf id = some r1 ∧ r ≤ r1 := by
  induction ops generalizing gp with
  | nil =>
    exact ⟨gp, [], rfl, fun r hr => ⟨r, hr, le_refl _⟩⟩
  | cons op rest ih =>
    obtain ⟨gp1, out, hstep, hwf1, hf1, hround⟩ :=
      gossip_step_round gp id op hwf hf (hops op (List.mem_cons_self _ _))
    obtain ⟨gp2, outs, hrun, hrest⟩ :=
      ih gp1 hwf1 hf1 (fun o ho => hops o (List.mem_cons_of_mem _ ho))
    refine ⟨gp2, out :: outs, by simp [GossipProtocol.run, hstep, hrun], ?_⟩
    intro r hr
    simp only [GossipProtocol.roundOf, Option.map_eq_some'] at hr
    obtain ⟨g, hg, hgr⟩ := hr
    obtain ⟨g1, hg1, hle⟩ := hround g hg
    obtain ⟨r2, hr2, hle2⟩ := hrest g1.Round (by simp [GossipProtocol.roundOf, hg1])
    exact ⟨r2, hr2, by omega⟩

/-- C13 (witness). After Broadcast of m1 on node A, a tick, the receipt of the record
of m1 at round 2, a Broadcast of m2 and another tick, the round of m1 is 3. -/
theorem gossip_round_monotone_witness :
    ((gossipNode.Broadcast floodMsg 1).CacheWF ∧ 0 ≤ (gossipNode.Broadcast floodMsg 1).fanout) ∧
    (gossipNode.Broadcast floodMsg 1).roundOf "m1" = some 0 ∧
    (((gossipNode.Broadcast floodMsg 1).run
      [GossipOp.tick zeroDraws 2, GossipOp.incoming gossipIncoming,
        GossipOp.broadcast otherMsg 3, GossipOp.tick zeroDraws 4]).map
      (fun r => r.1.roundOf "m1")) = some (some 3) ∧
    ∃ gp1 outs, (gossipNode.Broadcast floodMsg 1).run
        [GossipOp.tick zeroDraws 2, GossipOp.incoming gossipIncoming,
          GossipOp.broadcast otherMsg 3, GossipOp.tick zeroDraws 4] = some (gp1, outs) ∧
      ∀ r, (gossipNode.Broadcast floodMsg 1).roundOf "m1" = some r →
        ∃ r1, gp1.roundOf "m1" = some r1 ∧ r ≤ r1 :=
  ⟨by decide, by decide, by decide,
    gossip_round_monotone (gossipNode.Broadcast floodMsg 1) "m1"
      [GossipOp.tick zeroDraws 2, GossipOp.incoming gossipIncoming,
        GossipOp.broadcast otherMsg 3, GossipOp.tick zeroDraws 4]
      (by decide) (by decide) (by simp [GossipOp.broadcasts, otherMsg])⟩

theorem gossip_quiet_step (gp : GossipProtocol) (id : String) (g : GossipMessage)
    (op : GossipOp) (hwf : gp.CacheWF) (hf : 0 ≤ gp.fanout) (hop : op.quiet)
    (hg : mapGet gp.messageCache id = some g) :
    ∃ gp1 out, gp.step op = some (gp1, out) ∧ gp1.CacheWF ∧ 0 ≤ gp1.fanout ∧
      gp1.maxRounds = gp.maxRounds ∧
      ((GossipProtocol.sends out id = true ∧ g.Round < gp.maxRounds ∧
          mapGet gp1.messageCache id = some (GossipProtocol.nextRound g)) ∨
        (GossipProtocol.sends out id = false ∧ mapGet gp1.messageCache id = some g)) := by
  cases op with
  | broadcast message now => exact absurd hop (by simp [GossipOp.quiet])
  | incoming message => exact absurd hop (by simp [GossipOp.quiet])
  | tick draws now =>
    obtain ⟨gp1, out, hrun, hwf1, hfan, hmax, hsome, _⟩ := performGossip_spec gp draws now hwf hf
    refine ⟨gp1, out, hrun, hwf1, by rw [hfan]; exact hf, hmax, ?_⟩
    cases hs : GossipProtocol.sends out id with
    | true => exact Or.inl ⟨rfl, (hsome id g hg).1 hs⟩
    | false => exact Or.inr ⟨rfl, (hsome id g hg).2 hs⟩
  | addPeer peerID =>
    exact ⟨_, _, rfl, hwf, hf, rfl, Or.inr ⟨by simp [GossipProtocol.sends], hg⟩⟩
  | removePeer peerID =>
    exact ⟨_, _, rfl, hwf, hf, rfl, Or.inr ⟨by simp [GossipProtocol.sends], hg⟩⟩

theorem gossip_quiet_run (gp : GossipProtocol) (id : String) (g : GossipMessage)
    (ops : List GossipOp) (hwf : gp.CacheWF) (hf : 0 ≤ gp.fanout)
    (hops : ∀ op ∈ ops, op.quiet) (hg : mapGet gp.messageCache id = some g) :
    ∃ gp1 outs, gp.run ops = some (gp1, outs) ∧
      mapGet gp1.messageCache id = some (g.advance (sentCount outs id)) ∧
      (sentCount outs id : Int) ≤ max 0 (gp.maxRounds - g.Round) := by
  induction ops generalizing gp g with
  | nil =>
    refine ⟨gp, [], rfl, ?_, ?_⟩
    · simpa [sentCount, GossipMessage.advance] using hg
    · simp [sentCount]
  | cons op rest ih =>
    obtain ⟨gp1, out, hstep, hwf1, hf1, hmax, hcase⟩ :=
      gossip_quiet_step gp id g op hwf hf (hops op (List.mem_cons_self _ _)) hg
    have hrest : ∀ o ∈ rest, o.quiet := fun o ho => hops o (List.mem_cons_of_mem _ ho)
    rcases hcase with ⟨hs, hlt, hg1⟩ | ⟨hs, hg1⟩
    · obtain ⟨gp2, outs, hrun, hfin, hbound⟩ :=
        ih gp1 (GossipProtocol.nextRound g) hwf1 hf1 hrest hg1
      refine ⟨gp2, out :: outs, by simp [GossipProtocol.run, hstep, hrun], ?_, ?_⟩
      · rw [hfin]
        simp only [sentCount, List.filter_cons, hs, if_true, List.length_cons,
          GossipMessage.advance, GossipProtocol.nextRound, GossipMessage.mk.injEq, true_and,
          and_true, Option.some.injEq]
        push_cast
        omega
      · rw [hmax] at hbound
        simp only [sentCount, List.filter_cons, hs, if_true, List.length_cons,
          GossipProtocol.nextRound] at hbound ⊢
        push_cast
        omega
    · obtain ⟨gp2, outs, hrun, hfin, hbound⟩ := ih gp1 g hwf1 hf1 hrest hg1
      refine ⟨gp2, out :: outs, by simp [GossipProtocol.run, hstep, hrun], ?_, ?_⟩
      · rw [hfin]
        simp [sentCount, List.filter_cons, hs]
      · rw [hmax] at hbound
        simpa [sentCount, List.filter_cons, hs] using hbound

/-- C15. In a node whose cache stores every record under its own id and whose
fanout is not negative, let the record g be cached under id. A gossip tick
returns; if it sends copies of the record then g.Round is below maxRounds and the
cached record becomes g with its round raised by exactly one, otherwise the
cached record stays g. Hence over any sequence of gossip ticks and peer changes
(no Broadcast, no received message) the number n of ticks that send the record
satisfies n <= max 0 (maxRounds - g.Round), and the record ends at round
g.Round + n with its other fields unchanged. -/
theorem gossip_ticks_bounded (gp : GossipProtocol) (id : String) (g : GossipMessage)
    (hwf : gp.CacheWF) (hf : 0 ≤ gp.fanout) (hg : mapGet gp.messageCache id = some g) :
    (∀ draws now, ∃ gp1 out, gp.performGossip draws now = some (gp1, out) ∧
      (GossipProtocol.sends out id = true →
        g.Round < gp.maxRounds ∧
          mapGet gp1.messageCache id = some (GossipProtocol.nextRound g)) ∧
      (GossipProtocol.sends out id = false → mapGet gp1.messageCache id = some g) ∧
      (∀ k h, k ≠ id → mapGet gp.messageCache k = some h →
        GossipProtocol.sends out k = false → mapGet gp1.messageCache k = some h)) ∧
    (∀ ops, (∀ op ∈ ops, GossipOp.quiet op) →
      ∃ gp1 outs, gp.run ops = some (gp1, outs) ∧
        mapGet gp1.messageCache id = some (g.advance (sentCount outs id)) ∧
        (sentCount outs id : Int) ≤ max 0 (gp.maxRounds - g.Round)) := by
  constructor
  · intro draws now
    obtain ⟨gp1, out, hrun, _, _, _, hsome, _⟩ := performGossip_spec gp draws now hwf hf
    exact ⟨gp1, out, hrun, (hsome id g hg).1, (hsome id g hg).2,
      fun k h _ hk hs => (hsome k h hk).2 hs⟩
  · intro ops hops
    exact gossip_quiet_run gp id g ops hwf hf hops hg

/-- C15 (witness). Node A (maxRounds 3) holds m1 at round 0; of five ticks the first
three send it, after which it stays at round 3. -/
theorem gossip_ticks_bounded_witness :
    ((gossipNode.Broadcast floodMsg 1).CacheWF ∧ 0 ≤ (gossipNode.Broadcast floodMsg 1).fanout ∧
      mapGet (gossipNode.Broadcast floodMsg 1).messageCache "m1" = some gossipSeed) ∧
    ((gossipNode.Broadcast floodMsg 1).run fiveTicks).map
      (fun r => (r.1.roundOf "m1", r.2.map (fun out => GossipProtocol.sends out "m1"))) =
      some (some 3, [true, true, false, true, false, false]) ∧
    ∃ gp1 outs, (gossipNode.Broadcast floodMsg 1).run fiveTicks = some (gp1, outs) ∧
      mapGet gp1.messageCache "m1" = some (gossipSeed.advance (sentCount outs "m1")) ∧
      (sentCount outs "m1" : Int) ≤
        max 0 ((gossipNode.Broadcast floodMsg 1).maxRounds - gossipSeed.Round) :=
  ⟨by decide, by decide,
    (gossip_ticks_bounded (gossipNode.Broadcast floodMsg 1) "m1" gossipSeed (by decide)
      (by decide) (by decide)).2 fiveTicks (by simp [fiveTicks, GossipOp.quiet])⟩

/-! ## Cryptography -/

theorem toyAEAD_correct : toyAEAD.Correct := by
  intro nonce plaintext aad _
  simp [toyAEAD]

/-- C17. Let the key have 32 bytes, let the AEAD constructors succeed on it with
ciphers whose Open inverts their Seal, and let the random source fill the nonce
buffer. Then ChaCha20Poly1305Encrypt returns a ciphertext that
ChaCha20Poly1305Decrypt maps back to the plaintext, likewise for the variants with
additional data when the same additional data is passed to both, and AES-GCM
Decrypt applied to the ciphertext and nonce that Encrypt returned yields the
plaintext. -/
theorem decrypt_inverts_encrypt (newChaCha newGCM : Bytes → Option AEAD)
    (readRandom : Nat → Option Bytes) (key x aad nonceC nonceG : Bytes) (c g : AEAD)
    (hkey : key.length = 32)
    (hc : newChaCha key = some c) (hcc : c.Correct)
    (hrc : readRandom c.NonceSize = some nonceC) (hnc : nonceC.length = c.NonceSize)
    (hg : newGCM key = some g) (hgc : g.Correct)
    (hrg : readRandom g.NonceSize = some nonceG) (hng : nonceG.length = g.NonceSize) :
    (∃ ct, ChaCha20Poly1305Encrypt newChaCha readRandom key x = Except.ok ct ∧
      ChaCha20Poly1305Decrypt newChaCha key ct = Except.ok x) ∧
    (∃ ct, ChaCha20Poly1305EncryptWithAAD newChaCha readRandom key x aad = Except.ok ct ∧
      ChaCha20Poly1305DecryptWithAAD newChaCha key ct aad = Except.ok x) ∧
    (∃ ct nonce, Encrypt newGCM readRandom x key = Except.ok (ct, nonce) ∧
      Decrypt newGCM ct nonce key = Except.ok x) := by
  have hk : ¬ key.length ≠ chachaKeySize := by simp [chachaKeySize, hkey]
  have hsplit : ∀ body : Bytes,
      ¬ (nonceC ++ body).length < c.NonceSize ∧
      (nonceC ++ body).take c.NonceSize = nonceC ∧
      (nonceC ++ body).drop c.NonceSize = body := by
    intro body
    refine ⟨by simp [hnc], ?_, ?_⟩
    · rw [← hnc]
      simp
    · rw [← hnc]
      simp
  refine ⟨⟨nonceC ++ c.Seal nonceC x [], ?_, ?_⟩,
    ⟨nonceC ++ c.Seal nonceC x aad, ?_, ?_⟩, ⟨g.Seal nonceG x [], nonceG, ?_, ?_⟩⟩
  · simp only [ChaCha20Poly1305Encrypt, hk, if_false, hc, hrc]
  · obtain ⟨h1, h2, h3⟩ := hsplit (c.Seal nonceC x [])
    simp only [ChaCha20Poly1305Decrypt, hk, if_false, hc, h1, h2, h3, hcc nonceC x [] hnc]
  · simp only [ChaCha20Poly1305EncryptWithAAD, hk, if_false, hc, hrc]
  · obtain ⟨h1, h2, h3⟩ := hsplit (c.Seal nonceC x aad)
    simp only [ChaCha20Poly1305DecryptWithAAD, hk, if_false, hc, h1, h2, h3,
      hcc nonceC x aad hnc]
  · simp only [Encrypt, hg, hrg]
  · have hn : ¬ nonceG.length ≠ g.NonceSize := by simp [hng]
    simp only [Decrypt, hg, hn, if_false, hgc nonceG x [] hng]

/-- C17 (witness). The toy AEAD, whose Open inverts its Seal, with a 32 byte key. -/
theorem decrypt_inverts_encrypt_witness :
    (∃ ct, ChaCha20Poly1305Encrypt (fun _ => some toyAEAD) countingRandom toyKey [104, 105] =
        Except.ok ct ∧
      ChaCha20Poly1305Decrypt (fun _ => some toyAEAD) toyKey ct = Except.ok [104, 105]) ∧
    (∃ ct, ChaCha20Poly1305EncryptWithAAD (fun _ => some toyAEAD) countingRandom toyKey
        [104, 105] [1, 2, 3] = Except.ok ct ∧
      ChaCha20Poly1305DecryptWithAAD (fun _ => some toyAEAD) toyKey ct [1, 2, 3] =
        Except.ok [104, 105]) ∧
    (∃ ct nonce, Encrypt (fun _ => some toyAEAD) countingRandom [104, 105] toyKey =
        Except.ok (ct, nonce) ∧
      Decrypt (fun _ => some toyAEAD) ct nonce toyKey = Except.ok [104, 105]) :=
  decrypt_inverts_encrypt (fun _ => some toyAEAD) (fun _ => some toyAEAD) countingRandom toyKey
    [104, 105] [1, 2, 3] (List.range 12) (List.range 12) toyAEAD toyAEAD (by decide) rfl
    toyAEAD_correct rfl (by decide) rfl toyAEAD_correct rfl (by decide)

theorem verifySignature_iff (sha256 : Bytes → Bytes) (data signature publicKey : Bytes) :
    VerifySignature sha256 data signature publicKey = true ↔
      signature = sha256 (data ++ publicKey) := by
  unfold VerifySignature
  simp only []
  split_ifs with hlen
  · constructor
    · intro h
      cases h
    · intro h
      rw [h] at hlen
      exact absurd rfl hlen
  · have hlen1 : signature.length = (sha256 (data ++ publicKey)).length := by
      by_contra hne
      exact hlen hne
    simp only [List.all_eq_true, List.mem_range, decide_eq_true_eq]
    constructor
    · intro h
      apply List.ext_getElem hlen1
      intro i h1 h2
      have := h i h2
      rw [List.getD_eq_getElem _ _ h1, List.getD_eq_getElem _ _ h2] at this
      exact this.symm
    · intro h i _
      rw [h]

/-- C18 (evaluation of the code). For every digest function, every private key and
every message, VerifySignature accepts, under the public key that NewKeyPair
derives with ScalarBaseMult, the signature that SignData made with the private
key if and only if the digest of the message followed by the public key equals
the digest of the message followed by the private key. With SHA-256 this asks
for a key pair whose public key equals its private key, or for a collision. -/
theorem signature_accepted_iff_digests_agree (sha256 : Bytes → Bytes) (C : Curve25519)
    (privateKey message : Bytes) :
    NewKeyPair C (fun _ => some privateKey) =
      Except.ok { PrivateKey := privateKey, PublicKey := C.ScalarBaseMult privateKey } ∧
    (VerifySignature sha256 message (SignData sha256 message privateKey)
        (C.ScalarBaseMult privateKey) = true ↔
      sha256 (message ++ C.ScalarBaseMult privateKey) = sha256 (message ++ privateKey)) := by
  refine ⟨rfl, ?_⟩
  rw [verifySignature_iff]
  unfold SignData
  exact eq_comm

theorem toyCurve_law : toyCurve.Law := by
  refine ⟨fun s => s.sum, fun a u => [a * u.sum], [9], ?_, ?_, ?_⟩
  · intro s u
    rfl
  · intro s
    simp [toyCurve]
  · intro a b u
    simp [Nat.mul_assoc]

/-- C19. Let the curve functions follow the X25519 specification (Curve25519.Law).
For every two key pairs A and B that NewKeyPair produced, A.ComputeSharedSecret
of the public key of B equals B.ComputeSharedSecret of the public key of A. -/
theorem shared_secret_agreement (C : Curve25519) (hlaw : C.Law)
    (randomA randomB : Nat → Option Bytes) (A B : KeyPair)
    (hA : NewKeyPair C randomA = Except.ok A) (hB : NewKeyPair C randomB = Except.ok B) :
    A.ComputeSharedSecret C B.PublicKey = B.ComputeSharedSecret C A.PublicKey := by
  obtain ⟨scalar, mul, base, hmul, hbase, hassoc⟩ := hlaw
  unfold NewKeyPair at hA hB
  cases ha : randomA 32 with
  | none => simp [ha] at hA
  | some a =>
    cases hb : randomB 32 with
    | none => simp [hb] at hB
    | some b =>
      simp only [ha, Except.ok.injEq] at hA
      simp only [hb, Except.ok.injEq] at hB
      subst hA
      subst hB
      simp only [KeyPair.ComputeSharedSecret, hmul, hbase, hassoc, Nat.mul_comm (scalar a)]

/-- C19 (witness). Two key pairs over the toy curve. -/
theorem shared_secret_agreement_witness :
    toyCurve.Law ∧
    NewKeyPair toyCurve (fun _ => some [1, 2]) =
      Except.ok { PrivateKey := [1, 2], PublicKey := [27] } ∧
    NewKeyPair toyCurve (fun _ => some [5]) =
      Except.ok { PrivateKey := [5], PublicKey := [45] } ∧
    KeyPair.ComputeSharedSecret toyCurve { PrivateKey := [1, 2], PublicKey := [27] } [45] =
      KeyPair.ComputeSharedSecret toyCurve { PrivateKey := [5], PublicKey := [45] } [27] :=
  ⟨toyCurve_law, rfl, rfl,
    shared_secret_agreement toyCurve toyCurve_law (fun _ => some [1, 2]) (fun _ => some [5])
      { PrivateKey := [1, 2], PublicKey := [27] } { PrivateKey := [5], PublicKey := [45] }
      rfl rfl⟩

/-! ## Broker -/

theorem sendMessage_hands_encrypted (enc : AESGCM) (transport : String → Message → Option String)
    (b : Broker) (message message1 handed : Message) (nanos rnd : Nat) (peerID : String)
    (err : Option String)
    (h : Broker.SendMessage enc transport b message nanos rnd =
      SendOutcome.returned message1 (some (peerID, handed)) err) :
    (message.Type_ ≠ MessageType.health →
      ∃ plaintext encrypted, message.Payload = Payload.bytes plaintext ∧
        enc.Encrypt plaintext = Except.ok encrypted ∧
        handed = { message with Payload := Payload.bytes encrypted }) ∧
    (message.Type_ = MessageType.health → handed = message) := by
  have hsel : ∀ m : Message,
      (match b.loadBalancer.SelectPeer m.To nanos rnd with
        | none =>
          SendOutcome.returned m none (some ("no available peer for destination: " ++ m.To))
        | some peer => SendOutcome.returned m (some (peer.ID, m)) (transport peer.ID m)) =
        SendOutcome.returned message1 (some (peerID, handed)) err → handed = m := by
    intro m hm
    cases hp : b.loadBalancer.SelectPeer m.To nanos rnd with
    | none => simp [hp] at hm
    | some peer =>
      simp only [hp, SendOutcome.returned.injEq, Option.some.injEq, Prod.mk.injEq] at hm
      exact hm.2.1.2.symm
  unfold Broker.SendMessage at h
  simp only [] at h
  constructor
  · intro ht
    simp only [ht, ne_eq, not_false_eq_true, if_true] at h
    cases hp : message.Payload with
    | bytes plaintext =>
      simp only [hp] at h
      cases he : enc.Encrypt plaintext with
      | error e => simp [he] at h
      | ok encrypted =>
        simp only [he] at h
        exact ⟨plaintext, encrypted, rfl, he, hsel _ h⟩
    | round r => simp [hp] at h
    | fields x y => simp [hp] at h
    | other => simp [hp] at h
    | gossip x1 x2 x3 x4 x5 => simp [hp] at h
  · intro ht
    simp only [ht, ne_eq, not_true_eq_false, if_false] at h
    exact hsel _ h

/-- C20 (evaluation of the code at the failing input). The broker with peers A and B
is given the chat message c1 with the plaintext payload hi. BroadcastMessage
hands the message to the transports of A and B with the payload unchanged, the
plaintext, whereas SendMessage hands it to B with the payload replaced by the
output of the cipher. -/
theorem broadcast_hands_over_plaintext :
    chatMsg.Type_ ≠ MessageType.health ∧
    chatMsg.Payload = Payload.bytes [104, 105] ∧
    (Broker.BroadcastMessage okTransport meshBroker chatMsg).1 =
      [("A", chatMsg), ("B", chatMsg)] ∧
    Broker.SendMessage toyCipher okTransport meshBroker chatMsg 0 0 =
      SendOutcome.returned
        { chatMsg with Payload := Payload.bytes [0, 0, 0, 0, 0, 0, 0, 0, 0, 0, 0, 0, 105, 106] }
        (some ("B",
          { chatMsg with
            Payload := Payload.bytes [0, 0, 0, 0, 0, 0, 0, 0, 0, 0, 0, 0, 105, 106] }))
        none := by
  decide

/-! ## Failover manager: failed-peer records -/

theorem mapGet_filter_nodup {β : Type} (m : List (String × β)) (f : String × β → Bool)
    (k : String) (hnd : (mapKeys m).Nodup) :
    mapGet (m.filter f) k =
      match mapGet m k with
      | some v => if f (k, v) = true then some v else none
      | none => none := by
  induction m with
  | nil => simp [mapGet]
  | cons kv m ih =>
    obtain ⟨a, w⟩ := kv
    simp only [mapKeys, List.map_cons, List.nodup_cons] at hnd
    have ih1 := ih hnd.2
    by_cases h1 : a = k
    · subst h1
      have hnone : mapGet m a = none := by
        cases hg : mapGet m a with
        | none => rfl
        | some v =>
          exact absurd (List.mem_map_of_mem Prod.fst (mapGet_mem m a v hg)) hnd.1
      by_cases h2 : f (a, w) = true
      · simp [List.filter, h2, mapGet]
      · simp only [List.filter, h2, mapGet, if_true]
        rw [ih1, hnone]
        simp
    · by_cases h2 : f (a, w) = true
      · simp [List.filter, h2, mapGet, h1, ih1]
      · simp [List.filter, h2, mapGet, h1, ih1]

/-- C26. HandlePeerFailure keeps the record of the peer under its id. A missing
record is created with the peer, the current time as failure time and count 0.
The count of the record then grows by exactly one and last-retry becomes the
current time; the peer and the failure time of an existing record stay as they
are, and so do the records of all other ids and the rest of the manager. A
reconnect attempt (a scheduleRetry for the id) is started exactly when the new
count is below maxRetries. -/
theorem handlePeerFailure_updates_record (fm : FailoverManager) (peer : Peer) (now : Int) :
    (∃ info, mapGet (fm.HandlePeerFailure peer now).1.failedPeers peer.ID = some info ∧
      info.RetryCount =
        ((mapGet fm.failedPeers peer.ID).map (fun old => old.RetryCount)).getD 0 + 1 ∧
      info.LastRetry = now ∧
      info.FailureTime =
        ((mapGet fm.failedPeers peer.ID).map (fun old => old.FailureTime)).getD now ∧
      info.Peer = ((mapGet fm.failedPeers peer.ID).map (fun old => old.Peer)).getD peer ∧
      ((fm.HandlePeerFailure peer now).2 = [peer.ID] ↔ info.RetryCount < fm.maxRetries) ∧
      ((fm.HandlePeerFailure peer now).2 = [] ↔ ¬ info.RetryCount < fm.maxRetries)) ∧
    (∀ id, id ≠ peer.ID →
      mapGet (fm.HandlePeerFailure peer now).1.failedPeers id = mapGet fm.failedPeers id) ∧
    (fm.HandlePeerFailure peer now).1.peers = fm.peers ∧
    (fm.HandlePeerFailure peer now).1.maxRetries = fm.maxRetries ∧
    (fm.HandlePeerFailure peer now).1.retryInterval = fm.retryInterval := by
  cases h : mapGet fm.failedPeers peer.ID with
  | none =>
    rw [handlePeerFailure_none fm peer now h]
    refine ⟨⟨_, mapGet_mapSet_self _ _ _, ?_, rfl, ?_, ?_, ?_, ?_⟩, ?_, rfl, rfl, rfl⟩
    · simp
    · simp
    · simp
    · by_cases hm : (1 : Int) ≥ fm.maxRetries
      · simp [hm]
      · simp [hm]; omega
    · by_cases hm : (1 : Int) ≥ fm.maxRetries
      · simp [hm]
      · simp [hm]
    · intro id hid
      exact mapGet_mapSet_ne _ _ _ _ (fun e => hid e.symm)
  | some old =>
    rw [handlePeerFailure_some fm peer now old h]
    refine ⟨⟨_, mapGet_mapSet_self _ _ _, ?_, rfl, ?_, ?_, ?_, ?_⟩, ?_, rfl, rfl, rfl⟩
    · simp
    · simp
    · simp
    · by_cases hm : old.RetryCount + 1 ≥ fm.maxRetries
      · simp [hm]
      · simp [hm]; omega
    · by_cases hm : old.RetryCount + 1 ≥ fm.maxRetries
      · simp [hm]
      · simp [hm]
    · intro id hid
      exact mapGet_mapSet_ne _ _ _ _ (fun e => hid e.symm)

/-- C26 (witness). The first failure of peer p at second 30 creates its record with
count 1 and starts a retry; the record of another id stays absent. -/
theorem handlePeerFailure_updates_record_witness :
    mapGet (NewFailoverManager.HandlePeerFailure flakyPeer 30000000000).1.failedPeers "p" =
      some { Peer := flakyPeer, FailureTime := 30000000000, RetryCount := 1,
             LastRetry := 30000000000 } ∧
    (NewFailoverManager.HandlePeerFailure flakyPeer 30000000000).2 = ["p"] ∧
    mapGet (NewFailoverManager.HandlePeerFailure flakyPeer 30000000000).1.failedPeers "q" =
      mapGet NewFailoverManager.failedPeers "q" :=
  ⟨by decide, by decide,
    (handlePeerFailure_updates_record NewFailoverManager flakyPeer 30000000000).2.1 "q"
      (by decide)⟩

/-- C28. The Cleanup sweep at time now deletes exactly the failed-peer records whose
count is at least maxRetries and whose last retry lies more than twice the retry
interval before now: the entries left are the other entries, unchanged and in
their order, a lookup (keys being unique, as in a Go map) finds the old record
unless it was deleted, and nothing else of the manager changes. -/
theorem cleanup_removes_exactly_expired (fm : FailoverManager) (now : Int) :
    (∀ kv, kv ∈ (fm.Cleanup now).failedPeers ↔
      kv ∈ fm.failedPeers ∧
        ¬ (kv.2.RetryCount ≥ fm.maxRetries ∧ now - kv.2.LastRetry > fm.retryInterval * 2)) ∧
    (fm.Cleanup now).failedPeers.Sublist fm.failedPeers ∧
    ((mapKeys fm.failedPeers).Nodup → ∀ id,
      mapGet (fm.Cleanup now).failedPeers id =
        match mapGet fm.failedPeers id with
        | some info =>
          if info.RetryCount ≥ fm.maxRetries ∧ now - info.LastRetry > fm.retryInterval * 2
          then none else some info
        | none => none) ∧
    (fm.Cleanup now).peers = fm.peers ∧
    (fm.Cleanup now).maxRetries = fm.maxRetries ∧
    (fm.Cleanup now).retryInterval = fm.retryInterval := by
  refine ⟨?_, ?_, ?_, rfl, rfl, rfl⟩
  · intro kv
    simp only [FailoverManager.Cleanup, List.mem_filter, decide_eq_true_eq]
  · exact List.filter_sublist _
  · intro hnd id
    simp only [FailoverManager.Cleanup]
    rw [mapGet_filter_nodup _ _ _ hnd]
    cases mapGet fm.failedPeers id with
    | none => rfl
    | some info =>
      by_cases hc : info.RetryCount ≥ fm.maxRetries ∧
          now - info.LastRetry > fm.retryInterval * 2
      · simp [hc]
      · simp [hc]

/-- C28 (witness). At second 200 the sweep deletes the record of p (given up, last
retry 80 s ago) and keeps those of q (given up, last retry 50 s ago) and r (still
retried). -/
theorem cleanup_removes_exactly_expired_witness :
    (mapKeys sweepManager.failedPeers).Nodup ∧
    mapGet (sweepManager.Cleanup 200000000000).failedPeers "p" = none ∧
    mapGet (sweepManager.Cleanup 200000000000).failedPeers "q" =
      mapGet sweepManager.failedPeers "q" ∧
    mapGet (sweepManager.Cleanup 200000000000).failedPeers "r" =
      mapGet sweepManager.failedPeers "r" ∧
    (mapGet (sweepManager.Cleanup 200000000000).failedPeers "p" =
      match mapGet sweepManager.failedPeers "p" with
      | some info =>
        if info.RetryCount ≥ sweepManager.maxRetries ∧
            200000000000 - info.LastRetry > sweepManager.retryInterval * 2
        then none else some info
      | none => none) :=
  ⟨by decide, by decide, by decide, by decide,
    (cleanup_removes_exactly_expired sweepManager 200000000000).2.2.1 (by decide) "p"⟩

theorem scheduleRetry_fail_step (s : FailoverSystem) (p : Peer) (info : FailedPeerInfo)
    (t : Int) (hget : mapGet s.fm.failedPeers p.ID = some info) (hp : info.Peer = p)
    (hpend : p.ID ∈ s.pending) (hlt : info.RetryCount + 1 < s.fm.maxRetries) :
    mapGet (s.step (FailoverEvent.retryFires p.ID false t)).fm.failedPeers p.ID =
      some { info with RetryCount := info.RetryCount + 1, LastRetry := t } ∧
    p.ID ∈ (s.step (FailoverEvent.retryFires p.ID false t)).pending ∧
    (s.step (FailoverEvent.retryFires p.ID false t)).fm.maxRetries = s.fm.maxRetries := by
  have hnot : ¬ info.RetryCount + 1 ≥ s.fm.maxRetries := by omega
  simp only [FailoverSystem.step, hpend, if_true, FailoverManager.scheduleRetry, hget,
    Bool.false_eq_true, if_false, hp, handlePeerFailure_some s.fm p t info hget, hnot]
  refine ⟨mapGet_mapSet_self _ _ _, ?_, by first | rfl | trivial⟩
  simp

theorem failed_reconnects_count (p : Peer) (ts : List Int) :
    ∀ (s : FailoverSystem) (info : FailedPeerInfo),
      mapGet s.fm.failedPeers p.ID = some info → info.Peer = p → p.ID ∈ s.pending →
      info.RetryCount + ts.length < s.fm.maxRetries →
      ∃ info1,
        mapGet (s.run (ts.map (fun t => FailoverEvent.retryFires p.ID false t))).fm.failedPeers
          p.ID = some info1 ∧
        info1.Peer = p ∧ info1.RetryCount = info.RetryCount + ts.length ∧
        info1.FailureTime = info.FailureTime ∧
        p.ID ∈ (s.run (ts.map (fun t => FailoverEvent.retryFires p.ID false t))).pending := by
  induction ts with
  | nil =>
    intro s info hget hp hpend _
    exact ⟨info, by simpa [FailoverSystem.run] using hget, hp, by simp, rfl,
      by simpa [FailoverSystem.run] using hpend⟩
  | cons t ts ih =>
    intro s info hget hp hpend hlt
    simp only [List.length_cons, Nat.cast_add, Nat.cast_one] at hlt
    obtain ⟨h1, h2, h3⟩ := scheduleRetry_fail_step s p info t hget hp hpend (by omega)
    obtain ⟨info1, g1, g2, g3, g4, g5⟩ :=
      ih (s.step (FailoverEvent.retryFires p.ID false t)) _ h1 hp h2
        (by rw [h3]; simp only []; omega)
    refine ⟨info1, ?_, g2, ?_, g4, ?_⟩
    · simpa [FailoverSystem.run] using g1
    · rw [g3]
      simp only [List.length_cons, Nat.cast_add, Nat.cast_one]
      omega
    · simpa [FailoverSystem.run] using g5

/-- C27. A scheduled retry whose reconnect succeeds deletes the failed-peer record
and calls SetHealthy(true) on the peer of the record; one whose reconnect fails
raises the count of the record by one. Hence, from a state where peer p has no
record, a failed health check followed by k-1 failed reconnects (at the clock
readings ts, with k = length ts + 1 < maxRetries) passes through the counts
1, 2, ..., k with a retry asleep for p at the end, and a successful reconnect
then leaves no record for p and marks p healthy. -/
theorem reconnect_chain_recovers (s : FailoverSystem) (p : Peer) (t0 : Int) (ts : List Int)
    (tk : Int) (hnone : mapGet s.fm.failedPeers p.ID = none)
    (hk : (ts.length : Int) + 1 < s.fm.maxRetries) :
    (∀ (fm : FailoverManager) (peerID : String) (info : FailedPeerInfo) (now : Int),
      mapGet fm.failedPeers peerID = some info →
        fm.scheduleRetry peerID true now =
          ({ fm with failedPeers := mapDelete fm.failedPeers peerID }, [], some info.Peer) ∧
        (info.Peer.ID = peerID →
          mapGet (fm.scheduleRetry peerID false now).1.failedPeers peerID =
            some { info with RetryCount := info.RetryCount + 1, LastRetry := now } ∧
          (fm.scheduleRetry peerID false now).2.2 = none)) ∧
    (∀ j, j ≤ ts.length →
      ∃ info,
        mapGet (s.run (FailoverEvent.healthCheckFailed p t0 ::
          (ts.take j).map (fun t => FailoverEvent.retryFires p.ID false t))).fm.failedPeers
            p.ID = some info ∧
        info.RetryCount = (j : Int) + 1 ∧ info.Peer = p) ∧
    p.ID ∈ (s.run (FailoverEvent.healthCheckFailed p t0 ::
      ts.map (fun t => FailoverEvent.retryFires p.ID false t))).pending ∧
    ((s.run (FailoverEvent.healthCheckFailed p t0 ::
      ts.map (fun t => FailoverEvent.retryFires p.ID false t))).fm.scheduleRetry
        p.ID true tk).2.2 = some p ∧
    mapGet (s.run (FailoverEvent.healthCheckFailed p t0 ::
      (ts.map (fun t => FailoverEvent.retryFires p.ID false t) ++
        [FailoverEvent.retryFires p.ID true tk]))).fm.failedPeers p.ID = none := by
  have hfirst : ¬ (1 : Int) ≥ s.fm.maxRetries := by omega
  have hstep : s.step (FailoverEvent.healthCheckFailed p t0) =
      { fm := { s.fm with
                failedPeers := mapSet s.fm.failedPeers p.ID
                  { Peer := p, FailureTime := t0, RetryCount := 1, LastRetry := t0 } }
        pending := s.pending ++ [p.ID] } := by
    simp only [FailoverSystem.step, handlePeerFailure_none s.fm p t0 hnone, hfirst, if_false]
  have hrun : ∀ es, s.run (FailoverEvent.healthCheckFailed p t0 :: es) =
      (s.step (FailoverEvent.healthCheckFailed p t0)).run es := by
    intro es
    simp [FailoverSystem.run]
  have hget1 : mapGet (s.step (FailoverEvent.healthCheckFailed p t0)).fm.failedPeers p.ID =
      some { Peer := p, FailureTime := t0, RetryCount := 1, LastRetry := t0 } := by
    rw [hstep]
    exact mapGet_mapSet_self _ _ _
  have hpend1 : p.ID ∈ (s.step (FailoverEvent.healthCheckFailed p t0)).pending := by
    rw [hstep]
    simp
  have hmax1 : (s.step (FailoverEvent.healthCheckFailed p t0)).fm.maxRetries =
      s.fm.maxRetries := by
    rw [hstep]
  refine ⟨?_, ?_, ?_⟩
  · intro fm peerID info now hget
    refine ⟨by simp [FailoverManager.scheduleRetry, hget], ?_⟩
    intro hid
    subst hid
    simp only [FailoverManager.scheduleRetry, hget, Bool.false_eq_true, if_false,
      handlePeerFailure_some fm info.Peer now info hget, and_true]
    exact mapGet_mapSet_self _ _ _
  · intro j hj
    rw [hrun]
    obtain ⟨info1, g1, g2, g3, _, _⟩ :=
      failed_reconnects_count p (ts.take j) _ _ hget1 rfl hpend1
        (by
          rw [hmax1]
          simp only [List.length_take, Nat.min_eq_left hj]
          have : (j : Int) ≤ ts.length := by exact_mod_cast hj
          omega)
    refine ⟨info1, g1, ?_, g2⟩
    rw [g3]
    simp only [List.length_take, Nat.min_eq_left hj]
    omega
  · obtain ⟨info1, g1, g2, _, _, g5⟩ :=
      failed_reconnects_count p ts _ _ hget1 rfl hpend1
        (by rw [hmax1]; simp only []; omega)
    rw [hrun] at *
    refine ⟨g5, ?_, ?_⟩
    · simp [FailoverManager.scheduleRetry, g1, g2]
    · rw [hrun]
      simp only [FailoverSystem.run, List.foldl_append, List.foldl_cons, List.foldl_nil]
      simp only [FailoverSystem.run] at g1 g5
      generalize List.foldl FailoverSystem.step
        (s.step (FailoverEvent.healthCheckFailed p t0))
        (List.map (fun t => FailoverEvent.retryFires p.ID false t) ts) = s1 at g1 g5 ⊢
      simp only [FailoverSystem.step, g5, if_true, FailoverManager.scheduleRetry, g1]
      simp [mapGet_mapDelete]

/-- C27 (witness). With maxRetries 5: the health check of p fails at second 30, the
reconnects at seconds 60 and 90 fail, the one at second 120 succeeds (k = 3). The
count is 3 after the failures, and no record is left at the end. -/
theorem reconnect_chain_recovers_witness :
    mapGet FailoverSystem.init.fm.failedPeers flakyPeer.ID = none ∧
    (([60000000000, 90000000000] : List Int).length : Int) + 1 <
      FailoverSystem.init.fm.maxRetries ∧
    (∃ info,
      mapGet (FailoverSystem.init.run (FailoverEvent.healthCheckFailed flakyPeer 30000000000 ::
        (([60000000000, 90000000000] : List Int).take 2).map
          (fun t => FailoverEvent.retryFires flakyPeer.ID false t))).fm.failedPeers
            flakyPeer.ID = some info ∧
      info.RetryCount = ((2 : Nat) : Int) + 1 ∧ info.Peer = flakyPeer) ∧
    mapGet (FailoverSystem.init.run (FailoverEvent.healthCheckFailed flakyPeer 30000000000 ::
      (([60000000000, 90000000000] : List Int).map
          (fun t => FailoverEvent.retryFires flakyPeer.ID false t) ++
        [FailoverEvent.retryFires flakyPeer.ID true 120000000000]))).fm.failedPeers
          flakyPeer.ID = none :=
  ⟨by decide, by decide,
    (reconnect_chain_recovers FailoverSystem.init flakyPeer 30000000000
      [60000000000, 90000000000] 120000000000 (by decide) (by decide)).2.1 2 (by decide),
    (reconnect_chain_recovers FailoverSystem.init flakyPeer 30000000000
      [60000000000, 90000000000] 120000000000 (by decide) (by decide)).2.2.2.2⟩

/-! ## Broker: broadcast and dispatch of incoming messages -/

theorem broadcastLoop_sends (transport : String → Message → Option String) (message : Message)
    (peers : List Peer) :
    (Broker.broadcastLoop transport message peers).1 = peers.map (fun p => (p.ID, message)) := by
  induction peers with
  | nil => rfl
  | cons p rest ih =>
    simp only [Broker.broadcastLoop, List.map_cons]
    cases transport p.ID message <;> simp [ih]

theorem broadcastLoop_errors (transport : String → Message → Option String) (message : Message)
    (peers : List Peer) :
    (Broker.broadcastLoop transport message peers).2 =
      peers.filterMap (fun p => (transport p.ID message).map (fun e => (p.ID, e))) := by
  induction peers with
  | nil => rfl
  | cons p rest ih =>
    simp only [Broker.broadcastLoop]
    cases h : transport p.ID message <;> simp [ih, List.filterMap_cons, h]

/-- C21. BroadcastMessage hands the message to the transport once for every entry
of the peer table, in the order of the table, whatever the transport returns: the
peers behind one whose send failed are sent to as well. It returns nil, and the
errors it logs are those of the failed sends. -/
theorem broadcast_attempts_every_peer (transport : String → Message → Option String)
    (b : Broker) (message : Message) :
    (Broker.BroadcastMessage transport b message).1 =
      b.peers.map (fun kv => (kv.2.ID, message)) ∧
    (Broker.BroadcastMessage transport b message).1.length = b.peers.length ∧
    (∀ before kv after, b.peers = before ++ kv :: after →
      transport kv.2.ID message ≠ none →
      ∀ q ∈ after, (q.2.ID, message) ∈ (Broker.BroadcastMessage transport b message).1) ∧
    (Broker.BroadcastMessage transport b message).2 = none ∧
    Broker.broadcastErrors transport b message =
      b.peers.filterMap (fun kv => (transport kv.2.ID message).map (fun e => (kv.2.ID, e))) := by
  have hs : (Broker.BroadcastMessage transport b message).1 =
      b.peers.map (fun kv => (kv.2.ID, message)) := by
    simp [Broker.BroadcastMessage, broadcastLoop_sends, List.map_map, Function.comp_def]
  refine ⟨hs, by simp [hs], ?_, rfl, ?_⟩
  · intro before kv after hsplit _ q hq
    rw [hs, hsplit]
    simp only [List.map_append, List.map_cons, List.mem_append, List.mem_cons, List.mem_map]
    exact Or.inr (Or.inr ⟨q, hq, rfl⟩)
  · simp [Broker.broadcastErrors, broadcastLoop_errors, List.filterMap_map, Function.comp_def]

/-- C21 (witness). The send to A fails; the message is still handed to B, which
comes after A in the table, and nil is returned. -/
theorem broadcast_attempts_every_peer_witness :
    meshBroker.peers = [] ++ ("A", peerA) :: [("B", peerB)] ∧
    flakyTransport peerA.ID chatMsg ≠ none ∧
    ("B", chatMsg) ∈ (Broker.BroadcastMessage flakyTransport meshBroker chatMsg).1 ∧
    (Broker.BroadcastMessage flakyTransport meshBroker chatMsg).1 =
      [("A", chatMsg), ("B", chatMsg)] ∧
    (Broker.BroadcastMessage flakyTransport meshBroker chatMsg).2 = none ∧
    Broker.broadcastErrors flakyTransport meshBroker chatMsg = [("A", "connection refused")] :=
  ⟨by decide, by decide,
    (broadcast_attempts_every_peer flakyTransport meshBroker chatMsg).2.2.1
      [] ("A", peerA) [("B", peerB)] (by decide) (by decide) ("B", peerB) (by decide),
    by decide, by decide, by decide⟩

/-- C22. When the payload of an incoming message that is not a health message is a
byte slice and its decryption fails, HandleMessage returns an error and stops:
the broker is unchanged, so no protocol has been handed the message, nothing is
logged for a protocol, and the message keeps its payload. -/
theorem handleMessage_fails_closed (enc : AESGCM) (handler : String → Message → Option String)
    (b : Broker) (message : Message) (ciphertext : Bytes) (e : String)
    (htype : message.Type_ ≠ MessageType.health)
    (hpayload : message.Payload = Payload.bytes ciphertext)
    (hfail : enc.Decrypt ciphertext = Except.error e) :
    (Broker.HandleMessage enc handler b message).err =
      some ("failed to decrypt message: " ++ e) ∧
    (Broker.HandleMessage enc handler b message).broker = b ∧
    (∀ kv ∈ (Broker.HandleMessage enc handler b message).broker.protocols,
      kv ∈ b.protocols) ∧
    (Broker.HandleMessage enc handler b message).logged = [] ∧
    (Broker.HandleMessage enc handler b message).message = message := by
  simp [Broker.HandleMessage, htype, hpayload, hfail]

/-- C22 (witness). With a cipher that rejects the payload of sealedMsg the call
returns the decryption error, and the protocols flooding and gossip have handled
nothing. -/
theorem handleMessage_fails_closed_witness :
    sealedMsg.Type_ ≠ MessageType.health ∧
    (Broker.HandleMessage brokenCipher failingHandler routingBroker sealedMsg).err =
      some ("failed to decrypt message: " ++ "cipher: message authentication failed") ∧
    (Broker.HandleMessage brokenCipher failingHandler routingBroker sealedMsg).broker =
      routingBroker ∧
    routingBroker.protocols.map (fun kv => (kv.1, kv.2.handled)) =
      [("flooding", []), ("gossip", [])] :=
  ⟨by decide,
    (handleMessage_fails_closed brokenCipher failingHandler routingBroker sealedMsg
      [0, 0, 0, 0, 0, 0, 0, 0, 0, 0, 0, 0, 105, 106] "cipher: message authentication failed"
      (by decide) rfl rfl).1,
    (handleMessage_fails_closed brokenCipher failingHandler routingBroker sealedMsg
      [0, 0, 0, 0, 0, 0, 0, 0, 0, 0, 0, 0, 105, 106] "cipher: message authentication failed"
      (by decide) rfl rfl).2.1,
    by decide⟩

/-- C23. A message passes decryption when it is a health message, when its payload
is not a byte slice, or when the cipher decrypts its byte payload. HandleMessage
then returns nil and has called HandleIncomingMessage of every registered
protocol exactly once, with the message in its final state (the plaintext in
place of a decrypted payload), whatever errors the handlers return; those errors
are logged only. -/
theorem handleMessage_dispatches_to_all (enc : AESGCM)
    (handler : String → Message → Option String) (b : Broker) (message : Message)
    (hpass : message.Type_ = MessageType.health ∨
      ∀ ciphertext, message.Payload = Payload.bytes ciphertext →
        ∃ plaintext, enc.Decrypt ciphertext = Except.ok plaintext) :
    (Broker.HandleMessage enc handler b message).err = none ∧
    (Broker.HandleMessage enc handler b message).broker.protocols =
      b.protocols.map (fun kv =>
        (kv.1, { kv.2 with
          handled := kv.2.handled ++ [(Broker.HandleMessage enc handler b message).message] })) ∧
    (Broker.HandleMessage enc handler b message).logged =
      b.protocols.filterMap (fun kv =>
        (handler kv.1 (Broker.HandleMessage enc handler b message).message).map
          (fun e => (kv.1, e))) ∧
    (Broker.HandleMessage enc handler b message).message =
      (if message.Type_ = MessageType.health then message
       else
         match message.Payload with
         | Payload.bytes ciphertext =>
           match enc.Decrypt ciphertext with
           | Except.ok plaintext => { message with Payload := Payload.bytes plaintext }
           | Except.error _ => message
         | _ => message) := by
  by_cases ht : message.Type_ = MessageType.health
  · simp only [Broker.HandleMessage, ht, ne_eq, not_true_eq_false, if_false, if_true]
    exact ⟨rfl, rfl, rfl, rfl⟩
  · have hdec : ∀ ciphertext, message.Payload = Payload.bytes ciphertext →
        ∃ plaintext, enc.Decrypt ciphertext = Except.ok plaintext := by
      rcases hpass with h | h
      · exact absurd h ht
      · exact h
    simp only [Broker.HandleMessage, ht, ne_eq, not_false_eq_true, if_true, if_false]
    cases hp : message.Payload with
    | bytes ciphertext =>
      obtain ⟨plaintext, hok⟩ := hdec ciphertext hp
      simp only [hok]
      exact ⟨rfl, rfl, rfl, rfl⟩
    | round r => exact ⟨rfl, rfl, rfl, rfl⟩
    | fields a c => exact ⟨rfl, rfl, rfl, rfl⟩
    | other => exact ⟨rfl, rfl, rfl, rfl⟩
    | gossip a1 a2 a3 a4 a5 => exact ⟨rfl, rfl, rfl, rfl⟩

/-- C23 (witness). The handler of flooding returns an error; flooding and gossip are
each handed the decrypted chat message once, and the call returns nil. -/
theorem handleMessage_dispatches_to_all_witness :
    (∀ ciphertext, sealedMsg.Payload = Payload.bytes ciphertext →
      ∃ plaintext, toyCipher.Decrypt ciphertext = Except.ok plaintext) ∧
    failingHandler "flooding" chatMsg ≠ none ∧
    (Broker.HandleMessage toyCipher failingHandler routingBroker sealedMsg).err = none ∧
    (Broker.HandleMessage toyCipher failingHandler routingBroker sealedMsg).message = chatMsg ∧
    (Broker.HandleMessage toyCipher failingHandler routingBroker sealedMsg).broker.protocols.map
      (fun kv => (kv.1, kv.2.handled)) = [("flooding", [chatMsg]), ("gossip", [chatMsg])] ∧
    (Broker.HandleMessage toyCipher failingHandler routingBroker sealedMsg).logged =
      [("flooding", "invalid payload")] :=
  ⟨fun c _ => ⟨_, rfl⟩, by decide,
    (handleMessage_dispatches_to_all toyCipher failingHandler routingBroker sealedMsg
      (Or.inr (fun c _ => ⟨_, rfl⟩))).1,
    by decide, by decide, by decide⟩

/-! ## Broker: the peer tables -/

theorem mem_mapKeys_mapSet {β : Type} (m : List (String × β)) (k : String) (v : β)
    (id : String) : id ∈ mapKeys (mapSet m k v) ↔ id ∈ mapKeys m ∨ id = k := by
  unfold mapKeys
  rw [mapSet_keys]
  split_ifs with h
  · constructor
    · exact Or.inl
    · rintro (h1 | h1)
      · exact h1
      · exact h1 ▸ h
  · simp

theorem mem_mapKeys_mapDelete {β : Type} (m : List (String × β)) (k : String) (id : String) :
    id ∈ mapKeys (mapDelete m k) ↔ id ∈ mapKeys m ∧ id ≠ k := by
  induction m with
  | nil => simp [mapDelete, mapKeys]
  | cons a m ih =>
    obtain ⟨a1, a2⟩ := a
    simp only [mapKeys] at ih
    by_cases h : a1 = k
    · subst h
      simp only [mapDelete, if_true, mapKeys, ih, List.map_cons, List.mem_cons]
      constructor
      · rintro ⟨h1, h2⟩
        exact ⟨Or.inr h1, h2⟩
      · rintro ⟨h1 | h1, h2⟩
        · exact absurd h1 h2
        · exact ⟨h1, h2⟩
    · simp only [mapDelete, h, if_false, mapKeys, List.map_cons, List.mem_cons, ih]
      constructor
      · rintro (h1 | ⟨h1, h2⟩)
        · exact ⟨Or.inl h1, fun e => h (h1 ▸ e)⟩
        · exact ⟨Or.inr h1, h2⟩
      · rintro ⟨h1 | h1, h2⟩
        · exact Or.inl h1
        · exact Or.inr ⟨h1, h2⟩

theorem mapDelete_sublist {β : Type} (m : List (String × β)) (k : String) :
    (mapDelete m k).Sublist m := by
  induction m with
  | nil => simp [mapDelete]
  | cons a m ih =>
    obtain ⟨a1, a2⟩ := a
    by_cases h : a1 = k
    · simp only [mapDelete, h, if_true]
      exact List.Sublist.cons _ ih
    · simp only [mapDelete, h, if_false]
      exact List.Sublist.cons₂ _ ih

theorem mapDelete_keys_nodup {β : Type} (m : List (String × β)) (k : String)
    (h : (mapKeys m).Nodup) : (mapKeys (mapDelete m k)).Nodup :=
  List.Nodup.sublist ((mapDelete_sublist m k).map Prod.fst) h

theorem mapGet_eq_none_iff {β : Type} (m : List (String × β)) (k : String) :
    mapGet m k = none ↔ k ∉ mapKeys m := by
  induction m with
  | nil => simp [mapGet, mapKeys]
  | cons a m ih =>
    obtain ⟨a1, a2⟩ := a
    simp only [mapKeys] at ih
    by_cases h : a1 = k
    · simp [mapGet, mapKeys, h]
    · have h2 : ¬ k = a1 := fun e => h e.symm
      simp [mapGet, mapKeys, h, h2, ih]

theorem mapDelete_of_not_mem {β : Type} (m : List (String × β)) (k : String)
    (h : k ∉ mapKeys m) : mapDelete m k = m := by
  induction m with
  | nil => rfl
  | cons a m ih =>
    obtain ⟨a1, a2⟩ := a
    simp only [mapKeys, List.map_cons, List.mem_cons, not_or] at h
    have h1 : ¬ a1 = k := fun e => h.1 e.symm
    simp only [mapDelete, h1, if_false]
    rw [ih h.2]

theorem mapDelete_mapSet_new {β : Type} (m : List (String × β)) (k : String) (v : β)
    (h : k ∉ mapKeys m) : mapDelete (mapSet m k v) k = m := by
  induction m with
  | nil => simp [mapSet, mapDelete]
  | cons a m ih =>
    obtain ⟨a1, a2⟩ := a
    simp only [mapKeys, List.map_cons, List.mem_cons, not_or] at h
    have h1 : ¬ a1 = k := fun e => h.1 e.symm
    simp only [mapSet, h1, if_false, mapDelete]
    rw [ih h.2]

theorem mem_keysAdd (l : List String) (k id : String) :
    id ∈ keysAdd l k ↔ id ∈ l ∨ id = k := by
  induction l with
  | nil => simp [keysAdd]
  | cons a l ih =>
    by_cases h : a = k
    · subst h
      simp only [keysAdd, if_true, List.mem_cons]
      constructor
      · exact Or.inl
      · rintro (h1 | h1)
        · exact h1
        · exact Or.inl h1
    · simp only [keysAdd, h, if_false, List.mem_cons, ih]
      constructor
      · rintro (h1 | h1 | h1)
        · exact Or.inl (Or.inl h1)
        · exact Or.inl (Or.inr h1)
        · exact Or.inr h1
      · rintro ((h1 | h1) | h1)
        · exact Or.inl h1
        · exact Or.inr (Or.inl h1)
        · exact Or.inr (Or.inr h1)

theorem keysAdd_of_mem (l : List String) (k : String) (h : k ∈ l) : keysAdd l k = l := by
  induction l with
  | nil => simp at h
  | cons a l ih =>
    by_cases h1 : a = k
    · simp [keysAdd, h1]
    · have h2 : k ∈ l := by
        rcases List.mem_cons.1 h with e | e
        · exact absurd e.symm h1
        · exact e
      simp [keysAdd, h1, ih h2]

theorem filter_keysAdd_new (l : List String) (k : String) (h : k ∉ l) :
    (keysAdd l k).filter (fun x => x ≠ k) = l := by
  induction l with
  | nil => simp [keysAdd]
  | cons a l ih =>
    simp only [List.mem_cons, not_or] at h
    have h1 : ¬ a = k := fun e => h.1 e.symm
    have h2 := ih h.2
    simp only [keysAdd, h1, if_false, List.filter_cons, ne_eq, not_false_eq_true,
      decide_True, if_true]
    exact congrArg (fun t => a :: t) h2

theorem lb_keys_addPeer (lb : LoadBalancer) (peer : Peer) (id : String) :
    id ∈ mapKeys (lb.AddPeer peer).peers ↔ id ∈ mapKeys lb.peers ∨ id = peer.ID := by
  unfold LoadBalancer.AddPeer
  cases h : mapGet lb.peers peer.ID with
  | some q =>
    have hk : peer.ID ∈ mapKeys lb.peers := by
      by_contra hn
      rw [(mapGet_eq_none_iff _ _).2 hn] at h
      exact Option.noConfusion h
    constructor
    · exact Or.inl
    · rintro (h1 | h1)
      · exact h1
      · exact h1 ▸ hk
  | none => exact mem_mapKeys_mapSet _ _ _ _

theorem lb_keys_removePeer (lb : LoadBalancer) (peerID : String) (id : String) :
    id ∈ mapKeys (lb.RemovePeer peerID).peers ↔ id ∈ mapKeys lb.peers ∧ id ≠ peerID := by
  unfold LoadBalancer.RemovePeer
  cases h : mapGet lb.peers peerID with
  | some q => exact mem_mapKeys_mapDelete _ _ _
  | none =>
    have hk : peerID ∉ mapKeys lb.peers := (mapGet_eq_none_iff _ _).1 h
    constructor
    · intro h1
      exact ⟨h1, fun e => hk (e ▸ h1)⟩
    · exact fun h1 => h1.1

theorem backfill_peers (l : List (String × Peer)) :
    ∀ (pr : Protocol) (id : String),
      id ∈ (l.foldl (fun pr kv => pr.AddPeer kv.2) pr).peers ↔
        id ∈ pr.peers ∨ ∃ kv ∈ l, kv.2.ID = id := by
  induction l with
  | nil => simp
  | cons a l ih =>
    intro pr id
    rw [List.foldl_cons, ih]
    simp only [Protocol.AddPeer, mem_keysAdd, List.mem_cons, exists_eq_or_imp]
    constructor
    · rintro ((h | h) | h)
      · exact Or.inl h
      · exact Or.inr (Or.inl h.symm)
      · exact Or.inr (Or.inr h)
    · rintro (h | h | h)
      · exact Or.inl (Or.inl h)
      · exact Or.inl (Or.inr h.symm)
      · exact Or.inr h

theorem consistent_new (nodeID : String) : (NewBroker nodeID).Consistent := by
  refine ⟨wf_new, ?_, ?_, ?_, ?_, ?_⟩ <;>
    simp [NewBroker, NewLoadBalancer, NewFailoverManager, mapKeys]

theorem consistent_addPeer (b : Broker) (peer : Peer) (hc : b.Consistent) :
    (b.AddPeer peer).Consistent := by
  obtain ⟨hwf, hnd, hval, hlb, hfm, hpr⟩ := hc
  refine ⟨wf_addPeer _ _ hwf, mapSet_keys_nodup _ _ _ hnd, ?_, ?_, ?_, ?_⟩
  · intro kv hkv
    rcases mem_mapSet _ _ _ _ hkv with h | h
    · rw [h]
    · exact hval kv h
  · intro id
    simp only [Broker.AddPeer]
    rw [lb_keys_addPeer, mem_mapKeys_mapSet, hlb]
  · intro id
    simp only [Broker.AddPeer, FailoverManager.AddPeer]
    rw [mem_mapKeys_mapSet, mem_mapKeys_mapSet, hfm]
  · intro kv hkv id
    simp only [Broker.AddPeer, List.mem_map] at hkv
    obtain ⟨kv0, h0, rfl⟩ := hkv
    simp only [Broker.AddPeer, Protocol.AddPeer]
    rw [mem_keysAdd, mem_mapKeys_mapSet, hpr kv0 h0]

theorem removePeer_absent (b : Broker) (peerID : String) (h : mapGet b.peers peerID = none) :
    b.RemovePeer peerID = b := by
  simp only [Broker.RemovePeer, h]
  rw [mapDelete_of_not_mem _ _ ((mapGet_eq_none_iff _ _).1 h)]

theorem consistent_removePeer (b : Broker) (peerID : String) (hc : b.Consistent) :
    (b.RemovePeer peerID).Consistent := by
  cases h : mapGet b.peers peerID with
  | none =>
    rw [removePeer_absent b peerID h]
    exact hc
  | some q =>
    obtain ⟨hwf, hnd, hval, hlb, hfm, hpr⟩ := hc
    simp only [Broker.RemovePeer, h]
    refine ⟨wf_removePeer _ _ hwf, mapDelete_keys_nodup _ _ hnd, ?_, ?_, ?_, ?_⟩
    · intro kv hkv
      exact hval kv (mem_mapDelete _ _ _ hkv).1
    · intro id
      simp only []
      rw [lb_keys_removePeer, mem_mapKeys_mapDelete, hlb]
    · intro id
      simp only [FailoverManager.RemovePeer]
      rw [mem_mapKeys_mapDelete, mem_mapKeys_mapDelete, hfm]
    · intro kv hkv id
      simp only [List.mem_map] at hkv
      obtain ⟨kv0, h0, rfl⟩ := hkv
      simp only [Protocol.RemovePeer]
      rw [mem_mapKeys_mapDelete, ← hpr kv0 h0]
      simp [List.mem_filter]

theorem consistent_addProtocol (b : Broker) (name : String) (protocol : Protocol)
    (hc : b.Consistent) (hadm : ∀ id ∈ protocol.peers, id ∈ mapKeys b.peers) :
    (b.AddProtocol name protocol).Consistent := by
  obtain ⟨hwf, hnd, hval, hlb, hfm, hpr⟩ := hc
  refine ⟨hwf, hnd, hval, hlb, hfm, ?_⟩
  intro kv hkv id
  simp only [Broker.AddProtocol] at hkv ⊢
  rcases mem_mapSet _ _ _ _ hkv with h | h
  · rw [h]
    simp only []
    rw [backfill_peers]
    constructor
    · rintro (h1 | ⟨kv1, h1, h2⟩)
      · exact hadm id h1
      · rw [← h2, hval kv1 h1]
        exact List.mem_map_of_mem Prod.fst h1
    · intro h1
      obtain ⟨kv1, h2, h3⟩ := List.mem_map.1 h1
      exact Or.inr ⟨kv1, h2, by rw [hval kv1 h2, h3]⟩
  · exact hpr kv h id

theorem consistent_run (ops : List BrokerOp) :
    ∀ b : Broker, b.Consistent → b.Admits ops → (b.run ops).Consistent := by
  induction ops with
  | nil =>
    intro b hc _
    exact hc
  | cons op ops ih =>
    intro b hc hadm
    obtain ⟨h1, h2⟩ := hadm
    have hstep : (b.step op).Consistent := by
      cases op with
      | addPeer peer => exact consistent_addPeer b peer hc
      | removePeer peerID => exact consistent_removePeer b peerID hc
      | addProtocol name protocol => exact consistent_addProtocol b name protocol hc h1
    exact ih (b.step op) hstep h2

theorem tablesAgree_new (nodeID : String) : (NewBroker nodeID).TablesAgree := by
  refine ⟨wf_new, ?_, ?_, ?_, ?_, ?_⟩ <;>
    simp [NewBroker, NewLoadBalancer, NewFailoverManager, mapKeys]

theorem tablesAgree_addPeer (b : Broker) (peer : Peer) (hc : b.TablesAgree) :
    (b.AddPeer peer).TablesAgree := by
  obtain ⟨hwf, hnd, hval, hlb, hfm, hpr⟩ := hc
  refine ⟨wf_addPeer _ _ hwf, mapSet_keys_nodup _ _ _ hnd, ?_, ?_, ?_, ?_⟩
  · intro kv hkv
    rcases mem_mapSet _ _ _ _ hkv with h | h
    · rw [h]
    · exact hval kv h
  · intro id
    simp only [Broker.AddPeer]
    rw [lb_keys_addPeer, mem_mapKeys_mapSet, hlb]
  · intro id
    simp only [Broker.AddPeer, FailoverManager.AddPeer]
    rw [mem_mapKeys_mapSet, mem_mapKeys_mapSet, hfm]
  · intro kv hkv id hid
    simp only [Broker.AddPeer, List.mem_map] at hkv
    obtain ⟨kv0, h0, rfl⟩ := hkv
    simp only [Broker.AddPeer] at hid
    simp only [Protocol.AddPeer]
    rw [mem_keysAdd]
    rcases (mem_mapKeys_mapSet _ _ _ _).1 hid with h | h
    · exact Or.inl (hpr kv0 h0 id h)
    · exact Or.inr h

theorem tablesAgree_removePeer (b : Broker) (peerID : String) (hc : b.TablesAgree) :
    (b.RemovePeer peerID).TablesAgree := by
  cases h : mapGet b.peers peerID with
  | none =>
    rw [removePeer_absent b peerID h]
    exact hc
  | some q =>
    obtain ⟨hwf, hnd, hval, hlb, hfm, hpr⟩ := hc
    simp only [Broker.RemovePeer, h]
    refine ⟨wf_removePeer _ _ hwf, mapDelete_keys_nodup _ _ hnd, ?_, ?_, ?_, ?_⟩
    · intro kv hkv
      exact hval kv (mem_mapDelete _ _ _ hkv).1
    · intro id
      simp only []
      rw [lb_keys_removePeer, mem_mapKeys_mapDelete, hlb]
    · intro id
      simp only [FailoverManager.RemovePeer]
      rw [mem_mapKeys_mapDelete, mem_mapKeys_mapDelete, hfm]
    · intro kv hkv id hid
      simp only [List.mem_map] at hkv
      obtain ⟨kv0, h0, rfl⟩ := hkv
      simp only [Protocol.RemovePeer]
      obtain ⟨h1, h2⟩ := (mem_mapKeys_mapDelete _ _ _).1 hid
      exact List.mem_filter.2 ⟨hpr kv0 h0 id h1, by simpa using h2⟩

theorem tablesAgree_addProtocol (b : Broker) (name : String) (protocol : Protocol)
    (hc : b.TablesAgree) : (b.AddProtocol name protocol).TablesAgree := by
  obtain ⟨hwf, hnd, hval, hlb, hfm, hpr⟩ := hc
  refine ⟨hwf, hnd, hval, hlb, hfm, ?_⟩
  intro kv hkv id hid
  simp only [Broker.AddProtocol] at hkv hid ⊢
  rcases mem_mapSet _ _ _ _ hkv with h | h
  · rw [h]
    simp only []
    rw [backfill_peers]
    obtain ⟨kv1, h2, h3⟩ := List.mem_map.1 hid
    exact Or.inr ⟨kv1, h2, by rw [hval kv1 h2, h3]⟩
  · exact hpr kv h id hid

theorem tablesAgree_run (ops : List BrokerOp) :
    ∀ b : Broker, b.TablesAgree → (b.run ops).TablesAgree := by
  induction ops with
  | nil =>
    intro b hc
    exact hc
  | cons op ops ih =>
    intro b hc
    have hstep : (b.step op).TablesAgree := by
      cases op with
      | addPeer peer => exact tablesAgree_addPeer b peer hc
      | removePeer peerID => exact tablesAgree_removePeer b peerID hc
      | addProtocol name protocol => exact tablesAgree_addProtocol b name protocol hc
    exact ih (b.step op) hstep

/-- C24 (counterexample). Two newly created protocols P and Q. A is added, P is
registered under the name a (and holds A from then on), Q is registered under the
name a in place of P, A is removed, and P is registered under the name b. After
these five calls the peer table, the load balancer and the failover manager are
empty, and the registered protocol b knows the id A: the ids known to a registered
protocol are not the keys of the peer table. -/
theorem stale_protocol_keeps_removed_peer :
    emptyProtocol.peers = [] ∧
    mapGet ((NewBroker "n0").run
      [BrokerOp.addPeer peerA, BrokerOp.addProtocol "a" emptyProtocol]).protocols "a" =
        some staleProtocol ∧
    mapKeys ((NewBroker "n0").run staleOps).peers = [] ∧
    mapKeys ((NewBroker "n0").run staleOps).loadBalancer.peers = [] ∧
    mapKeys ((NewBroker "n0").run staleOps).failover.peers = [] ∧
    ((NewBroker "n0").run staleOps).protocols.map (fun kv => (kv.1, kv.2.peers)) =
      [("a", []), ("b", ["A"])] ∧
    ¬ (∀ kv ∈ ((NewBroker "n0").run staleOps).protocols, ∀ id,
        id ∈ kv.2.peers ↔ id ∈ mapKeys ((NewBroker "n0").run staleOps).peers) :=
  ⟨by decide, by decide, by decide, by decide, by decide, by decide,
    fun h => absurd ((h ("b", staleProtocol) (by decide) "A").1 (by decide)) (by decide)⟩

/-- C24 (amended). Let b be the broker reached from NewBroker by any AddPeer,
RemovePeer and AddProtocol calls. Then the ordered list of the load balancer holds
no id twice and lists exactly the ids of the balancer's map; the peer table has no
key twice; the load balancer and the failover manager know exactly the ids of the
peer table; every registered protocol knows at least the ids of the peer table,
and exactly these ids when every protocol handed to AddProtocol held, at that
moment, no peers other than peers of the table; and AddPeer of a peer whose id is
in the table adds no entry to any of them. -/
theorem broker_tables_agree (nodeID : String) (ops : List BrokerOp) (b : Broker)
    (hb : b = (NewBroker nodeID).run ops) :
    (b.loadBalancer.peerList.map (fun p => p.ID)).Nodup ∧
    (∀ id, id ∈ b.loadBalancer.peerList.map (fun p => p.ID) ↔
      id ∈ mapKeys b.loadBalancer.peers) ∧
    (mapKeys b.peers).Nodup ∧
    (∀ id, id ∈ mapKeys b.loadBalancer.peers ↔ id ∈ mapKeys b.peers) ∧
    (∀ id, id ∈ mapKeys b.failover.peers ↔ id ∈ mapKeys b.peers) ∧
    (∀ kv ∈ b.protocols, ∀ id, id ∈ mapKeys b.peers → id ∈ kv.2.peers) ∧
    ((NewBroker nodeID).Admits ops →
      ∀ kv ∈ b.protocols, ∀ id, id ∈ kv.2.peers ↔ id ∈ mapKeys b.peers) ∧
    (∀ peer : Peer, peer.ID ∈ mapKeys b.peers →
      mapKeys (b.AddPeer peer).peers = mapKeys b.peers ∧
      (b.AddPeer peer).loadBalancer = b.loadBalancer ∧
      mapKeys (b.AddPeer peer).failover.peers = mapKeys b.failover.peers ∧
      (b.AddPeer peer).protocols.map (fun kv => (kv.1, kv.2.peers)) =
        b.protocols.map (fun kv => (kv.1, kv.2.peers))) := by
  have hc : b.TablesAgree := by
    rw [hb]
    exact tablesAgree_run ops _ (tablesAgree_new nodeID)
  obtain ⟨hwf, hnd, _, hlb, hfm, hpr⟩ := hc
  refine ⟨hwf.2.2, ?_, hnd, hlb, hfm, hpr, ?_, ?_⟩
  · intro id
    constructor
    · intro h
      obtain ⟨p, hp, rfl⟩ := List.mem_map.1 h
      exact List.mem_map_of_mem Prod.fst (mapGet_mem _ _ _ (hwf.1 p hp))
    · intro h
      obtain ⟨kv, hkv, rfl⟩ := List.mem_map.1 h
      obtain ⟨h1, h2⟩ := hwf.2.1 kv hkv
      exact List.mem_map.2 ⟨kv.2, h1, h2⟩
  · intro hadm
    rw [hb]
    exact (consistent_run ops _ (consistent_new nodeID) hadm).2.2.2.2.2
  · intro peer hin
    have hset : ∀ {β : Type} (m : List (String × β)) (v : β),
        peer.ID ∈ mapKeys m → mapKeys (mapSet m peer.ID v) = mapKeys m := by
      intro β m v hm
      unfold mapKeys at hm ⊢
      rw [mapSet_keys, if_pos hm]
    refine ⟨hset _ _ hin, ?_, hset _ _ ((hfm _).2 hin), ?_⟩
    · simp only [Broker.AddPeer, LoadBalancer.AddPeer]
      cases hg : mapGet b.loadBalancer.peers peer.ID with
      | some q => rfl
      | none => exact absurd ((hlb _).2 hin) ((mapGet_eq_none_iff _ _).1 hg)
    · simp only [Broker.AddPeer, List.map_map]
      apply List.map_congr_left
      intro kv hkv
      simp only [Function.comp, Protocol.AddPeer]
      rw [keysAdd_of_mem _ _ (hpr kv hkv _ hin)]

/-- C24 (witness). After registering flooding, adding A, registering gossip and
adding B, every table and both protocols know A and B, and adding a peer with the
id A again adds no entry. After the calls in which the protocol P is registered,
replaced, and registered again, the failover manager knows what the (empty) peer
table knows, and adding A gives every table and both protocols the id A. -/
theorem broker_tables_agree_witness :
    (NewBroker "n0").Admits routingOps ∧
    mapKeys routingBroker.peers = ["A", "B"] ∧
    routingBroker.loadBalancer.peerList.map (fun p => p.ID) = ["A", "B"] ∧
    routingBroker.protocols.map (fun kv => (kv.1, kv.2.peers)) =
      [("flooding", ["A", "B"]), ("gossip", ["A", "B"])] ∧
    (∀ id, id ∈ mapKeys routingBroker.failover.peers ↔ id ∈ mapKeys routingBroker.peers) ∧
    (∀ kv ∈ routingBroker.protocols, ∀ id,
      id ∈ kv.2.peers ↔ id ∈ mapKeys routingBroker.peers) ∧
    mapKeys (routingBroker.AddPeer { peerC with ID := "A" }).peers =
      mapKeys routingBroker.peers ∧
    ¬ (NewBroker "n0").Admits staleOps ∧
    (∀ id, id ∈ mapKeys ((NewBroker "n0").run staleOps).failover.peers ↔
      id ∈ mapKeys ((NewBroker "n0").run staleOps).peers) ∧
    (∀ kv ∈ (((NewBroker "n0").run staleOps).AddPeer peerA).protocols, ∀ id,
      id ∈ mapKeys (((NewBroker "n0").run staleOps).AddPeer peerA).peers → id ∈ kv.2.peers) ∧
    (((NewBroker "n0").run staleOps).AddPeer peerA).protocols.map
      (fun kv => (kv.1, kv.2.peers)) = [("a", ["A"]), ("b", ["A"])] :=
  ⟨by decide, by decide, by decide, by decide,
    (broker_tables_agree "n0" routingOps routingBroker rfl).2.2.2.2.1,
    (broker_tables_agree "n0" routingOps routingBroker rfl).2.2.2.2.2.2.1 (by decide),
    ((broker_tables_agree "n0" routingOps routingBroker rfl).2.2.2.2.2.2.2
      { peerC with ID := "A" } (by decide)).1,
    by decide,
    (broker_tables_agree "n0" staleOps _ rfl).2.2.2.2.1,
    (broker_tables_agree "n0" (staleOps ++ [BrokerOp.addPeer peerA]) _ rfl).2.2.2.2.2.1,
    by decide⟩

theorem eraseP_eq_filter_of_nodup (l : List Peer) (id : String)
    (hnd : (l.map (fun p => p.ID)).Nodup) :
    l.eraseP (fun q => q.ID = id) = l.filter (fun q => q.ID ≠ id) := by
  induction l with
  | nil => rfl
  | cons q rest ih =>
    simp only [List.map_cons, List.nodup_cons, List.mem_map, not_exists, not_and] at hnd
    by_cases h : q.ID = id
    · have hrest : rest.filter (fun q => q.ID ≠ id) = rest := by
        apply List.filter_eq_self.2
        intro r hr
        have : ¬ r.ID = q.ID := hnd.1 r hr
        simp only [ne_eq, decide_eq_true_eq]
        exact fun e => this (e.trans h.symm)
      simp only [List.eraseP_cons, h, decide_True, cond_true, List.filter_cons, ne_eq,
        not_true_eq_false, decide_False, if_false]
      exact hrest.symm
    · simp only [List.eraseP_cons, h, decide_False, cond_false, List.filter_cons, ne_eq,
        not_false_eq_true, decide_True, if_true]
      exact congrArg (fun t => q :: t) (ih hnd.2)

theorem lb_remove_added (lb : LoadBalancer) (p : Peer) (hwf : lb.WF)
    (hnone : mapGet lb.peers p.ID = none) : (lb.AddPeer p).RemovePeer p.ID = lb := by
  have hfresh : ∀ q ∈ lb.peerList, ¬ (decide (q.ID = p.ID) = true) := by
    intro q hq e
    have h1 := hwf.1 q hq
    rw [of_decide_eq_true e, hnone] at h1
    exact Option.noConfusion h1
  simp only [LoadBalancer.AddPeer, hnone, LoadBalancer.RemovePeer, mapGet_mapSet_self]
  rw [mapDelete_mapSet_new _ _ _ ((mapGet_eq_none_iff _ _).1 hnone),
    List.eraseP_append_right _ hfresh]
  simp

/-- C25. Let b be the broker reached from NewBroker by any AddPeer, RemovePeer and
AddProtocol calls, and let the peer table of b not hold the id of p. Then
AddPeer(p) followed by RemovePeer(p.ID) gives back the peer table, the load
balancer with its map and its ordered list, and the peers of the failover
manager. RemovePeer of an id that is not in the table changes nothing, so removing
twice is removing once; and the ordered list of the balancer after a removal is
the list before without the removed peer, the others in their order. The
registered protocols are given back as well when none of them holds the id of p. -/
theorem removePeer_reverses_addPeer (nodeID : String) (ops : List BrokerOp) (b : Broker)
    (hb : b = (NewBroker nodeID).run ops) (p : Peer)
    (hp : mapGet b.peers p.ID = none) :
    ((b.AddPeer p).RemovePeer p.ID).peers = b.peers ∧
    ((b.AddPeer p).RemovePeer p.ID).loadBalancer = b.loadBalancer ∧
    ((b.AddPeer p).RemovePeer p.ID).failover.peers = b.failover.peers ∧
    (∀ id, mapGet b.peers id = none → b.RemovePeer id = b) ∧
    (∀ id, (b.RemovePeer id).RemovePeer id = b.RemovePeer id) ∧
    (∀ id, (b.RemovePeer id).loadBalancer.peerList =
      b.loadBalancer.peerList.filter (fun q => q.ID ≠ id)) ∧
    ((∀ kv ∈ b.protocols, p.ID ∉ kv.2.peers) →
      ((b.AddPeer p).RemovePeer p.ID).protocols = b.protocols) := by
  have hc : b.TablesAgree := by
    rw [hb]
    exact tablesAgree_run ops _ (tablesAgree_new nodeID)
  obtain ⟨hwf, hnd, hval, hlb, hfm, _⟩ := hc
  have hnot : p.ID ∉ mapKeys b.peers := (mapGet_eq_none_iff _ _).1 hp
  have hget : mapGet (b.AddPeer p).peers p.ID = some p := mapGet_mapSet_self _ _ _
  refine ⟨?_, ?_, ?_, fun id h => removePeer_absent b id h, ?_, ?_, ?_⟩
  · simp only [Broker.RemovePeer, hget]
    exact mapDelete_mapSet_new _ _ _ hnot
  · simp only [Broker.RemovePeer, hget]
    exact lb_remove_added _ _ hwf ((mapGet_eq_none_iff _ _).2 (fun h => hnot ((hlb _).1 h)))
  · simp only [Broker.RemovePeer, hget]
    exact mapDelete_mapSet_new _ _ _ (fun h => hnot ((hfm _).1 h))
  · intro id
    cases h : mapGet b.peers id with
    | none => rw [removePeer_absent b id h, removePeer_absent b id h]
    | some q =>
      apply removePeer_absent
      simp [Broker.RemovePeer, h, mapGet_mapDelete]
  · intro id
    cases h : mapGet b.peers id with
    | none =>
      rw [removePeer_absent b id h]
      symm
      apply List.filter_eq_self.2
      intro q hq
      simp only [ne_eq, decide_eq_true_eq]
      intro e
      have h1 : id ∈ mapKeys b.peers :=
        (hlb _).1 (List.mem_map_of_mem Prod.fst (mapGet_mem _ _ _ (e ▸ hwf.1 q hq)))
      exact (mapGet_eq_none_iff _ _).1 h h1
    | some q =>
      simp only [Broker.RemovePeer, h, LoadBalancer.RemovePeer]
      cases hg : mapGet b.loadBalancer.peers id with
      | none =>
        have h1 : id ∈ mapKeys b.peers := List.mem_map_of_mem Prod.fst (mapGet_mem _ _ _ h)
        exact absurd ((hlb _).2 h1) ((mapGet_eq_none_iff _ _).1 hg)
      | some r => exact eraseP_eq_filter_of_nodup _ _ hwf.2.2
  · intro hfree
    simp only [Broker.RemovePeer, hget]
    simp only [Broker.AddPeer, List.map_map]
    conv_rhs => rw [← List.map_id b.protocols]
    apply List.map_congr_left
    intro kv hkv
    simp only [Function.comp, Protocol.AddPeer, Protocol.RemovePeer, id]
    rw [filter_keysAdd_new _ _ (hfree kv hkv)]

/-- C25 (witness). Adding C to the broker with the peers A and B and removing it
again gives back the load balancer and the peer table; removing A leaves B in the
ordered list; removing C, which is not in the table, changes nothing. In the
broker in which the registered protocol b still holds the removed id A, adding A
and removing it gives back the peer table, the load balancer and the peers of the
failover manager. -/
theorem removePeer_reverses_addPeer_witness :
    mapGet routingBroker.peers peerC.ID = none ∧
    ((routingBroker.AddPeer peerC).RemovePeer peerC.ID).peers = routingBroker.peers ∧
    ((routingBroker.AddPeer peerC).RemovePeer peerC.ID).loadBalancer =
      routingBroker.loadBalancer ∧
    (routingBroker.RemovePeer "A").loadBalancer.peerList =
      routingBroker.loadBalancer.peerList.filter (fun q => q.ID ≠ "A") ∧
    (routingBroker.RemovePeer "A").loadBalancer.peerList = [peerB] ∧
    (routingBroker.RemovePeer "C") = routingBroker ∧
    mapGet ((NewBroker "n0").run staleOps).peers peerA.ID = none ∧
    ((((NewBroker "n0").run staleOps).AddPeer peerA).RemovePeer peerA.ID).peers =
      ((NewBroker "n0").run staleOps).peers ∧
    ((((NewBroker "n0").run staleOps).AddPeer peerA).RemovePeer peerA.ID).loadBalancer =
      ((NewBroker "n0").run staleOps).loadBalancer ∧
    ((((NewBroker "n0").run staleOps).AddPeer peerA).RemovePeer peerA.ID).failover.peers =
      ((NewBroker "n0").run staleOps).failover.peers :=
  ⟨by decide,
    (removePeer_reverses_addPeer "n0" routingOps routingBroker rfl peerC (by decide)).1,
    (removePeer_reverses_addPeer "n0" routingOps routingBroker rfl peerC (by decide)).2.1,
    (removePeer_reverses_addPeer "n0" routingOps routingBroker rfl peerC
      (by decide)).2.2.2.2.2.1 "A",
    by decide,
    (removePeer_reverses_addPeer "n0" routingOps routingBroker rfl peerC
      (by decide)).2.2.2.1 "C" (by decide),
    by decide,
    (removePeer_reverses_addPeer "n0" staleOps _ rfl peerA (by decide)).1,
    (removePeer_reverses_addPeer "n0" staleOps _ rfl peerA (by decide)).2.1,
    (removePeer_reverses_addPeer "n0" staleOps _ rfl peerA (by decide)).2.2.1⟩

/-! ## UDP discovery -/

theorem receive_invalid (d : UDPDiscovery) (data address : String) (port now : Int)
    (hv : data = "" ∨ data = d.localID) :
    d.receive (Read.datagram data address port now) = (d, []) := by
  have h : ¬ (data ≠ "" ∧ data ≠ d.localID) := by
    rintro ⟨h1, h2⟩
    rcases hv with e | e
    · exact h1 e
    · exact h2 e
  simp only [UDPDiscovery.receive, h, if_false]

theorem receive_new (d : UDPDiscovery) (data address : String) (port now : Int)
    (h1 : data ≠ "") (h2 : data ≠ d.localID) (hg : mapGet d.peers data = none) :
    d.receive (Read.datagram data address port now) =
      ({ d with peers := mapSet d.peers data ⟨data, address, port, now⟩ },
        if d.onPeerFound then [⟨data, address, port, now⟩] else []) := by
  simp only [UDPDiscovery.receive, h1, h2, ne_eq, not_false_eq_true, and_self, if_true, hg]

theorem receive_known (d : UDPDiscovery) (data address : String) (port now : Int)
    (known : UDPPeer) (h1 : data ≠ "") (h2 : data ≠ d.localID)
    (hg : mapGet d.peers data = some known) :
    d.receive (Read.datagram data address port now) =
      ({ d with peers := mapSet d.peers data { known with LastSeen := now } }, []) := by
  simp only [UDPDiscovery.receive, h1, h2, ne_eq, not_false_eq_true, and_self, if_true, hg]

theorem receive_fields (d : UDPDiscovery) (r : Read) :
    (d.receive r).1.localID = d.localID ∧ (d.receive r).1.isRunning = d.isRunning ∧
    (d.receive r).1.onPeerFound = d.onPeerFound := by
  cases r with
  | failed => exact ⟨rfl, rfl, rfl⟩
  | datagram data address port now =>
    by_cases h1 : data = ""
    · rw [receive_invalid d data address port now (Or.inl h1)]
      exact ⟨rfl, rfl, rfl⟩
    · by_cases h2 : data = d.localID
      · rw [receive_invalid d data address port now (Or.inr h2)]
        exact ⟨rfl, rfl, rfl⟩
      · cases hg : mapGet d.peers data with
        | none =>
          rw [receive_new d data address port now h1 h2 hg]
          exact ⟨rfl, rfl, rfl⟩
        | some known =>
          rw [receive_known d data address port now known h1 h2 hg]
          exact ⟨rfl, rfl, rfl⟩

theorem receive_keys (d : UDPDiscovery) (r : Read) (id : String) :
    id ∈ mapKeys (d.receive r).1.peers ↔
      id ∈ mapKeys d.peers ∨ (r.identity = some id ∧ id ≠ "" ∧ id ≠ d.localID) := by
  cases r with
  | failed => simp [UDPDiscovery.receive, Read.identity]
  | datagram data address port now =>
    simp only [Read.identity, Option.some.injEq]
    have hinv : data = "" ∨ data = d.localID →
        (id ∈ mapKeys d.peers ↔
          id ∈ mapKeys d.peers ∨ (data = id ∧ id ≠ "" ∧ id ≠ d.localID)) := by
      intro hv
      constructor
      · exact Or.inl
      · rintro (h | ⟨h1, h2, h3⟩)
        · exact h
        · subst h1
          rcases hv with e | e
          · exact absurd e h2
          · exact absurd e h3
    have key : data ≠ "" → data ≠ d.localID →
        (id ∈ mapKeys d.peers ∨ id = data ↔
          id ∈ mapKeys d.peers ∨ (data = id ∧ id ≠ "" ∧ id ≠ d.localID)) := by
      intro h1 h2
      constructor
      · rintro (h | h)
        · exact Or.inl h
        · subst h
          exact Or.inr ⟨rfl, h1, h2⟩
      · rintro (h | h)
        · exact Or.inl h
        · exact Or.inr h.1.symm
    by_cases h1 : data = ""
    · rw [receive_invalid d data address port now (Or.inl h1)]
      exact hinv (Or.inl h1)
    · by_cases h2 : data = d.localID
      · rw [receive_invalid d data address port now (Or.inr h2)]
        exact hinv (Or.inr h2)
      · cases hg : mapGet d.peers data with
        | none =>
          rw [receive_new d data address port now h1 h2 hg, mem_mapKeys_mapSet]
          exact key h1 h2
        | some known =>
          rw [receive_known d data address port now known h1 h2 hg, mem_mapKeys_mapSet]
          exact key h1 h2

theorem receive_calls (d : UDPDiscovery) (r : Read) (hcb : d.onPeerFound = true) :
    ((d.receive r).2.map (fun p => p.ID)).Nodup ∧
    ∀ id, id ∈ (d.receive r).2.map (fun p => p.ID) ↔
      r.identity = some id ∧ id ≠ "" ∧ id ≠ d.localID ∧ id ∉ mapKeys d.peers := by
  cases r with
  | failed => simp [UDPDiscovery.receive, Read.identity]
  | datagram data address port now =>
    simp only [Read.identity, Option.some.injEq]
    have hinv : data = "" ∨ data = d.localID → ∀ id,
        ¬ (data = id ∧ id ≠ "" ∧ id ≠ d.localID ∧ id ∉ mapKeys d.peers) := by
      rintro hv id ⟨h1, h2, h3, _⟩
      subst h1
      rcases hv with e | e
      · exact h2 e
      · exact h3 e
    by_cases h1 : data = ""
    · rw [receive_invalid d data address port now (Or.inl h1)]
      exact ⟨by simp, fun id => by simpa using hinv (Or.inl h1) id⟩
    · by_cases h2 : data = d.localID
      · rw [receive_invalid d data address port now (Or.inr h2)]
        exact ⟨by simp, fun id => by simpa using hinv (Or.inr h2) id⟩
      · cases hg : mapGet d.peers data with
        | none =>
          have hn := (mapGet_eq_none_iff _ _).1 hg
          rw [receive_new d data address port now h1 h2 hg]
          simp only [hcb, if_true, List.map_cons, List.map_nil, List.mem_singleton]
          refine ⟨by simp, ?_⟩
          intro id
          constructor
          · intro h
            subst h
            exact ⟨rfl, h1, h2, hn⟩
          · intro h
            exact h.1.symm
        | some known =>
          rw [receive_known d data address port now known h1 h2 hg]
          refine ⟨by simp, ?_⟩
          intro id
          simp only [List.map_nil, List.not_mem_nil, false_iff, not_and]
          intro e _ _ hn
          subst e
          rw [(mapGet_eq_none_iff _ _).2 hn] at hg
          exact Option.noConfusion hg

theorem listen_fields (reads : List Read) :
    ∀ d : UDPDiscovery, (d.listen reads).1.localID = d.localID ∧
      (d.listen reads).1.isRunning = d.isRunning ∧
      (d.listen reads).1.onPeerFound = d.onPeerFound := by
  induction reads with
  | nil => exact fun d => ⟨rfl, rfl, rfl⟩
  | cons r rest ih =>
    intro d
    simp only [UDPDiscovery.listen]
    split_ifs
    · obtain ⟨h1, h2, h3⟩ := ih (d.receive r).1
      obtain ⟨g1, g2, g3⟩ := receive_fields d r
      exact ⟨h1.trans g1, h2.trans g2, h3.trans g3⟩
    · exact ⟨rfl, rfl, rfl⟩

theorem advertised_cons (r : Read) (rest : List Read) (id : String) :
    id ∈ advertised (r :: rest) ↔ r.identity = some id ∨ id ∈ advertised rest := by
  unfold advertised
  cases h : r.identity with
  | none => simp [List.filterMap_cons, h]
  | some x =>
    simp only [List.filterMap_cons, h, List.mem_cons, Option.some.injEq]
    constructor
    · rintro (h1 | h1)
      · exact Or.inl h1.symm
      · exact Or.inr h1
    · rintro (h1 | h1)
      · exact Or.inl h1.symm
      · exact Or.inr h1

theorem listen_keys (reads : List Read) :
    ∀ d : UDPDiscovery, d.isRunning = true → ∀ id,
      (id ∈ mapKeys (d.listen reads).1.peers ↔
        id ∈ mapKeys d.peers ∨ (id ∈ advertised reads ∧ id ≠ "" ∧ id ≠ d.localID)) := by
  induction reads with
  | nil =>
    intro d _ id
    simp [UDPDiscovery.listen, advertised]
  | cons r rest ih =>
    intro d hrun id
    obtain ⟨g1, g2, _⟩ := receive_fields d r
    simp only [UDPDiscovery.listen, hrun, if_true]
    rw [ih (d.receive r).1 (g2.trans hrun) id, receive_keys, advertised_cons, g1]
    constructor
    · rintro ((h | h) | h)
      · exact Or.inl h
      · exact Or.inr ⟨Or.inl h.1, h.2⟩
      · exact Or.inr ⟨Or.inr h.1, h.2⟩
    · rintro (h | ⟨h1 | h1, h2⟩)
      · exact Or.inl (Or.inl h)
      · exact Or.inl (Or.inr ⟨h1, h2⟩)
      · exact Or.inr ⟨h1, h2⟩

theorem listen_calls (reads : List Read) :
    ∀ d : UDPDiscovery, d.isRunning = true → d.onPeerFound = true →
      ((d.listen reads).2.map (fun p => p.ID)).Nodup ∧
      ∀ id, id ∈ (d.listen reads).2.map (fun p => p.ID) ↔
        id ∈ advertised reads ∧ id ≠ "" ∧ id ≠ d.localID ∧ id ∉ mapKeys d.peers := by
  induction reads with
  | nil =>
    intro d _ _
    simp [UDPDiscovery.listen, advertised]
  | cons r rest ih =>
    intro d hrun hcb
    obtain ⟨g1, g2, g3⟩ := receive_fields d r
    obtain ⟨c1, c2⟩ := receive_calls d r hcb
    obtain ⟨i1, i2⟩ := ih (d.receive r).1 (g2.trans hrun) (g3.trans hcb)
    simp only [UDPDiscovery.listen, hrun, if_true, List.map_append]
    constructor
    · rw [List.nodup_append]
      refine ⟨c1, i1, ?_⟩
      intro id h1 h2
      have h3 := ((i2 id).1 h2).2.2.2
      have h4 := (c2 id).1 h1
      exact h3 ((receive_keys d r id).2 (Or.inr ⟨h4.1, h4.2.1, h4.2.2.1⟩))
    · intro id
      rw [List.mem_append, c2, i2, advertised_cons, g1, receive_keys]
      constructor
      · rintro (h | h)
        · exact ⟨Or.inl h.1, h.2⟩
        · exact ⟨Or.inr h.1, h.2.1, h.2.2.1, fun hk => h.2.2.2 (Or.inl hk)⟩
      · rintro ⟨h1 | h1, h2, h3, h4⟩
        · exact Or.inl ⟨h1, h2, h3, h4⟩
        · by_cases hr : r.identity = some id
          · exact Or.inl ⟨hr, h2, h3, h4⟩
          · refine Or.inr ⟨h1, h2, h3, ?_⟩
            rintro (hk | hk)
            · exact h4 hk
            · exact hr hk.1

theorem listen_append (before : List Read) :
    ∀ (d : UDPDiscovery) (after : List Read), d.isRunning = true →
      d.listen (before ++ after) =
        (((d.listen before).1.listen after).1,
          (d.listen before).2 ++ ((d.listen before).1.listen after).2) := by
  induction before with
  | nil =>
    intro d after _
    simp [UDPDiscovery.listen]
  | cons r rest ih =>
    intro d after hrun
    obtain ⟨_, g2, _⟩ := receive_fields d r
    simp only [List.cons_append, UDPDiscovery.listen, hrun, if_true, List.append_eq]
    rw [ih (d.receive r).1 after (g2.trans hrun)]
    simp

/-- C29. Let the listen loop of a running discovery instance with a callback set and
no peer known yet take any sequence of reads. The callback is called exactly once
for each identity that was advertised and is neither empty nor the local one (the
ids of its calls are distinct and are those identities). For one more datagram
after the reads: if it carries the empty or the local identity, nothing changes
and the callback is not called; if its identity was advertised before, only
LastSeen of that peer is set to the time of the datagram, without a call; and if
its identity is new, the peer is stored with the address, port and time of this
first datagram and the callback is called with it. -/
theorem discovery_callback_once (d : UDPDiscovery) (hrun : d.isRunning = true)
    (hcb : d.onPeerFound = true) (hnew : d.peers = []) (reads : List Read) :
    ((d.listen reads).2.map (fun p => p.ID)).Nodup ∧
    (∀ id, id ∈ (d.listen reads).2.map (fun p => p.ID) ↔
      id ∈ advertised reads ∧ id ≠ "" ∧ id ≠ d.localID) ∧
    (∀ (data address : String) (port now : Int),
      d.listen (reads ++ [Read.datagram data address port now]) =
        (((d.listen reads).1.receive (Read.datagram data address port now)).1,
          (d.listen reads).2 ++
            ((d.listen reads).1.receive (Read.datagram data address port now)).2) ∧
      (data = "" ∨ data = d.localID →
        (d.listen reads).1.receive (Read.datagram data address port now) =
          ((d.listen reads).1, [])) ∧
      (data ≠ "" → data ≠ d.localID → data ∈ advertised reads →
        ∃ known, mapGet (d.listen reads).1.peers data = some known ∧
          (d.listen reads).1.receive (Read.datagram data address port now) =
            ({ (d.listen reads).1 with
                peers := mapSet (d.listen reads).1.peers data { known with LastSeen := now } },
              [])) ∧
      (data ≠ "" → data ≠ d.localID → data ∉ advertised reads →
        (d.listen reads).1.receive (Read.datagram data address port now) =
          ({ (d.listen reads).1 with
              peers := mapSet (d.listen reads).1.peers data ⟨data, address, port, now⟩ },
            [⟨data, address, port, now⟩]))) := by
  obtain ⟨f1, f2, f3⟩ := listen_fields reads d
  obtain ⟨c1, c2⟩ := listen_calls reads d hrun hcb
  have hkeys := listen_keys reads d hrun
  refine ⟨c1, ?_, ?_⟩
  · intro id
    rw [c2 id, hnew]
    simp [mapKeys]
  · intro data address port now
    refine ⟨?_, ?_, ?_, ?_⟩
    · rw [listen_append reads d _ hrun]
      simp [UDPDiscovery.listen, f2, hrun]
    · intro hv
      exact receive_invalid _ _ _ _ _ (f1.symm ▸ hv)
    · intro h1 h2 hadv
      have hin : data ∈ mapKeys (d.listen reads).1.peers :=
        (hkeys data).2 (Or.inr ⟨hadv, h1, h2⟩)
      cases hg : mapGet (d.listen reads).1.peers data with
      | none => exact absurd hin ((mapGet_eq_none_iff _ _).1 hg)
      | some known =>
        exact ⟨known, rfl, receive_known _ _ _ _ _ known h1 (f1.symm ▸ h2) hg⟩
    · intro h1 h2 hadv
      have hnot : data ∉ mapKeys (d.listen reads).1.peers := by
        intro hin
        rcases (hkeys data).1 hin with h | h
        · rw [hnew] at h
          simp [mapKeys] at h
        · exact hadv h.1
      rw [receive_new _ _ _ _ _ h1 (f1.symm ▸ h2) ((mapGet_eq_none_iff _ _).2 hnot)]
      simp [f3, hcb]

/-- C29 (witness). In the session lanReads the callback is called for n1 with its
first datagram and for n2, not for n0 itself and not for the empty datagram; the
second datagram of n1 only sets LastSeen. A further datagram of n1 calls nothing. -/
theorem discovery_callback_once_witness :
    lanDiscovery.isRunning = true ∧ lanDiscovery.onPeerFound = true ∧
    lanDiscovery.peers = [] ∧
    (lanDiscovery.listen lanReads).2 =
      [ { ID := "n1", Address := "10.0.0.1", Port := 5353, LastSeen := 100 },
        { ID := "n2", Address := "10.0.0.2", Port := 5353, LastSeen := 130 } ] ∧
    (lanDiscovery.listen lanReads).1.peers =
      [ ("n1", { ID := "n1", Address := "10.0.0.1", Port := 5353, LastSeen := 120 }),
        ("n2", { ID := "n2", Address := "10.0.0.2", Port := 5353, LastSeen := 130 }) ] ∧
    ((lanDiscovery.listen lanReads).2.map (fun p => p.ID)).Nodup ∧
    (lanDiscovery.listen lanReads).1.receive (Read.datagram "n0" "10.0.0.9" 5353 150) =
      ((lanDiscovery.listen lanReads).1, []) :=
  ⟨by decide, by decide, by decide, by decide, by decide,
    (discovery_callback_once lanDiscovery (by decide) (by decide) (by decide) lanReads).1,
    ((discovery_callback_once lanDiscovery (by decide) (by decide) (by decide) lanReads).2.2
      "n0" "10.0.0.9" 5353 150).2.1 (Or.inr (by decide))⟩

/-! ## Consensus: a round after its timeout -/

/-- C30 (counterexample). Node n0 with the single peer p1 and a timeout of 1000
proposes X in round r at time 1; the round holds one vote and has no result. The
vote of p1 for X is handled at time 5000, when 4999 > 1000 has passed since the
start: the round is marked achieved. -/
theorem late_vote_marks_round_achieved :
    pairNode.timeout = 1000 ∧
    mapGet (ConsensusProtocol.run stubDigest pairNode [ConsensusOp.propose "r" "X" 1]).votes "r" =
      some
        { ID := "r", Proposal := "X"
          Votes := [("n0", { NodeID := "n0", Value := "X", Timestamp := 1, Signature := [] })]
          StartTime := 1, EndTime := none, Consensus := none } ∧
    (5000 : Int) - 1 > pairNode.timeout ∧
    ConsensusProtocol.GetConsensusResult
      (ConsensusProtocol.handleVote stubDigest
        (ConsensusProtocol.run stubDigest pairNode [ConsensusOp.propose "r" "X" 1])
        quorumVote 5000) "r" =
      some { Value := stubDigest "X", VoteCount := 2, TotalVotes := 2, Achieved := true } := by
  decide

/-! ## Broker: the bootstrap key -/

/-- C33 (evaluation of the code). The key that NewBroker hands to crypto.NewAESGCM has
28 bytes: it is not 32 bytes long, and its length is none of the AES key sizes 16,
24 and 32. -/
theorem bootstrap_key_has_28_bytes :
    bootstrapKey.length = 28 ∧ bootstrapKey.length ≠ 32 ∧
    bootstrapKey.length ∉ [16, 24, 32] := by
  decide

/-! ## Consensus: votes of the node itself -/

/-- C31 (evaluation of the code at the failing input). Node n0 knows no peer, so N = 1
and the threshold of checkConsensus is 1. After Propose of X in round r the round
holds the vote of n0 for X, the largest count is 1 and reaches the threshold,
yet the round has no result; a further Vote of n0 for X changes nothing. -/
theorem own_vote_is_not_tallied :
    soloNode.peers.length + 1 = 1 ∧ quorumThreshold 1 = 1 ∧
    mapGet (ConsensusProtocol.Propose soloNode "r" "X" 1).1.votes "r" =
      some
        { ID := "r", Proposal := "X"
          Votes := [("n0", { NodeID := "n0", Value := "X", Timestamp := 1, Signature := [] })]
          StartTime := 1, EndTime := none, Consensus := none } ∧
    (ConsensusProtocol.findMajority (ConsensusProtocol.countVotes stubDigest
      [("n0", { NodeID := "n0", Value := "X", Timestamp := 1, Signature := [] })])).2 = 1 ∧
    ConsensusProtocol.GetConsensusResult
      (ConsensusProtocol.Propose soloNode "r" "X" 1).1 "r" = none ∧
    ConsensusProtocol.GetConsensusResult
      (ConsensusProtocol.Vote (ConsensusProtocol.Propose soloNode "r" "X" 1).1 "r" "X" 2).1
        "r" = none := by
  decide

/-! ## Consensus: what handling a vote changes in a round -/

theorem vote_leaves_result (cp : ConsensusProtocol) (proposalID value : String) (now : Int)
    (pid : String) :
    ConsensusProtocol.GetConsensusResult (ConsensusProtocol.Vote cp proposalID value now).1 pid =
      ConsensusProtocol.GetConsensusResult cp pid := by
  unfold ConsensusProtocol.Vote
  cases hp : mapGet cp.votes proposalID with
  | none => rfl
  | some r =>
    simp only [ConsensusProtocol.GetConsensusResult, mapGet_mapSet]
    by_cases he : proposalID = pid
    · subst he
      simp [hp]
    · simp [he]

theorem checkConsensus_round (H : String → String) (cp : ConsensusProtocol)
    (proposalID pid : String) (now : Int) (round : VoteRound)
    (hget : mapGet cp.votes pid = some round) :
    ∃ round1, mapGet (ConsensusProtocol.checkConsensus H cp proposalID now).votes pid =
        some round1 ∧
      round1.ID = round.ID ∧ round1.Proposal = round.Proposal ∧
      round1.StartTime = round.StartTime ∧ round1.Votes = round.Votes ∧
      (round.Consensus.isSome = true →
        round1.Consensus = round.Consensus ∧ round1.EndTime = round.EndTime) := by
  unfold ConsensusProtocol.checkConsensus
  cases hp : mapGet cp.votes proposalID with
  | none => exact ⟨round, hget, rfl, rfl, rfl, rfl, fun _ => ⟨rfl, rfl⟩⟩
  | some r =>
    simp only []
    split_ifs with hs hq
    · exact ⟨round, hget, rfl, rfl, rfl, rfl, fun _ => ⟨rfl, rfl⟩⟩
    · by_cases he : proposalID = pid
      · subst he
        rw [hget] at hp
        cases hp
        refine ⟨_, mapGet_mapSet_self _ _ _, rfl, rfl, rfl, rfl, ?_⟩
        intro h
        exact absurd h hs
      · refine ⟨round, ?_, rfl, rfl, rfl, rfl, fun _ => ⟨rfl, rfl⟩⟩
        simp [mapGet_mapSet, he, hget]
    · exact ⟨round, hget, rfl, rfl, rfl, rfl, fun _ => ⟨rfl, rfl⟩⟩

theorem handleVote_round (H : String → String) (cp : ConsensusProtocol) (message : Message)
    (now : Int) (pid : String) (round : VoteRound) (hget : mapGet cp.votes pid = some round) :
    ∃ round1, mapGet (ConsensusProtocol.handleVote H cp message now).votes pid = some round1 ∧
      round1.ID = round.ID ∧ round1.Proposal = round.Proposal ∧
      round1.StartTime = round.StartTime ∧
      (round1.Votes = round.Votes ∨
        ∃ vote, message.Payload = Payload.fields (some pid) (some vote) ∧
          round1.Votes = mapSet round.Votes vote.NodeID vote) ∧
      (round.Consensus.isSome = true →
        round1.Consensus = round.Consensus ∧ round1.EndTime = round.EndTime) := by
  unfold ConsensusProtocol.handleVote
  split
  · rename_i proposalID vote hpay
    cases hp : mapGet cp.votes proposalID with
    | none => exact ⟨round, hget, rfl, rfl, rfl, Or.inl rfl, fun _ => ⟨rfl, rfl⟩⟩
    | some r =>
      simp only []
      let r1 : VoteRound := { r with Votes := mapSet r.Votes vote.NodeID vote }
      let cp1 : ConsensusProtocol := { cp with votes := mapSet cp.votes proposalID r1 }
      by_cases he : proposalID = pid
      · subst he
        rw [hget] at hp
        cases hp
        obtain ⟨round1, g1, g2, g3, g4, g5, g6⟩ :=
          checkConsensus_round H cp1 proposalID proposalID now r1 (mapGet_mapSet_self _ _ _)
        exact ⟨round1, g1, g2, g3, g4, Or.inr ⟨vote, hpay, g5⟩, g6⟩
      · have hother : mapGet cp1.votes pid = some round := by
          simp [cp1, mapGet_mapSet, he, hget]
        obtain ⟨round1, g1, g2, g3, g4, g5, g6⟩ :=
          checkConsensus_round H cp1 proposalID pid now round hother
        exact ⟨round1, g1, g2, g3, g4, Or.inl g5, g6⟩
  · exact ⟨round, hget, rfl, rfl, rfl, Or.inl rfl, fun _ => ⟨rfl, rfl⟩⟩

theorem incoming_vote_eq (H : String → String) (cp : ConsensusProtocol) (message : Message)
    (now : Int) (ht : message.Type_ = MessageType.consensusVote) :
    ConsensusProtocol.step H cp (ConsensusOp.incoming message now) =
      ConsensusProtocol.handleVote H cp message now := by
  simp [ConsensusProtocol.step, ConsensusProtocol.HandleIncomingMessage, ht]

/-- C35. When the round stored under a proposal id has a consensus result, handling
any sequence of incoming vote messages (for this or any other round, at any
times) leaves the result of the round, with its value, vote count, total votes
and achieved flag, and the end time of the round as they are; GetConsensusResult
keeps returning that result. -/
theorem achieved_round_survives_votes (H : String → String) (votes : List (Message × Int))
    (hvotes : ∀ mn ∈ votes, mn.1.Type_ = MessageType.consensusVote) :
    ∀ (cp : ConsensusProtocol) (pid : String) (round : VoteRound) (res : ConsensusResult),
      mapGet cp.votes pid = some round → round.Consensus = some res →
      ∃ round1,
        mapGet (ConsensusProtocol.run H cp
          (votes.map (fun mn => ConsensusOp.incoming mn.1 mn.2))).votes pid = some round1 ∧
        round1.Consensus = some res ∧ round1.EndTime = round.EndTime ∧
        ConsensusProtocol.GetConsensusResult (ConsensusProtocol.run H cp
          (votes.map (fun mn => ConsensusOp.incoming mn.1 mn.2))) pid = some res := by
  induction votes with
  | nil =>
    intro cp pid round res hget hres
    exact ⟨round, hget, hres, rfl,
      (getConsensusResult_eq _ _ _).2 ⟨round, hget, hres⟩⟩
  | cons mn rest ih =>
    intro cp pid round res hget hres
    have ht := hvotes mn (List.mem_cons_self _ _)
    obtain ⟨round1, g1, _, _, _, _, g6⟩ := handleVote_round H cp mn.1 mn.2 pid round hget
    obtain ⟨g7, g8⟩ := g6 (by simp [hres])
    obtain ⟨round2, k1, k2, k3, k4⟩ :=
      ih (fun x hx => hvotes x (List.mem_cons_of_mem _ hx))
        (ConsensusProtocol.handleVote H cp mn.1 mn.2) pid round1 res g1 (g7.trans hres)
    refine ⟨round2, ?_, k2, k3.trans g8, ?_⟩
    · simpa [ConsensusProtocol.run, incoming_vote_eq H cp mn.1 mn.2 ht] using k1
    · simpa [ConsensusProtocol.run, incoming_vote_eq H cp mn.1 mn.2 ht] using k4

/-- C35 (witness). Round r of achievedNode is achieved with value X at time 2. After
p1 changes its vote to Y at time 3 and u1 votes Y at time 4, the result and the end
time are the same. -/
theorem achieved_round_survives_votes_witness :
    mapGet achievedNode.votes "r" = some achievedRound ∧
    ∃ round1,
      mapGet (ConsensusProtocol.run stubDigest achievedNode
        ([(roundVote "p1" "Y" 3, 3), (roundVote "u1" "Y" 4, 4)].map
          (fun mn => ConsensusOp.incoming mn.1 mn.2))).votes "r" = some round1 ∧
      round1.Consensus =
        some { Value := stubDigest "X", VoteCount := 2, TotalVotes := 2, Achieved := true } ∧
      round1.EndTime = achievedRound.EndTime ∧
      ConsensusProtocol.GetConsensusResult (ConsensusProtocol.run stubDigest achievedNode
        ([(roundVote "p1" "Y" 3, 3), (roundVote "u1" "Y" 4, 4)].map
          (fun mn => ConsensusOp.incoming mn.1 mn.2))) "r" =
        some { Value := stubDigest "X", VoteCount := 2, TotalVotes := 2, Achieved := true } :=
  ⟨by decide,
    achieved_round_survives_votes stubDigest
      [(roundVote "p1" "Y" 3, 3), (roundVote "u1" "Y" 4, 4)] (by decide)
      achievedNode "r" achievedRound
      { Value := stubDigest "X", VoteCount := 2, TotalVotes := 2, Achieved := true }
      (by decide) rfl⟩

/-! ## Consensus: who may vote -/

theorem mapSet_length {β : Type} (m : List (String × β)) (k : String) (v : β) :
    (mapSet m k v).length = if k ∈ mapKeys m then m.length else m.length + 1 := by
  have h := congrArg List.length (mapSet_keys m k v)
  simp only [List.length_map] at h
  rw [h]
  unfold mapKeys
  split_ifs <;> simp

/-- C40 (counterexample). Node n0 knows the single peer p1, so N = 2. It proposes X in
round r and then handles the votes of u1 (Y), u2 (Z) and u3 (Y), none of them a
peer: all are recorded, the round holds four votes, and it is achieved with the
value Y of two strangers and TotalVotes = 4 > N. -/
theorem votes_of_strangers_are_counted :
    pairNode.peers = ["p1"] ∧ pairNode.peers.length + 1 = 2 ∧
    mapKeys (ConsensusProtocol.run stubDigest pairNode
      (ConsensusOp.propose "r" "X" 1 ::
        strangerVotes.map (fun mn => ConsensusOp.incoming mn.1 mn.2))).votes = ["r"] ∧
    ((mapGet (ConsensusProtocol.run stubDigest pairNode
      (ConsensusOp.propose "r" "X" 1 ::
        strangerVotes.map (fun mn => ConsensusOp.incoming mn.1 mn.2))).votes "r").map
          (fun round => mapKeys round.Votes)) = some ["n0", "u1", "u2", "u3"] ∧
    ConsensusProtocol.GetConsensusResult (ConsensusProtocol.run stubDigest pairNode
      (ConsensusOp.propose "r" "X" 1 ::
        strangerVotes.map (fun mn => ConsensusOp.incoming mn.1 mn.2))) "r" =
      some { Value := stubDigest "Y", VoteCount := 2, TotalVotes := 4, Achieved := true } := by
  decide

theorem handleVote_records (H : String → String) (cp : ConsensusProtocol) (message : Message)
    (now : Int) (proposalID : String) (vote : Vote) (round : VoteRound)
    (hpayload : message.Payload = Payload.fields (some proposalID) (some vote))
    (hround : mapGet cp.votes proposalID = some round) :
    ∃ round1,
      mapGet (ConsensusProtocol.handleVote H cp message now).votes proposalID = some round1 ∧
      round1.Votes = mapSet round.Votes vote.NodeID vote := by
  let r1 : VoteRound := { round with Votes := mapSet round.Votes vote.NodeID vote }
  let cp1 : ConsensusProtocol := { cp with votes := mapSet cp.votes proposalID r1 }
  obtain ⟨round1, g1, _, _, _, g5, _⟩ :=
    checkConsensus_round H cp1 proposalID proposalID now r1 (mapGet_mapSet_self _ _ _)
  refine ⟨round1, ?_, g5⟩
  simp only [ConsensusProtocol.handleVote, hpayload, hround]
  exact g1

theorem incoming_votes_round (H : String → String) (votes : List (Message × Int))
    (hvotes : ∀ mn ∈ votes, mn.1.Type_ = MessageType.consensusVote) :
    ∀ (cp : ConsensusProtocol) (pid : String) (round : VoteRound),
      mapGet cp.votes pid = some round →
      ∃ round1,
        mapGet (ConsensusProtocol.run H cp
          (votes.map (fun mn => ConsensusOp.incoming mn.1 mn.2))).votes pid = some round1 ∧
        round1.Votes.length ≤ round.Votes.length + votes.length ∧
        ∀ voter ∈ mapKeys round1.Votes,
          voter ∈ mapKeys round.Votes ∨
            ∃ mn ∈ votes, ∃ vote,
              mn.1.Payload = Payload.fields (some pid) (some vote) ∧ vote.NodeID = voter := by
  induction votes with
  | nil =>
    intro cp pid round hget
    exact ⟨round, hget, by simp, fun voter hv => Or.inl hv⟩
  | cons mn rest ih =>
    intro cp pid round hget
    have ht := hvotes mn (List.mem_cons_self _ _)
    obtain ⟨round1, g1, _, _, _, g5, _⟩ := handleVote_round H cp mn.1 mn.2 pid round hget
    obtain ⟨round2, k1, k2, k3⟩ :=
      ih (fun x hx => hvotes x (List.mem_cons_of_mem _ hx))
        (ConsensusProtocol.handleVote H cp mn.1 mn.2) pid round1 g1
    refine ⟨round2, ?_, ?_, ?_⟩
    · simpa [ConsensusProtocol.run, incoming_vote_eq H cp mn.1 mn.2 ht] using k1
    · have hlen : round1.Votes.length ≤ round.Votes.length + 1 := by
        rcases g5 with h | ⟨vote, _, h⟩
        · rw [h]
          omega
        · rw [h, mapSet_length]
          split_ifs <;> omega
      simp only [List.length_cons]
      omega
    · intro voter hv
      rcases k3 voter hv with h | ⟨x, hx, vote, h1, h2⟩
      · rcases g5 with h5 | ⟨vote, h5, h6⟩
        · rw [h5] at h
          exact Or.inl h
        · rw [h6] at h
          rcases (mem_mapKeys_mapSet _ _ _ _).1 h with h7 | h7
          · exact Or.inl h7
          · exact Or.inr ⟨mn, List.mem_cons_self _ _, vote, h5, h7.symm⟩
      · exact Or.inr ⟨x, List.mem_cons_of_mem _ hx, vote, h1, h2⟩

/-- C40 (amended). A vote message for a known round is recorded under the voter id it
carries, whatever the peers of the node are. After any sequence of incoming vote
messages the round holds at most as many votes as it held before plus the number
of messages handled, and every voter id in it was there before or is the voter
id of one of the messages for the round; the number of known peers does not
enter. -/
theorem incoming_votes_recorded_for_any_voter (H : String → String)
    (votes : List (Message × Int))
    (hvotes : ∀ mn ∈ votes, mn.1.Type_ = MessageType.consensusVote)
    (cp : ConsensusProtocol) (pid : String) (round : VoteRound)
    (hround : mapGet cp.votes pid = some round) :
    (∀ (message : Message) (now : Int) (vote : Vote) (peers : List String),
      message.Payload = Payload.fields (some pid) (some vote) →
      ∃ round1,
        mapGet (ConsensusProtocol.handleVote H { cp with peers := peers } message now).votes
          pid = some round1 ∧
        round1.Votes = mapSet round.Votes vote.NodeID vote ∧
        mapGet round1.Votes vote.NodeID = some vote) ∧
    ∃ round1,
      mapGet (ConsensusProtocol.run H cp
        (votes.map (fun mn => ConsensusOp.incoming mn.1 mn.2))).votes pid = some round1 ∧
      round1.Votes.length ≤ round.Votes.length + votes.length ∧
      ∀ voter ∈ mapKeys round1.Votes,
        voter ∈ mapKeys round.Votes ∨
          ∃ mn ∈ votes, ∃ vote,
            mn.1.Payload = Payload.fields (some pid) (some vote) ∧ vote.NodeID = voter := by
  refine ⟨?_, incoming_votes_round H votes hvotes cp pid round hround⟩
  intro message now vote peers hpayload
  obtain ⟨round1, g1, g2⟩ :=
    handleVote_records H { cp with peers := peers } message now pid vote round hpayload hround
  exact ⟨round1, g1, g2, by rw [g2]; exact mapGet_mapSet_self _ _ _⟩

/-- C40 (witness). From round r of pairNode after its proposal (one vote), the three
votes of strangers leave at most 1 + 3 votes in the round. -/
theorem incoming_votes_recorded_for_any_voter_witness :
    mapGet (ConsensusProtocol.Propose pairNode "r" "X" 1).1.votes "r" =
      some
        { ID := "r", Proposal := "X"
          Votes := [("n0", { NodeID := "n0", Value := "X", Timestamp := 1, Signature := [] })]
          StartTime := 1, EndTime := none, Consensus := none } ∧
    ∃ round1,
      mapGet (ConsensusProtocol.run stubDigest (ConsensusProtocol.Propose pairNode "r" "X" 1).1
        (strangerVotes.map (fun mn => ConsensusOp.incoming mn.1 mn.2))).votes "r" =
          some round1 ∧
      round1.Votes.length ≤
        ([("n0", ({ NodeID := "n0", Value := "X", Timestamp := 1, Signature := [] } : Vote))]
          : List (String × Vote)).length + strangerVotes.length :=
  ⟨by decide,
    (fun ⟨round1, h1, h2, _⟩ => ⟨round1, h1, h2⟩)
      (incoming_votes_recorded_for_any_voter stubDigest strangerVotes (by decide)
        (ConsensusProtocol.Propose pairNode "r" "X" 1).1 "r"
        { ID := "r", Proposal := "X"
          Votes := [("n0", { NodeID := "n0", Value := "X", Timestamp := 1, Signature := [] })]
          StartTime := 1, EndTime := none, Consensus := none }
        (by decide)).2⟩

/-! ## Broker: the message of the caller after SendMessage -/

/-- C36 (counterexample). The broker has no healthy peer. SendMessage of the chat
message with the plaintext payload hi fails with the error of the missing peer,
and the message of the caller then carries the ciphertext instead of the
plaintext; sending the same message again encrypts the ciphertext once more. -/
theorem failed_send_leaves_ciphertext :
    chatMsg.Payload = Payload.bytes [104, 105] ∧
    Broker.SendMessage toyCipher okTransport sickBroker chatMsg 0 0 =
      SendOutcome.returned sealedMsg none (some "no available peer for destination: B") ∧
    sealedMsg.Payload = Payload.bytes [0, 0, 0, 0, 0, 0, 0, 0, 0, 0, 0, 0, 105, 106] ∧
    sealedMsg ≠ chatMsg ∧
    Broker.SendMessage toyCipher okTransport sickBroker sealedMsg 0 0 =
      SendOutcome.returned
        { chatMsg with
          Payload := Payload.bytes
            [0, 0, 0, 0, 0, 0, 0, 0, 0, 0, 0, 0, 1, 1, 1, 1, 1, 1, 1, 1, 1, 1, 1, 1, 106, 107] }
        none (some "no available peer for destination: B") := by
  decide

/-- C36 (amended). SendMessage leaves a health message as it is. For any other message
with a byte payload that the cipher encrypts, it puts the ciphertext in place of
the payload before it selects a peer, and the message of the caller keeps the
ciphertext whatever happens next: when no peer is available the call returns the
error of the missing peer with the payload replaced. When the encryption fails
the message is unchanged. -/
theorem sendMessage_replaces_payload (enc : AESGCM)
    (transport : String → Message → Option String) (b : Broker) (message : Message)
    (nanos rnd : Nat) :
    (message.Type_ = MessageType.health →
      ∃ handed err,
        Broker.SendMessage enc transport b message nanos rnd =
          SendOutcome.returned message handed err) ∧
    (∀ plaintext encrypted, message.Type_ ≠ MessageType.health →
      message.Payload = Payload.bytes plaintext →
      enc.Encrypt plaintext = Except.ok encrypted →
      (∃ handed err,
        Broker.SendMessage enc transport b message nanos rnd =
          SendOutcome.returned { message with Payload := Payload.bytes encrypted }
            handed err) ∧
      (b.loadBalancer.SelectPeer message.To nanos rnd = none →
        Broker.SendMessage enc transport b message nanos rnd =
          SendOutcome.returned { message with Payload := Payload.bytes encrypted } none
            (some ("no available peer for destination: " ++ message.To)))) ∧
    (∀ plaintext e, message.Type_ ≠ MessageType.health →
      message.Payload = Payload.bytes plaintext →
      enc.Encrypt plaintext = Except.error e →
      Broker.SendMessage enc transport b message nanos rnd =
        SendOutcome.returned message none (some ("failed to encrypt message: " ++ e))) := by
  refine ⟨?_, ?_, ?_⟩
  · intro ht
    simp only [Broker.SendMessage, ht, ne_eq, not_true_eq_false, if_false]
    cases b.loadBalancer.SelectPeer message.To nanos rnd with
    | none => exact ⟨_, _, rfl⟩
    | some peer => exact ⟨_, _, rfl⟩
  · intro plaintext encrypted ht hp henc
    simp only [Broker.SendMessage, ht, ne_eq, not_false_eq_true, if_true, hp, henc]
    cases b.loadBalancer.SelectPeer message.To nanos rnd with
    | none => exact ⟨⟨_, _, rfl⟩, fun _ => rfl⟩
    | some peer => exact ⟨⟨_, _, rfl⟩, fun h => Option.noConfusion h⟩
  · intro plaintext e ht hp henc
    simp only [Broker.SendMessage, ht, ne_eq, not_false_eq_true, if_true, hp, henc]

/-- C36 (witness). The failed send of the counterexample, by the amended statement. -/
theorem sendMessage_replaces_payload_witness :
    chatMsg.Type_ ≠ MessageType.health ∧
    sickBroker.loadBalancer.SelectPeer chatMsg.To 0 0 = none ∧
    Broker.SendMessage toyCipher okTransport sickBroker chatMsg 0 0 =
      SendOutcome.returned
        { chatMsg with
          Payload := Payload.bytes [0, 0, 0, 0, 0, 0, 0, 0, 0, 0, 0, 0, 105, 106] }
        none (some ("no available peer for destination: " ++ chatMsg.To)) :=
  ⟨by decide, by decide,
    ((sendMessage_replaces_payload toyCipher okTransport sickBroker chatMsg 0 0).2.1
      [104, 105] [0, 0, 0, 0, 0, 0, 0, 0, 0, 0, 0, 0, 105, 106] (by decide) rfl rfl).2
      (by decide)⟩

/-! ## Flooding: the hop limit -/

/-- C34 (counterexample). Node A allows 3 hops. The message m1 with a hop count of 5 is
handed to Broadcast: it is not dropped, the node records its id and sends a copy
with hop count 1 to each of B, C and D. -/
theorem broadcast_ignores_hop_count :
    farMsg.Hops = 5 ∧ floodNode.maxHops = 3 ∧
    (floodNode.Broadcast farMsg 100).2.map (fun e => (e.1, e.2.Hops)) =
      [("B", 1), ("C", 1), ("D", 1)] ∧
    (floodNode.Broadcast farMsg 100).1.messageCache = [("m1", 100)] ∧
    floodNode.messageCache = [] := by
  decide

/-- C34 (amended). No copy that the flooding protocol sends has a hop count above
maxHops. A received message whose hop count is at least maxHops is dropped:
HandleIncomingMessage sends nothing and leaves the node, with its cache, as it
is, and so does floodMessage for any hop count at or above the limit; every copy
sent for a received message has hop count m.Hops + 1, at most maxHops. A local
Broadcast starts at hop count 0 whatever the hop count of the message is; its
copies have hop count 1, at most maxHops. -/
theorem copies_within_hop_limit (fp : FloodingProtocol) (m : Message) (now : Int)
    (hhops : inInt64 m.Hops) (hmax : inInt64 fp.maxHops) :
    (m.Hops ≥ fp.maxHops → fp.HandleIncomingMessage m now = (fp, [])) ∧
    (∀ hops visited, hops ≥ fp.maxHops → fp.floodMessage m hops visited now = (fp, [])) ∧
    (∀ e ∈ (fp.HandleIncomingMessage m now).2,
      e.2.Hops = m.Hops + 1 ∧ e.2.Hops ≤ fp.maxHops) ∧
    (∀ e ∈ (fp.Broadcast m now).2, e.2.Hops = 1 ∧ e.2.Hops ≤ fp.maxHops) := by
  unfold inInt64 at hhops hmax
  refine ⟨?_, ?_, ?_, ?_⟩
  · intro h
    simp only [FloodingProtocol.HandleIncomingMessage, FloodingProtocol.floodMessage, h, if_true]
    split_ifs <;> rfl
  · intro hops visited h
    simp only [FloodingProtocol.floodMessage, h, if_true]
  · intro e he
    unfold FloodingProtocol.HandleIncomingMessage at he
    split_ifs at he with h0
    · simp at he
    · obtain ⟨hlt, hcopy, _⟩ := floodMessage_emissions fp m m.Hops [] now e he
      have h2 : wrapInt64 (m.Hops + 1) = m.Hops + 1 :=
        wrapInt64_of_inInt64 _ (by unfold inInt64; omega)
      rw [hcopy]
      simp only [FloodingProtocol.floodedMessage]
      rw [h2]
      exact ⟨rfl, by omega⟩
  · intro e he
    obtain ⟨hlt, hcopy, _⟩ := floodMessage_emissions fp m 0 [] now e he
    have h2 : wrapInt64 (0 + 1) = 1 := by decide
    rw [hcopy]
    simp only [FloodingProtocol.floodedMessage]
    rw [h2]
    exact ⟨rfl, by omega⟩

/-- C34 (witness). Node A drops the received message with hop count 5, and the copies it
sends for the received m1 (hop count 1) have hop count 2. -/
theorem copies_within_hop_limit_witness :
    inInt64 farMsg.Hops ∧ inInt64 floodNode.maxHops ∧
    floodNode.HandleIncomingMessage farMsg 100 = (floodNode, []) ∧
    (floodNode.HandleIncomingMessage floodMsg 100).2.map (fun e => (e.1, e.2.Hops)) =
      [("B", 2), ("C", 2), ("D", 2)] ∧
    (∀ e ∈ (floodNode.HandleIncomingMessage floodMsg 100).2,
      e.2.Hops = floodMsg.Hops + 1 ∧ e.2.Hops ≤ floodNode.maxHops) :=
  ⟨by decide, by decide,
    (copies_within_hop_limit floodNode farMsg 100 (by decide) (by decide)).1 (by decide),
    by decide,
    (copies_within_hop_limit floodNode floodMsg 100 (by decide) (by decide)).2.2.1⟩

/-! ## Voting poll -/

theorem slice_eq_drop (pre tail : List Char) (last : Nat) (h : last ≤ pre.length) :
    ((pre ++ tail).drop last).take (pre.length - last) = pre.drop last := by
  rw [List.drop_append_of_le_length h]
  exact List.take_left' (by simp)

theorem modifyHead_nil_append (l : List (List Char)) :
    l.modifyHead (fun segment => [] ++ segment) = l := by
  cases l <;> simp [List.modifyHead]

theorem splitLoop_segments (chars : List Char) :
    ∀ (rest pre : List Char) (last : Nat) (result : List String),
      chars = pre ++ rest → last ≤ pre.length →
      splitTail chars (splitLoop chars rest pre.length last result) =
        result ++
          (((rest.splitOnP (fun x => x == ',')).modifyHead
            (fun segment => pre.drop last ++ segment)).filter
              (fun segment => segment ≠ [])).map String.mk := by
  intro rest
  induction rest with
  | nil =>
    intro pre last result hchars hlast
    simp only [List.append_nil] at hchars
    subst hchars
    simp only [splitLoop, splitTail, List.splitOnP_nil, List.modifyHead, List.append_nil]
    by_cases h : last < chars.length
    · have hne : chars.drop last ≠ [] := by
        intro e
        have := congrArg List.length e
        simp at this
        omega
      simp [h, hne]
    · have he : chars.drop last = [] := List.drop_eq_nil_of_le (by omega)
      simp [h, he]
  | cons c rest ih =>
    intro pre last result hchars hlast
    have hchars1 : chars = (pre ++ [c]) ++ rest := by simp [hchars]
    have hlen1 : (pre ++ [c]).length = pre.length + 1 := by simp
    rw [List.splitOnP_cons]
    by_cases hc : c = ','
    · subst hc
      have hp : (((',' : Char) == ',') = true) := by decide
      rw [if_pos hp]
      have hslice : (chars.drop last).take (pre.length - last) = pre.drop last := by
        rw [hchars]
        exact slice_eq_drop pre _ last hlast
      have hdrop : (pre ++ [',']).drop (pre.length + 1) = [] :=
        List.drop_eq_nil_of_le (by simp)
      have hnext : ∀ result1,
          splitTail chars (splitLoop chars rest (pre.length + 1) (pre.length + 1) result1) =
            result1 ++
              ((rest.splitOnP (fun x => x == ',')).filter
                (fun segment => segment ≠ [])).map String.mk := by
        intro result1
        have h := ih (pre ++ [',']) (pre.length + 1) result1 hchars1 (by simp)
        rw [hlen1, hdrop, modifyHead_nil_append] at h
        exact h
      by_cases hi : pre.length > last
      · have hne : pre.drop last ≠ [] := by
          intro e
          have := congrArg List.length e
          simp only [List.length_drop, List.length_nil] at this
          omega
        have hpos : (pre.drop last).length > 0 := List.length_pos.2 hne
        simp only [splitLoop, if_true, hi, hslice, hpos]
        rw [hnext]
        simp [List.modifyHead, List.filter_cons, hne]
      · have he : pre.drop last = [] := List.drop_eq_nil_of_le (by omega)
        simp only [splitLoop, if_true, hi, if_false]
        rw [hnext]
        simp [List.modifyHead, List.filter_cons, he]
    · have hp : ¬ ((c == ',') = true) := by simpa using hc
      rw [if_neg hp]
      have hnext := ih (pre ++ [c]) last result hchars1 (by rw [hlen1]; omega)
      rw [hlen1] at hnext
      simp only [splitLoop, hc, if_false]
      rw [hnext, List.modifyHead_modifyHead, List.drop_append_of_le_length hlast]
      have hf : (fun segment => List.drop last pre ++ [c] ++ segment) =
          (fun segment => List.drop last pre ++ segment) ∘ List.cons c := by
        funext segment
        simp
      rw [hf]

theorem splitOptions_eq_segments (s : String) : splitOptions s = nonEmptySegments s := by
  have h := splitLoop_segments s.data s.data [] 0 [] (by simp) (by simp)
  simp only [List.length_nil, List.drop_zero] at h
  rw [modifyHead_nil_append] at h
  exact h

theorem zeroVotes_get (options : List String) (o : String) :
    ∀ init : List (String × Int), (o ∈ options ∨ mapGet init o = some 0) →
      mapGet (options.foldl (fun votes opt => mapSet votes opt 0) init) o = some 0 := by
  induction options with
  | nil =>
    intro init h
    rcases h with h | h
    · simp at h
    · exact h
  | cons a rest ih =>
    intro init h
    simp only [List.foldl_cons]
    apply ih
    by_cases ha : a = o
    · right
      rw [ha]
      exact mapGet_mapSet_self _ _ _
    · rcases h with h | h
      · rcases List.mem_cons.1 h with e | e
        · exact absurd e.symm ha
        · exact Or.inl e
      · right
        rw [mapGet_mapSet_ne _ _ _ _ ha]
        exact h

/-- C37. The result of splitOptions is the list of the non-empty segments of the string
between its commas, in order, as they stand. Hence for every list of options that
are not empty and hold no comma, splitOptions of the options joined with commas is
that list, and NewPoll on the joined string has these options, each with a vote
count of zero. -/
theorem splitOptions_keeps_nonempty_segments (s : String) (options : List String)
    (hopts : ∀ o ∈ options, o ≠ "" ∧ ',' ∉ o.data)
    (id title description creatorID : String) (now : Int) :
    splitOptions s = nonEmptySegments s ∧
    splitOptions (joinOptions options) = options ∧
    (NewPoll id title description (joinOptions options) creatorID now).Options = options ∧
    ∀ o ∈ options,
      mapGet (NewPoll id title description (joinOptions options) creatorID now).Votes o =
        some 0 := by
  have hjoin : splitOptions (joinOptions options) = options := by
    rw [splitOptions_eq_segments]
    unfold nonEmptySegments joinOptions
    by_cases hnil : options = []
    · subst hnil
      decide
    · have hsplit : List.splitOn ',' ([','].intercalate (options.map String.data)) =
          options.map String.data := by
        apply List.splitOn_intercalate
        · intro l hl
          obtain ⟨o, ho, rfl⟩ := List.mem_map.1 hl
          exact (hopts o ho).2
        · simpa using hnil
      simp only []
      rw [hsplit]
      have hfilter : (options.map String.data).filter (fun segment => segment ≠ []) =
          options.map String.data := by
        apply List.filter_eq_self.2
        intro l hl
        obtain ⟨o, ho, rfl⟩ := List.mem_map.1 hl
        have hne := (hopts o ho).1
        simp only [ne_eq, decide_eq_true_eq]
        intro e
        apply hne
        cases o
        simp only at e
        subst e
        rfl
      rw [hfilter, List.map_map]
      conv_rhs => rw [← List.map_id options]
      apply List.map_congr_left
      intro o _
      rfl
  refine ⟨splitOptions_eq_segments s, hjoin, ?_, ?_⟩
  · simp only [NewPoll, hjoin]
  · intro o ho
    simp only [NewPoll, hjoin]
    exact zeroVotes_get options o [] (Or.inl ho)

/-- C37 (witness). The options of the example: Cafe, Park and Office. -/
theorem splitOptions_keeps_nonempty_segments_witness :
    splitOptions ",a,,b," = ["a", "b"] ∧
    joinOptions ["Cafe", "Park", "Office"] = "Cafe,Park,Office" ∧
    splitOptions (joinOptions ["Cafe", "Park", "Office"]) = ["Cafe", "Park", "Office"] ∧
    meetPoll.Votes = [("Cafe", 0), ("Park", 0), ("Office", 0)] ∧
    mapGet (NewPoll "poll-1" "Where should we meet?" "Choose a location for the afterparty"
      (joinOptions ["Cafe", "Park", "Office"]) "go-example" 0).Votes "Park" = some 0 :=
  ⟨by decide, by decide,
    (splitOptions_keeps_nonempty_segments "" ["Cafe", "Park", "Office"] (by decide)
      "poll-1" "Where should we meet?" "Choose a location for the afterparty" "go-example"
      0).2.1,
    by decide,
    (splitOptions_keeps_nonempty_segments "" ["Cafe", "Park", "Office"] (by decide)
      "poll-1" "Where should we meet?" "Choose a location for the afterparty" "go-example"
      0).2.2.2 "Park" (by decide)⟩

theorem totalVotes_fold (l : List (String × Int)) :
    ∀ acc : Int, 0 ≤ acc → (∀ kv ∈ l, 0 ≤ kv.2) → acc + (l.map Prod.snd).sum < 2 ^ 63 →
      l.foldl (fun total kv => wrapInt64 (total + kv.2)) acc = acc + (l.map Prod.snd).sum := by
  induction l with
  | nil =>
    intro acc _ _ _
    simp
  | cons kv rest ih =>
    intro acc hacc hnn hlt
    have h0 : 0 ≤ kv.2 := hnn kv (List.mem_cons_self _ _)
    have hrest : 0 ≤ (rest.map Prod.snd).sum := by
      apply List.sum_nonneg
      intro x hx
      obtain ⟨y, hy, rfl⟩ := List.mem_map.1 hx
      exact hnn y (List.mem_cons_of_mem _ hy)
    simp only [List.map_cons, List.sum_cons] at hlt
    have hw : wrapInt64 (acc + kv.2) = acc + kv.2 :=
      wrapInt64_of_inInt64 _ (by unfold inInt64; omega)
    simp only [List.foldl_cons, List.map_cons, List.sum_cons, hw]
    rw [ih (acc + kv.2) (by omega) (fun x hx => hnn x (List.mem_cons_of_mem _ hx)) (by omega)]
    omega

theorem sum_mapSet (m : List (String × Int)) (k : String) (c v : Int)
    (h : mapGet m k = some c) :
    ((mapSet m k v).map Prod.snd).sum = (m.map Prod.snd).sum - c + v := by
  induction m with
  | nil => simp [mapGet] at h
  | cons a m ih =>
    obtain ⟨a1, a2⟩ := a
    by_cases h1 : a1 = k
    · simp only [mapGet, h1, if_true, Option.some.injEq] at h
      simp only [mapSet, h1, if_true, List.map_cons, List.sum_cons]
      omega
    · simp only [mapGet, h1, if_false] at h
      simp only [mapSet, h1, if_false, List.map_cons, List.sum_cons, ih h]
      omega

theorem newPoll_wf (id title description optionsStr creatorID : String) (now : Int) :
    (NewPoll id title description optionsStr creatorID now).WF := by
  have key : ∀ (options : List String) (init : List (String × Int)),
      (mapKeys init).Nodup → (∀ kv ∈ init, 0 ≤ kv.2) →
      (mapKeys (options.foldl (fun votes opt => mapSet votes opt 0) init)).Nodup ∧
      (∀ o, o ∈ mapKeys (options.foldl (fun votes opt => mapSet votes opt 0) init) ↔
        o ∈ options ∨ o ∈ mapKeys init) ∧
      ∀ kv ∈ options.foldl (fun votes opt => mapSet votes opt 0) init, 0 ≤ kv.2 := by
    intro options
    induction options with
    | nil =>
      intro init h1 h2
      exact ⟨h1, by simp, h2⟩
    | cons a rest ih =>
      intro init h1 h2
      obtain ⟨g1, g2, g3⟩ := ih (mapSet init a 0) (mapSet_keys_nodup _ _ _ h1)
        (by
          intro kv hkv
          rcases mem_mapSet _ _ _ _ hkv with e | e
          · rw [e]
          · exact h2 kv e)
      refine ⟨g1, ?_, g3⟩
      intro o
      simp only [List.foldl_cons, g2, mem_mapKeys_mapSet, List.mem_cons]
      constructor
      · rintro (h | h | h)
        · exact Or.inl (Or.inr h)
        · exact Or.inr h
        · exact Or.inl (Or.inl h)
      · rintro ((h | h) | h)
        · exact Or.inr (Or.inr h)
        · exact Or.inl h
        · exact Or.inr (Or.inl h)
  obtain ⟨g1, g2, g3⟩ := key (splitOptions optionsStr) [] (by simp [mapKeys]) (by simp)
  refine ⟨g1, ?_, g3⟩
  intro o
  simp only [NewPoll]
  rw [g2]
  simp [mapKeys]

/-- C38. Let the poll be well formed, as NewPoll creates it and AddVote keeps it, with a
total below the largest Go int. AddVote of one of the options of the poll raises
the count of that option by exactly one and the total of GetTotalVotes by exactly
one, and leaves every other count and the rest of the poll as they are. AddVote
of a string that is not an option leaves the poll unchanged. -/
theorem addVote_counts_one (p : VotingPoll) (hwf : p.WF)
    (hsum : (p.Votes.map Prod.snd).sum < 2 ^ 63 - 1) (option : String) :
    (option ∈ p.Options →
      ∃ count, mapGet p.Votes option = some count ∧
        mapGet (p.AddVote option).Votes option = some (count + 1) ∧
        (p.AddVote option).GetTotalVotes = p.GetTotalVotes + 1 ∧
        (∀ o, o ≠ option → mapGet (p.AddVote option).Votes o = mapGet p.Votes o) ∧
        (p.AddVote option).Options = p.Options ∧
        mapKeys (p.AddVote option).Votes = mapKeys p.Votes) ∧
    (option ∉ p.Options → p.AddVote option = p) ∧
    (p.AddVote option).WF := by
  obtain ⟨hnd, hkeys, hnn⟩ := hwf
  have hsum0 : 0 ≤ (p.Votes.map Prod.snd).sum := by
    apply List.sum_nonneg
    intro x hx
    obtain ⟨y, hy, rfl⟩ := List.mem_map.1 hx
    exact hnn y hy
  have htotal : p.GetTotalVotes = (p.Votes.map Prod.snd).sum := by
    unfold VotingPoll.GetTotalVotes
    rw [totalVotes_fold p.Votes 0 (le_refl 0) hnn (by omega)]
    omega
  have hcases : mapGet p.Votes option = none ∨ ∃ count, mapGet p.Votes option = some count := by
    cases mapGet p.Votes option with
    | none => exact Or.inl rfl
    | some count => exact Or.inr ⟨count, rfl⟩
  rcases hcases with hget | ⟨count, hget⟩
  · have hnot : option ∉ p.Options := fun h =>
      (mapGet_eq_none_iff _ _).1 hget ((hkeys _).1 h)
    refine ⟨fun h => absurd h hnot, fun _ => by simp [VotingPoll.AddVote, hget], ?_⟩
    simp only [VotingPoll.AddVote, hget]
    exact ⟨hnd, hkeys, hnn⟩
  · have hmem : (option, count) ∈ p.Votes := mapGet_mem _ _ _ hget
    have hc0 : 0 ≤ count := hnn _ hmem
    have hcle : count ≤ (p.Votes.map Prod.snd).sum := by
      have := sum_mapSet p.Votes option count 0 hget
      have h0 : 0 ≤ ((mapSet p.Votes option 0).map Prod.snd).sum := by
        apply List.sum_nonneg
        intro x hx
        obtain ⟨y, hy, rfl⟩ := List.mem_map.1 hx
        rcases mem_mapSet _ _ _ _ hy with e | e
        · rw [e]
        · exact hnn y e
      omega
    have hw : wrapInt64 (count + 1) = count + 1 :=
      wrapInt64_of_inInt64 _ (by unfold inInt64; omega)
    have hin : option ∈ mapKeys p.Votes := List.mem_map_of_mem Prod.fst hmem
    have hkeys1 : mapKeys (mapSet p.Votes option (count + 1)) = mapKeys p.Votes := by
      unfold mapKeys at hin ⊢
      rw [mapSet_keys, if_pos hin]
    have hnn1 : ∀ kv ∈ mapSet p.Votes option (count + 1), 0 ≤ kv.2 := by
      intro kv hkv
      rcases mem_mapSet _ _ _ _ hkv with e | e
      · rw [e]
        simp only []
        omega
      · exact hnn kv e
    have hsum1 := sum_mapSet p.Votes option count (count + 1) hget
    have hadd : p.AddVote option =
        { p with Votes := mapSet p.Votes option (count + 1) } := by
      simp only [VotingPoll.AddVote, hget, hw]
    rw [hadd]
    refine ⟨fun _ => ⟨count, hget, mapGet_mapSet_self _ _ _, ?_, ?_, rfl, hkeys1⟩,
      fun h => absurd ((hkeys _).2 hin) h, ?_⟩
    · rw [htotal]
      unfold VotingPoll.GetTotalVotes
      simp only []
      rw [totalVotes_fold _ 0 (le_refl 0) hnn1 (by omega)]
      omega
    · intro o ho
      exact mapGet_mapSet_ne _ _ _ _ (fun e => ho e.symm)
    · refine ⟨by rw [hkeys1]; exact hnd, ?_, hnn1⟩
      intro o
      rw [hkeys1]
      exact hkeys o

/-- C38 (witness). The votes of the example: after Cafe, Cafe, Park, Office, Cafe the
total is 5; a vote for Cafe in the new poll makes its count 1 and the total 1, and
a vote for Tea changes nothing. -/
theorem addVote_counts_one_witness :
    (meetPoll.Votes.map Prod.snd).sum < 2 ^ 63 - 1 ∧ "Cafe" ∈ meetPoll.Options ∧
    (((((meetPoll.AddVote "Cafe").AddVote "Cafe").AddVote "Park").AddVote "Office").AddVote
      "Cafe").GetTotalVotes = 5 ∧
    (∃ count, mapGet meetPoll.Votes "Cafe" = some count ∧
      mapGet (meetPoll.AddVote "Cafe").Votes "Cafe" = some (count + 1) ∧
      (meetPoll.AddVote "Cafe").GetTotalVotes = meetPoll.GetTotalVotes + 1 ∧
      (∀ o, o ≠ "Cafe" → mapGet (meetPoll.AddVote "Cafe").Votes o = mapGet meetPoll.Votes o) ∧
      (meetPoll.AddVote "Cafe").Options = meetPoll.Options ∧
      mapKeys (meetPoll.AddVote "Cafe").Votes = mapKeys meetPoll.Votes) ∧
    meetPoll.AddVote "Tea" = meetPoll :=
  ⟨by decide, by decide, by decide,
    (addVote_counts_one meetPoll (newPoll_wf _ _ _ _ _ _) (by decide) "Cafe").1 (by decide),
    (addVote_counts_one meetPoll (newPoll_wf _ _ _ _ _ _) (by decide) "Tea").2.1 (by decide)⟩

/-! ## Handshake -/

theorem complete_session_key (C : Curve25519) (hkdf : Bytes → Bytes → Bytes → Nat → Option Bytes)
    (readRandom : Nat → Option Bytes) (h : Handshake) (peerPublicKey salt sessionKey : Bytes)
    (hsalt : readRandom 32 = some salt)
    (hkey : hkdf (C.ScalarMult h.KeyPair.PrivateKey peerPublicKey) salt sessionKeyInfo 32 =
      some sessionKey) :
    h.Complete C hkdf readRandom peerPublicKey =
      ({ h with
          SharedSecret := C.ScalarMult h.KeyPair.PrivateKey peerPublicKey
          SessionKey := sessionKey }, none) := by
  simp [Handshake.Complete, KeyPair.ComputeSharedSecret, DeriveSessionKey, hsalt, hkey]

/-- C39 (evaluation of the code at the failing input). The parties A and B create their
handshakes with NewHandshake and complete them with the public key of the other.
Both calls return nil and both parties hold the same shared secret, but each
session key is derived with the salt that the party drew from its own random
source during Complete, and the two session keys differ. -/
theorem session_keys_differ_by_local_salt :
    NewHandshake toyCurve (fun _ => some [1, 2]) = Except.ok handshakeA ∧
    NewHandshake toyCurve (fun _ => some [5]) = Except.ok handshakeB ∧
    (handshakeA.Complete toyCurve toyHKDF countingRandom handshakeB.KeyPair.PublicKey).2 = none ∧
    (handshakeB.Complete toyCurve toyHKDF sevensRandom handshakeA.KeyPair.PublicKey).2 = none ∧
    (handshakeA.Complete toyCurve toyHKDF countingRandom
        handshakeB.KeyPair.PublicKey).1.SharedSecret =
      (handshakeB.Complete toyCurve toyHKDF sevensRandom
        handshakeA.KeyPair.PublicKey).1.SharedSecret ∧
    some (handshakeA.Complete toyCurve toyHKDF countingRandom
        handshakeB.KeyPair.PublicKey).1.SessionKey =
      toyHKDF [135] (List.range 32) sessionKeyInfo 32 ∧
    some (handshakeB.Complete toyCurve toyHKDF sevensRandom
        handshakeA.KeyPair.PublicKey).1.SessionKey =
      toyHKDF [135] (List.replicate 32 7) sessionKeyInfo 32 ∧
    (handshakeA.Complete toyCurve toyHKDF countingRandom
        handshakeB.KeyPair.PublicKey).1.SessionKey ≠
      (handshakeB.Complete toyCurve toyHKDF sevensRandom
        handshakeA.KeyPair.PublicKey).1.SessionKey :=
  ⟨rfl, rfl, by decide, by decide, by decide, by decide, by decide, by decide⟩

/-! ## Consensus: the quorum threshold is above one half -/

theorem bitLength_zero (fuel : Nat) : bitLength fuel 0 = 0 := by
  cases fuel <;> simp [bitLength]

theorem bitLength_spec (fuel : Nat) :
    ∀ n, n < 2 ^ fuel → n ≠ 0 →
      2 ^ (bitLength fuel n - 1) ≤ n ∧ n < 2 ^ bitLength fuel n := by
  induction fuel with
  | zero =>
    intro n h h0
    simp at h
    exact absurd h h0
  | succ fuel ih =>
    intro n h h0
    simp only [bitLength, h0, if_false, Nat.add_sub_cancel]
    have hhalf : n / 2 < 2 ^ fuel := by
      rw [pow_succ] at h
      omega
    by_cases h2 : n / 2 = 0
    · rw [h2, bitLength_zero]
      simp only [pow_zero, zero_add, pow_one]
      omega
    · obtain ⟨g1, g2⟩ := ih (n / 2) hhalf h2
      have hb : 1 ≤ bitLength fuel (n / 2) := by
        by_contra hb
        have hz : bitLength fuel (n / 2) = 0 := by omega
        rw [hz] at g2
        simp at g2
        exact h2 g2
      have hp : 2 ^ bitLength fuel (n / 2) = 2 * 2 ^ (bitLength fuel (n / 2) - 1) := by
        conv_lhs => rw [← Nat.sub_add_cancel hb]
        rw [pow_succ]
        ring
      rw [pow_succ]
      omega

theorem roundF64_lower (m : Nat) (e : Int) (hm : m < 2 ^ 256) :
    ∃ s : Nat, (roundF64 m e).2 = e + (s : Int) ∧
      4503599627370495 * m ≤ 4503599627370496 * ((roundF64 m e).1 * 2 ^ s) ∧
      (roundF64 m e).1 ≤ 9007199254740992 := by
  unfold roundF64
  have h53 : (2 : Nat) ^ 53 = 9007199254740992 := by norm_num
  have h52 : (2 : Nat) ^ 52 = 4503599627370496 := by norm_num
  by_cases hsmall : m < 2 ^ 53
  · simp only [hsmall, if_true]
    refine ⟨0, by simp, ?_, ?_⟩
    · simp only [pow_zero, Nat.mul_one]
      omega
    · omega
  · simp only [hsmall, if_false]
    have hm0 : m ≠ 0 := by
      intro e0
      rw [e0] at hsmall
      simp at hsmall
    obtain ⟨g1, g2⟩ := bitLength_spec 256 m hm hm0
    have hB : 53 < bitLength 256 m := by
      by_contra hB
      have : 2 ^ bitLength 256 m ≤ 2 ^ 53 := Nat.pow_le_pow_right (by norm_num) (by omega)
      omega
    generalize bitLength 256 m = B at g1 g2 hB
    obtain ⟨s, rfl⟩ : ∃ s, B = s + 53 := ⟨B - 53, by omega⟩
    have hs : s + 53 - 53 = s := by omega
    have hs1 : s + 53 - 1 = 52 + s := by omega
    rw [hs1, pow_add, h52] at g1
    rw [pow_add, h53] at g2
    simp only [hs]
    have hP : 0 < 2 ^ s := Nat.pow_pos (by norm_num)
    have hdm : 2 ^ s * (m / 2 ^ s) + m % 2 ^ s = m := Nat.div_add_mod m (2 ^ s)
    have hr : m % 2 ^ s < 2 ^ s := Nat.mod_lt _ hP
    have hq : m / 2 ^ s < 9007199254740992 := by
      apply (Nat.div_lt_iff_lt_mul hP).2
      rw [Nat.mul_comm]
      exact g2
    refine ⟨s, rfl, ?_, ?_⟩
    · have hge : m / 2 ^ s ≤
          (if 2 ^ (s - 1) < m % 2 ^ s ∨ m % 2 ^ s = 2 ^ (s - 1) ∧ m / 2 ^ s % 2 = 1
            then m / 2 ^ s + 1 else m / 2 ^ s) := by
        split_ifs <;> omega
      have hmul := Nat.mul_le_mul_right (2 ^ s) hge
      rw [Nat.mul_comm (m / 2 ^ s) (2 ^ s)] at hmul
      generalize (if 2 ^ (s - 1) < m % 2 ^ s ∨ m % 2 ^ s = 2 ^ (s - 1) ∧ m / 2 ^ s % 2 = 1
            then m / 2 ^ s + 1 else m / 2 ^ s) * 2 ^ s = Y at hmul ⊢
      generalize 2 ^ s * (m / 2 ^ s) = X at hmul hdm
      omega
    · split_ifs <;> omega

theorem ceilF64_lower (m t : Nat) :
    m * 2 ^ t ≤ 9007199254740992 * ceilF64 m ((t : Int) - 53) := by
  have h53 : (2 : Nat) ^ 53 = 9007199254740992 := by norm_num
  unfold ceilF64
  by_cases h : 53 ≤ t
  · obtain ⟨d, rfl⟩ : ∃ d, t = 53 + d := ⟨t - 53, by omega⟩
    have he : ((53 + d : Nat) : Int) - 53 = (d : Int) := by
      push_cast
      ring
    have h0 : (0 : Int) ≤ (d : Int) := Int.natCast_nonneg d
    rw [he]
    simp only [h0, if_true, Int.toNat_ofNat, pow_add, h53]
    apply le_of_eq
    ring
  · obtain ⟨k, hk, hk1⟩ : ∃ k, 53 = t + k ∧ 1 ≤ k := ⟨53 - t, by omega, by omega⟩
    have he : ((t : Nat) : Int) - 53 = -(k : Int) := by
      have : (53 : Int) = (t : Int) + (k : Int) := by exact_mod_cast hk
      omega
    have hneg : ¬ (0 : Int) ≤ -(k : Int) := by omega
    rw [he]
    simp only [hneg, if_false, neg_neg, Int.toNat_ofNat]
    have hK : 0 < 2 ^ k := Nat.pow_pos (by norm_num)
    have hdm := Nat.div_add_mod (m + 2 ^ k - 1) (2 ^ k)
    have hr := Nat.mod_lt (m + 2 ^ k - 1) hK
    have hc : m ≤ 2 ^ k * ((m + 2 ^ k - 1) / 2 ^ k) := by
      generalize 2 ^ k * ((m + 2 ^ k - 1) / 2 ^ k) = X at hdm ⊢
      omega
    have hpow : (9007199254740992 : Nat) = 2 ^ t * 2 ^ k := by
      rw [← pow_add, ← hk, h53]
    rw [hpow]
    calc m * 2 ^ t = 2 ^ t * m := Nat.mul_comm _ _
      _ ≤ 2 ^ t * (2 ^ k * ((m + 2 ^ k - 1) / 2 ^ k)) := Nat.mul_le_mul_left _ hc
      _ = 2 ^ t * 2 ^ k * ((m + 2 ^ k - 1) / 2 ^ k) := by ring

theorem quorumThreshold_gt_half (N : Nat) (h1 : 1 ≤ N) (hN : N < 2 ^ 256) :
    (N : Int) < 2 * quorumThreshold N := by
  unfold quorumThreshold
  simp only []
  obtain ⟨s1, e1, l1, u1⟩ := roundF64_lower N 0 hN
  have hprod : (roundF64 N 0).1 * mantissa067 < 2 ^ 256 := by
    have hM : mantissa067 < 2 ^ 53 := by decide
    calc (roundF64 N 0).1 * mantissa067
        ≤ 9007199254740992 * mantissa067 := Nat.mul_le_mul_right _ u1
      _ < 9007199254740992 * 2 ^ 53 := Nat.mul_lt_mul_of_pos_left hM (by norm_num)
      _ < 2 ^ 256 := by norm_num
  obtain ⟨s2, e2, l2, _⟩ :=
    roundF64_lower ((roundF64 N 0).1 * mantissa067) ((roundF64 N 0).2 - 53) hprod
  have hexp : (roundF64 ((roundF64 N 0).1 * mantissa067) ((roundF64 N 0).2 - 53)).2 =
      ((s1 + s2 : Nat) : Int) - 53 := by
    rw [e2, e1]
    push_cast
    ring
  rw [hexp]
  have hc := ceilF64_lower
    (roundF64 ((roundF64 N 0).1 * mantissa067) ((roundF64 N 0).2 - 53)).1 (s1 + s2)
  generalize ceilF64 (roundF64 ((roundF64 N 0).1 * mantissa067) ((roundF64 N 0).2 - 53)).1
    (((s1 + s2 : Nat) : Int) - 53) = c at hc ⊢
  generalize (roundF64 ((roundF64 N 0).1 * mantissa067) ((roundF64 N 0).2 - 53)).1 = p1
    at hc l2
  generalize (roundF64 N 0).1 = x1 at l1 l2
  have l2s := Nat.mul_le_mul_right (2 ^ s1) l2
  have hA : 4503599627370496 * (p1 * 2 ^ s2) * 2 ^ s1 = 4503599627370496 * (p1 * 2 ^ (s1 + s2)) := by
    rw [pow_add]
    ring
  have hB : 4503599627370495 * (x1 * mantissa067) * 2 ^ s1 =
      4503599627370495 * mantissa067 * (x1 * 2 ^ s1) := by
    ring
  rw [hA, hB] at l2s
  have hM : mantissa067 = 6034823500676465 := rfl
  rw [hM] at l2s
  generalize x1 * 2 ^ s1 = B at l1 l2s
  generalize p1 * 2 ^ (s1 + s2) = A at hc l2s
  have key : N < 2 * c := by omega
  exact_mod_cast key

theorem sum_mapSet_new (m : List (String × Int)) (k : String) (v : Int)
    (h : mapGet m k = none) :
    ((mapSet m k v).map Prod.snd).sum = (m.map Prod.snd).sum + v := by
  induction m with
  | nil => simp [mapSet]
  | cons a m ih =>
    obtain ⟨a1, a2⟩ := a
    by_cases h1 : a1 = k
    · simp [mapGet, h1] at h
    · simp only [mapGet, h1, if_false] at h
      simp only [mapSet, h1, if_false, List.map_cons, List.sum_cons, ih h]
      omega

theorem countVotes_fold (H : String → String) (votes : List (String × Vote)) :
    ∀ init : List (String × Int), (mapKeys init).Nodup → (∀ kv ∈ init, 0 ≤ kv.2) →
      (mapKeys (votes.foldl
        (fun counts kv =>
          mapSet counts (H kv.2.Value) ((mapGet counts (H kv.2.Value)).getD 0 + 1))
        init)).Nodup ∧
      (∀ kv ∈ votes.foldl
        (fun counts kv =>
          mapSet counts (H kv.2.Value) ((mapGet counts (H kv.2.Value)).getD 0 + 1))
        init, 0 ≤ kv.2) ∧
      ((votes.foldl
        (fun counts kv =>
          mapSet counts (H kv.2.Value) ((mapGet counts (H kv.2.Value)).getD 0 + 1))
        init).map Prod.snd).sum = (init.map Prod.snd).sum + votes.length := by
  induction votes with
  | nil =>
    intro init h1 h2
    exact ⟨h1, h2, by simp⟩
  | cons v rest ih =>
    intro init h1 h2
    have hnn : ∀ kv ∈ mapSet init (H v.2.Value) ((mapGet init (H v.2.Value)).getD 0 + 1),
        0 ≤ kv.2 := by
      intro kv hkv
      rcases mem_mapSet _ _ _ _ hkv with e | e
      · rw [e]
        simp only []
        cases hg : mapGet init (H v.2.Value) with
        | none => simp
        | some c =>
          have := h2 _ (mapGet_mem _ _ _ hg)
          simp only [Option.getD_some]
          omega
      · exact h2 kv e
    have hsum : ((mapSet init (H v.2.Value)
        ((mapGet init (H v.2.Value)).getD 0 + 1)).map Prod.snd).sum =
        (init.map Prod.snd).sum + 1 := by
      cases hg : mapGet init (H v.2.Value) with
      | none =>
        rw [sum_mapSet_new _ _ _ hg]
        simp
      | some c =>
        rw [sum_mapSet _ _ c _ hg]
        simp only [Option.getD_some]
        omega
    obtain ⟨g1, g2, g3⟩ := ih _ (mapSet_keys_nodup _ _ _ h1) hnn
    refine ⟨g1, g2, ?_⟩
    simp only [List.foldl_cons, List.length_cons]
    rw [g3, hsum]
    push_cast
    omega

theorem countVotes_wf (H : String → String) (votes : List (String × Vote)) :
    (mapKeys (ConsensusProtocol.countVotes H votes)).Nodup ∧
    (∀ kv ∈ ConsensusProtocol.countVotes H votes, 0 ≤ kv.2) ∧
    ((ConsensusProtocol.countVotes H votes).map Prod.snd).sum = votes.length := by
  obtain ⟨g1, g2, g3⟩ := countVotes_fold H votes [] (by simp [mapKeys]) (by simp)
  refine ⟨g1, g2, ?_⟩
  unfold ConsensusProtocol.countVotes
  rw [g3]
  simp

theorem two_counts_le_sum (m : List (String × Int)) (k1 k2 : String) (a b : Int)
    (hnn : ∀ kv ∈ m, 0 ≤ kv.2) (hne : k1 ≠ k2)
    (h1 : mapGet m k1 = some a) (h2 : mapGet m k2 = some b) :
    a + b ≤ (m.map Prod.snd).sum := by
  have s1 := sum_mapSet m k1 a 0 h1
  have h2a : mapGet (mapSet m k1 0) k2 = some b := by
    rw [mapGet_mapSet_ne _ _ _ _ hne]
    exact h2
  have s2 := sum_mapSet (mapSet m k1 0) k2 b 0 h2a
  have h0 : 0 ≤ ((mapSet (mapSet m k1 0) k2 0).map Prod.snd).sum := by
    apply List.sum_nonneg
    intro x hx
    obtain ⟨y, hy, rfl⟩ := List.mem_map.1 hx
    rcases mem_mapSet _ _ _ _ hy with e | e
    · rw [e]
    · rcases mem_mapSet _ _ _ _ e with e1 | e1
      · rw [e1]
      · exact hnn y e1
  omega

theorem findMajority_fold (counts : List (String × Int)) :
    ∀ acc : String × Int,
      (counts.foldl (fun acc kv => if kv.2 > acc.2 then (kv.1, kv.2) else acc) acc).2 = acc.2 ∨
      ∃ kv ∈ counts,
        kv.2 = (counts.foldl (fun acc kv => if kv.2 > acc.2 then (kv.1, kv.2) else acc) acc).2 := by
  induction counts with
  | nil =>
    intro acc
    exact Or.inl rfl
  | cons kv rest ih =>
    intro acc
    simp only [List.foldl_cons]
    by_cases h : kv.2 > acc.2
    · simp only [h, if_true]
      rcases ih (kv.1, kv.2) with g | ⟨x, hx, g⟩
      · exact Or.inr ⟨kv, List.mem_cons_self _ _, g.symm⟩
      · exact Or.inr ⟨x, List.mem_cons_of_mem _ hx, g⟩
    · simp only [h, if_false]
      rcases ih acc with g | ⟨x, hx, g⟩
      · exact Or.inl g
      · exact Or.inr ⟨x, List.mem_cons_of_mem _ hx, g⟩

theorem handleVote_open_result (H : String → String) (cp : ConsensusProtocol)
    (message : Message) (proposalID : String) (vote : Vote) (round : VoteRound) (now : Int)
    (hpayload : message.Payload = Payload.fields (some proposalID) (some vote))
    (hround : mapGet cp.votes proposalID = some round)
    (hopen : round.Consensus = none)
    (hbelow : (ConsensusProtocol.findMajority
        (ConsensusProtocol.countVotes H (mapSet round.Votes vote.NodeID vote))).2 <
      quorumThreshold (cp.peers.length + 1)) :
    ConsensusProtocol.GetConsensusResult
      (ConsensusProtocol.handleVote H cp message now) proposalID = none := by
  have hq : ¬ (ConsensusProtocol.findMajority
        (ConsensusProtocol.countVotes H (mapSet round.Votes vote.NodeID vote))).2 ≥
      quorumThreshold (cp.peers.length + 1) := by omega
  simp only [ConsensusProtocol.handleVote, hpayload, hround,
    ConsensusProtocol.checkConsensus, mapGet_mapSet_self, hopen, Option.isSome_none,
    Bool.false_eq_true, if_false, hq]
  simp only [ConsensusProtocol.GetConsensusResult, mapGet_mapSet_self, hopen]

/-- C32. Let a vote be handled for a round without a result, at a node with N = known
peers + 1 (N a Go int), such that with this vote the round holds votes of at most
N voters. Counts are kept per digest of the rendered value. Then at most one
digest has a count that reaches the threshold of checkConsensus; and if two
different digests share the largest count, the round is not marked achieved. -/
theorem tied_values_do_not_reach_quorum (H : String → String) (cp : ConsensusProtocol)
    (message : Message) (proposalID : String) (vote : Vote) (round : VoteRound) (now : Int)
    (hpayload : message.Payload = Payload.fields (some proposalID) (some vote))
    (hround : mapGet cp.votes proposalID = some round)
    (hopen : round.Consensus = none)
    (hN : cp.peers.length + 1 < 2 ^ 63)
    (hvoters : (mapSet round.Votes vote.NodeID vote).length ≤ cp.peers.length + 1) :
    (∀ k1 k2 c1 c2,
      mapGet (ConsensusProtocol.countVotes H (mapSet round.Votes vote.NodeID vote)) k1 =
        some c1 →
      mapGet (ConsensusProtocol.countVotes H (mapSet round.Votes vote.NodeID vote)) k2 =
        some c2 →
      c1 ≥ quorumThreshold (cp.peers.length + 1) →
      c2 ≥ quorumThreshold (cp.peers.length + 1) → k1 = k2) ∧
    (∀ k1 k2 c, k1 ≠ k2 →
      mapGet (ConsensusProtocol.countVotes H (mapSet round.Votes vote.NodeID vote)) k1 =
        some c →
      mapGet (ConsensusProtocol.countVotes H (mapSet round.Votes vote.NodeID vote)) k2 =
        some c →
      (∀ k c1,
        mapGet (ConsensusProtocol.countVotes H (mapSet round.Votes vote.NodeID vote)) k =
          some c1 → c1 ≤ c) →
      ConsensusProtocol.GetConsensusResult
        (ConsensusProtocol.handleVote H cp message now) proposalID = none) := by
  obtain ⟨hnd, hnn, hsum⟩ := countVotes_wf H (mapSet round.Votes vote.NodeID vote)
  have hT := quorumThreshold_gt_half (cp.peers.length + 1) (by omega)
    (lt_trans hN (by norm_num))
  have hlen : ((mapSet round.Votes vote.NodeID vote).length : Int) ≤
      ((cp.peers.length + 1 : Nat) : Int) := by exact_mod_cast hvoters
  constructor
  · intro k1 k2 c1 c2 h1 h2 g1 g2
    by_contra hne
    have := two_counts_le_sum _ k1 k2 c1 c2 hnn hne h1 h2
    omega
  · intro k1 k2 c hne h1 h2 hmax
    apply handleVote_open_result H cp message proposalID vote round now hpayload hround hopen
    have hle := two_counts_le_sum _ k1 k2 c c hnn hne h1 h2
    unfold ConsensusProtocol.findMajority
    rcases findMajority_fold
        (ConsensusProtocol.countVotes H (mapSet round.Votes vote.NodeID vote))
        (nilValue, 0) with g | ⟨kv, hkv, g⟩
    · rw [g]
      simp only []
      omega
    · rw [← g]
      have hget := mapGet_of_mem_nodup _ kv.1 kv.2 hnd hkv
      have := hmax kv.1 kv.2 hget
      omega

/-- C32 (witness). Node n0 knows three peers, so N = 4 and the threshold is 3. In round r
the votes stand at X, X, Y; the vote of p3 for Y makes it two against two, and the
round stays without a result. -/
theorem tied_values_do_not_reach_quorum_witness :
    mapGet tieNode.votes "r" = some tieRound ∧ quorumThreshold 4 = 3 ∧
    ConsensusProtocol.countVotes stubDigest
      (mapSet tieRound.Votes "p3" { NodeID := "p3", Value := "Y", Timestamp := 4, Signature := [] })
      = [("sha256:X", 2), ("sha256:Y", 2)] ∧
    ConsensusProtocol.GetConsensusResult
      (ConsensusProtocol.handleVote stubDigest tieNode (roundVote "p3" "Y" 4) 4) "r" = none :=
  ⟨by decide, by decide, by decide,
    (tied_values_do_not_reach_quorum stubDigest tieNode (roundVote "p3" "Y" 4) "r"
      { NodeID := "p3", Value := "Y", Timestamp := 4, Signature := [] } tieRound 4
      rfl (by decide) rfl (by decide) (by decide)).2
      "sha256:X" "sha256:Y" 2 (by decide) (by decide) (by decide)
      (by
        intro k c1 h
        have hc : ConsensusProtocol.countVotes stubDigest
            (mapSet tieRound.Votes "p3"
              { NodeID := "p3", Value := "Y", Timestamp := 4, Signature := [] }) =
            [("sha256:X", 2), ("sha256:Y", 2)] := by decide
        rw [hc] at h
        simp only [mapGet] at h
        split_ifs at h <;> simp_all)⟩

/-! ## Consensus: a vote handled after the timeout -/

theorem findMajority_max (counts : List (String × Int)) :
    ∀ acc : String × Int,
      acc.2 ≤ (counts.foldl (fun acc kv => if kv.2 > acc.2 then (kv.1, kv.2) else acc) acc).2 ∧
      ∀ kv ∈ counts,
        kv.2 ≤ (counts.foldl (fun acc kv => if kv.2 > acc.2 then (kv.1, kv.2) else acc) acc).2 := by
  induction counts with
  | nil =>
    intro acc
    exact ⟨le_refl _, by simp⟩
  | cons kv rest ih =>
    intro acc
    simp only [List.foldl_cons]
    by_cases h : kv.2 > acc.2
    · simp only [h, if_true]
      obtain ⟨g1, g2⟩ := ih (kv.1, kv.2)
      simp only [] at g1
      refine ⟨by omega, ?_⟩
      intro x hx
      rcases List.mem_cons.1 hx with e | e
      · rw [e]
        exact g1
      · exact g2 x e
    · simp only [h, if_false]
      obtain ⟨g1, g2⟩ := ih acc
      refine ⟨g1, ?_⟩
      intro x hx
      rcases List.mem_cons.1 hx with e | e
      · rw [e]
        omega
      · exact g2 x e

theorem countVotes_ne_nil (H : String → String) (votes : List (String × Vote))
    (hne : votes ≠ []) : ConsensusProtocol.countVotes H votes ≠ [] := by
  intro h
  have hsum := (countVotes_wf H votes).2.2
  rw [h] at hsum
  simp only [List.map_nil, List.sum_nil] at hsum
  have hlen : votes.length = 0 := by exact_mod_cast hsum.symm
  exact hne (List.length_eq_zero.1 hlen)

theorem mapSet_ne_nil {β : Type} (m : List (String × β)) (k : String) (v : β) :
    mapSet m k v ≠ [] := by
  intro h
  have h1 : mapGet (mapSet m k v) k = some v := mapGet_mapSet_self _ _ _
  rw [h] at h1
  exact Option.noConfusion h1

/-- C30 (amended). A vote for a round that has no result is handled without regard to
the timeout and to the time passed since the start of the round. Whether the
round is marked achieved, and the vote count and total of the result, are the same
for every configured timeout and every clock reading. With the vote recorded, the
round is marked achieved when the count of some value passes the quorum test of
checkConsensus, the vote count of the result being the largest count and the
total the number of recorded votes; when no count passes the test the round stays
without a result. -/
theorem vote_outcome_ignores_timeout (H : String → String) (cp : ConsensusProtocol)
    (message : Message) (proposalID : String) (vote : Vote) (round : VoteRound) (now : Int)
    (hpayload : message.Payload = Payload.fields (some proposalID) (some vote))
    (hround : mapGet cp.votes proposalID = some round)
    (hopen : round.Consensus = none) :
    (∀ timeout now1 : Int,
      (ConsensusProtocol.GetConsensusResult
        (ConsensusProtocol.handleVote H { cp with timeout := timeout } message now1)
          proposalID).map (fun r => (r.VoteCount, r.TotalVotes, r.Achieved)) =
      (ConsensusProtocol.GetConsensusResult
        (ConsensusProtocol.handleVote H cp message now) proposalID).map
          (fun r => (r.VoteCount, r.TotalVotes, r.Achieved))) ∧
    ((∃ kv ∈ ConsensusProtocol.countVotes H (mapSet round.Votes vote.NodeID vote),
        kv.2 ≥ quorumThreshold (cp.peers.length + 1)) →
      ∃ res, ConsensusProtocol.GetConsensusResult
          (ConsensusProtocol.handleVote H cp message now) proposalID = some res ∧
        res.Achieved = true ∧
        res.TotalVotes = ((mapSet round.Votes vote.NodeID vote).length : Int) ∧
        (∀ kv ∈ ConsensusProtocol.countVotes H (mapSet round.Votes vote.NodeID vote),
          kv.2 ≤ res.VoteCount) ∧
        (∃ kv ∈ ConsensusProtocol.countVotes H (mapSet round.Votes vote.NodeID vote),
          kv.2 = res.VoteCount)) ∧
    ((∀ kv ∈ ConsensusProtocol.countVotes H (mapSet round.Votes vote.NodeID vote),
        kv.2 < quorumThreshold (cp.peers.length + 1)) →
      ConsensusProtocol.GetConsensusResult
        (ConsensusProtocol.handleVote H cp message now) proposalID = none) := by
  have hv : ∀ (timeout now1 : Int),
      ConsensusProtocol.GetConsensusResult
        (ConsensusProtocol.handleVote H { cp with timeout := timeout } message now1)
          proposalID =
        if (ConsensusProtocol.findMajority
            (ConsensusProtocol.countVotes H (mapSet round.Votes vote.NodeID vote))).2 ≥
            quorumThreshold (cp.peers.length + 1) then
          some
            { Value := (ConsensusProtocol.findMajority
                (ConsensusProtocol.countVotes H (mapSet round.Votes vote.NodeID vote))).1
              VoteCount := (ConsensusProtocol.findMajority
                (ConsensusProtocol.countVotes H (mapSet round.Votes vote.NodeID vote))).2
              TotalVotes := ((mapSet round.Votes vote.NodeID vote).length : Int)
              Achieved := true }
        else none := by
    intro timeout now1
    simp only [ConsensusProtocol.handleVote, hpayload, hround,
      ConsensusProtocol.checkConsensus, mapGet_mapSet_self, hopen, Option.isSome_none,
      Bool.false_eq_true, if_false]
    split_ifs with hq
    · simp only [ConsensusProtocol.GetConsensusResult, mapGet_mapSet_self]
    · simp only [ConsensusProtocol.GetConsensusResult, mapGet_mapSet_self, hopen]
  have hsame : ConsensusProtocol.handleVote H cp message now =
      ConsensusProtocol.handleVote H { cp with timeout := cp.timeout } message now := rfl
  have hmax := findMajority_max
    (ConsensusProtocol.countVotes H (mapSet round.Votes vote.NodeID vote)) (nilValue, 0)
  have hpick := findMajority_fold
    (ConsensusProtocol.countVotes H (mapSet round.Votes vote.NodeID vote)) (nilValue, 0)
  have hnn := (countVotes_wf H (mapSet round.Votes vote.NodeID vote)).2.1
  have hne := countVotes_ne_nil H (mapSet round.Votes vote.NodeID vote) (mapSet_ne_nil _ _ _)
  obtain ⟨kv1, hkv1⟩ := List.exists_mem_of_ne_nil _ hne
  have hsome : ∃ kv ∈ ConsensusProtocol.countVotes H (mapSet round.Votes vote.NodeID vote),
      kv.2 = (ConsensusProtocol.findMajority
        (ConsensusProtocol.countVotes H (mapSet round.Votes vote.NodeID vote))).2 := by
    rcases hpick with g | g
    · refine ⟨kv1, hkv1, ?_⟩
      have h1 := hmax.2 kv1 hkv1
      have h2 := hnn kv1 hkv1
      unfold ConsensusProtocol.findMajority
      simp only [] at g
      omega
    · exact g
  refine ⟨?_, ?_, ?_⟩
  · intro timeout now1
    rw [hsame, hv, hv]
  · rintro ⟨kv, hkv, hge⟩
    have hq : (ConsensusProtocol.findMajority
        (ConsensusProtocol.countVotes H (mapSet round.Votes vote.NodeID vote))).2 ≥
        quorumThreshold (cp.peers.length + 1) := by
      have h1 := hmax.2 kv hkv
      unfold ConsensusProtocol.findMajority
      omega
    rw [hsame, hv, if_pos hq]
    exact ⟨_, rfl, rfl, rfl, hmax.2, hsome⟩
  · intro hlt
    obtain ⟨kv, hkv, he⟩ := hsome
    have hq : ¬ (ConsensusProtocol.findMajority
        (ConsensusProtocol.countVotes H (mapSet round.Votes vote.NodeID vote))).2 ≥
        quorumThreshold (cp.peers.length + 1) := by
      have h1 := hlt kv hkv
      omega
    rw [hsame, hv, if_neg hq]

/-- C30 (witness). In the round that node n0 (one peer, timeout 1000) started at time
1, the vote of p1 handled at time 5000 brings the count of X to 2, which passes
the quorum test: the round is marked achieved with 2 of 2 votes, as it is when the
vote is handled at time 2 or the timeout is one hour. -/
theorem vote_outcome_ignores_timeout_witness :
    ConsensusProtocol.countVotes stubDigest
      (mapSet [("n0", { NodeID := "n0", Value := "X", Timestamp := 1, Signature := [] })]
        "p1" { NodeID := "p1", Value := "X", Timestamp := 2, Signature := [] }) =
      [(stubDigest "X", 2)] ∧
    (ConsensusProtocol.GetConsensusResult
      (ConsensusProtocol.handleVote stubDigest
        { ConsensusProtocol.run stubDigest pairNode [ConsensusOp.propose "r" "X" 1] with
          timeout := 3600000000000 }
        quorumVote 2) "r").map (fun r => (r.VoteCount, r.TotalVotes, r.Achieved)) =
    (ConsensusProtocol.GetConsensusResult
      (ConsensusProtocol.handleVote stubDigest
        (ConsensusProtocol.run stubDigest pairNode [ConsensusOp.propose "r" "X" 1])
        quorumVote 5000) "r").map (fun r => (r.VoteCount, r.TotalVotes, r.Achieved)) ∧
    (∃ res, ConsensusProtocol.GetConsensusResult
        (ConsensusProtocol.handleVote stubDigest
          (ConsensusProtocol.run stubDigest pairNode [ConsensusOp.propose "r" "X" 1])
          quorumVote 5000) "r" = some res ∧
      res.Achieved = true ∧ res.TotalVotes = 2 ∧ res.VoteCount = 2) :=
  ⟨by decide,
    (vote_outcome_ignores_timeout stubDigest
      (ConsensusProtocol.run stubDigest pairNode [ConsensusOp.propose "r" "X" 1])
      quorumVote "r" { NodeID := "p1", Value := "X", Timestamp := 2, Signature := [] }
      { ID := "r", Proposal := "X"
        Votes := [("n0", { NodeID := "n0", Value := "X", Timestamp := 1, Signature := [] })]
        StartTime := 1, EndTime := none, Consensus := none }
      5000 rfl (by decide) rfl).1 3600000000000 2,
    by
      obtain ⟨res, h1, h2, h3, h4, h5⟩ :=
        (vote_outcome_ignores_timeout stubDigest
          (ConsensusProtocol.run stubDigest pairNode [ConsensusOp.propose "r" "X" 1])
          quorumVote "r" { NodeID := "p1", Value := "X", Timestamp := 2, Signature := [] }
          { ID := "r", Proposal := "X"
            Votes := [("n0", { NodeID := "n0", Value := "X", Timestamp := 1, Signature := [] })]
            StartTime := 1, EndTime := none, Consensus := none }
          5000 rfl (by decide) rfl).2.1 ⟨(stubDigest "X", 2), by decide, by decide⟩
      exact ⟨res, h1, h2, h3, le_antisymm
        (by
          obtain ⟨kv, hkv, he⟩ := h5
          have hk : kv = (stubDigest "X", 2) := by
            have hm : kv ∈ [(stubDigest "X", (2 : Int))] := hkv
            simpa using hm
          rw [← he, hk])
        (h4 (stubDigest "X", 2) (by decide))⟩⟩

end KatyaMesh
